import Mathlib

/-!
# Verification of the network-algorithms library

A shallow embedding, in Lean 4, of the parts of the Rust library
(`maximum_flow` and `minimum_cost_flow` modules) needed to settle the
specification claims: the user-facing graph builders, the CSR residual
graph, the BFS distance labels, several solvers, the spanning-tree
structure and the network-simplex pivot rules.

Machine integers of the library are generic over an ordered numeric type;
the canonical instantiation is a signed integer, embedded here as `Int`.
`Vec<T>` becomes `List T`; indexed reads are `List.getD` (in-bounds
behaviour identical to Rust, and theorems carry the well-formedness
hypotheses that put the indices in bounds), while writes that the
surrounding code cannot justify in-bounds are checked (`Option`): `none`
models a Rust panic.  Loops without a structural bound take fuel; `none`
also models fuel exhaustion, so every `some` result is a result the Rust
program actually returns.
-/

namespace NetworkAlgorithms

/-! ## Definitions -/

/-- `Vec::resize(n, v)`: truncate to `n` or pad with `v` up to `n`. -/
def vresize {α : Type} (l : List α) (n : Nat) (v : α) : List α :=
  if n ≤ l.length then l.take n else l ++ List.replicate (n - l.length) v

/-- Checked write `l[i] = a`; `none` models a Rust out-of-bounds panic. -/
def vset {α : Type} (l : List α) (i : Nat) (a : α) : Option (List α) :=
  if i < l.length then some (l.set i a) else none

namespace MinCostFlow

/-- `minimum_cost_flow::status::Status`.
Modelled from the spec: the file `src/minimum_cost_flow/status.rs` is not
present under `src/`; §6 of the spec lists the minimum-cost-flow statuses
`Unbalanced`, `Infeasible`, `Optimal`, `NotSolved`, `BadInput`. -/
inductive Status where
  | NotSolved
  | BadInput
  | Unbalanced
  | Infeasible
  | Optimal
deriving Repr, DecidableEq

/-- `minimum_cost_flow::graph::Edge<Flow>`. -/
structure Edge where
  «from» : Nat
  «to» : Nat
  flow : Int
  lower : Int
  upper : Int
  cost : Int
deriving Repr, DecidableEq

instance : Inhabited Edge := ⟨⟨0, 0, 0, 0, 0, 0⟩⟩

/-- `minimum_cost_flow::graph::Graph<Flow>`. -/
structure Graph where
  num_nodes : Nat
  num_edges : Nat
  edges : List Edge
  b : List Int
  lowers : List Int
  excesses : List Int
  is_reversed : List Bool
deriving Repr, DecidableEq

/-- The length bookkeeping every graph produced by the builder API enjoys. -/
structure Graph.WF (g : Graph) : Prop where
  edges_len : g.edges.length = g.num_edges
  lowers_len : g.lowers.length = g.num_edges
  rev_len : g.is_reversed.length = g.num_edges
  b_len : g.b.length = g.num_nodes
  excesses_len : g.excesses.length = g.num_nodes

/-- `Graph::add_node`. -/
def Graph.add_node (g : Graph) : Nat × Graph :=
  (g.num_nodes,
    { g with b := g.b ++ [0], excesses := g.excesses ++ [0], num_nodes := g.num_nodes + 1 })

/-- `Graph::add_directed_edge(from, to, lower, upper, cost)`.  Returns the
new edge id on success; on rejection the graph comes back untouched (the
Rust method returns `None` having mutated nothing). -/
def Graph.add_directed_edge (g : Graph) (f t : Nat) (lower upper cost : Int) :
    Option Nat × Graph :=
  if lower > upper ∨ f ≥ g.num_nodes ∨ t ≥ g.num_nodes then
    (none, g)
  else if 0 ≤ cost then
    (some g.num_edges,
      { g with
        edges := g.edges ++ [{ «from» := f, «to» := t, flow := 0, lower := 0,
                               upper := upper - lower, cost := cost }]
        excesses := ((g.excesses.set f (g.excesses.getD f 0 - lower)).set t
          ((g.excesses.set f (g.excesses.getD f 0 - lower)).getD t 0 + lower))
        lowers := g.lowers ++ [lower]
        is_reversed := g.is_reversed ++ [false]
        num_edges := g.num_edges + 1 })
  else
    (some g.num_edges,
      { g with
        edges := g.edges ++ [{ «from» := t, «to» := f, flow := 0, lower := 0,
                               upper := upper - lower, cost := -cost }]
        excesses := ((g.excesses.set f (g.excesses.getD f 0 - upper)).set t
          ((g.excesses.set f (g.excesses.getD f 0 - upper)).getD t 0 + upper))
        lowers := g.lowers ++ [lower]
        is_reversed := g.is_reversed ++ [true]
        num_edges := g.num_edges + 1 })

/-- `Graph::get_edge(edge_id)`: restores orientation and bounds. -/
def Graph.get_edge (g : Graph) (edge_id : Nat) : Option Edge :=
  if edge_id ≥ g.edges.length then none
  else
    let e := g.edges.getD edge_id default
    let lower := g.lowers.getD edge_id 0
    if g.is_reversed.getD edge_id false then
      some { «from» := e.«to», «to» := e.«from», flow := e.upper - e.flow + lower,
             lower := lower, upper := e.upper + lower, cost := -e.cost }
    else
      some { «from» := e.«from», «to» := e.«to», flow := e.flow + lower,
             lower := lower, upper := e.upper + lower, cost := e.cost }

/-- `Graph::minimum_cost`. -/
def Graph.minimum_cost (g : Graph) : Int :=
  (List.range g.num_edges).foldl
    (fun cost edge_id =>
      let e := (g.get_edge edge_id).getD default
      cost + e.cost * e.flow) 0

/-- `Graph::is_unbalance`. -/
def Graph.is_unbalance (g : Graph) : Bool :=
  g.b.foldl (fun sum excess => sum + excess) 0 ≠ 0

end MinCostFlow

namespace MaxFlow

/-- `maximum_flow::status::Status`.
Modelled from the spec: the file `src/maximum_flow/status.rs` is not
present under `src/`; §6 of the spec gives the maximum-flow statuses
(`Optimal`, `BadInput`), and the sibling `generalized_maximum_flow`
status enum exhibits the variant set. -/
inductive Status where
  | NotSolved
  | BadInput
  | Optimal
deriving Repr, DecidableEq

/-- `maximum_flow::graph::Edge<Flow>`. -/
structure Edge where
  «from» : Nat
  «to» : Nat
  flow : Int
  upper : Int
deriving Repr, DecidableEq

instance : Inhabited Edge := ⟨⟨0, 0, 0, 0⟩⟩

/-- `maximum_flow::graph::Graph<Flow>`. -/
structure Graph where
  num_nodes : Nat
  num_edges : Nat
  edges : List Edge
  excesses : List Int
deriving Repr, DecidableEq

/-- `Graph::add_node`. -/
def Graph.add_node (g : Graph) : Nat × Graph :=
  (g.num_nodes, { g with excesses := g.excesses ++ [0], num_nodes := g.num_nodes + 1 })

/-- `Graph::add_directed_edge(from, to, upper)`. -/
def Graph.add_directed_edge (g : Graph) (f t : Nat) (upper : Int) :
    Option Nat × Graph :=
  if f ≥ g.num_nodes ∨ t ≥ g.num_nodes then
    (none, g)
  else
    (some g.num_edges,
      { g with
        edges := g.edges ++ [{ «from» := f, «to» := t, flow := 0, upper := upper }]
        num_edges := g.num_edges + 1 })

/-- `Graph::get_edge(edge_id)`. -/
def Graph.get_edge (g : Graph) (edge_id : Nat) : Option Edge :=
  if edge_id ≥ g.edges.length then none
  else some (g.edges.getD edge_id default)

/-- `Graph::maximum_flow(source)`: flow out of `source` minus flow into it.
The Rust body unwraps `get_edge`; `none` models that panic. -/
def Graph.maximum_flow (g : Graph) (source : Nat) : Option Int :=
  (List.range g.num_edges).foldlM
    (fun flow edge_index => do
      let e ← g.get_edge edge_index
      if e.«from» = source then pure (flow + e.flow)
      else if e.«to» = source then pure (flow - e.flow)
      else pure flow) 0

/-- `usize::MAX`, the sentinel index. -/
def usizeMax : Nat := 2 ^ 64 - 1

/-- `maximum_flow::csr::InsideEdge<Flow>` (Rust `Default`: all zero). -/
structure InsideEdge where
  «to» : Nat
  flow : Int
  upper : Int
  rev : Nat
deriving Repr, DecidableEq

instance : Inhabited InsideEdge := ⟨⟨0, 0, 0, 0⟩⟩

/-- `InsideEdge::residual_capacity`. -/
def InsideEdge.residual_capacity (e : InsideEdge) : Int :=
  e.upper - e.flow

/-- `maximum_flow::csr::CSR<Flow>`. -/
structure CSR where
  num_nodes : Nat
  num_edges : Nat
  edge_index_to_inside_edge_index : List Nat
  start : List Nat
  inside_edge_list : List InsideEdge
  distances : List Nat
  que : List Nat
deriving Repr, DecidableEq

/-- `CSR::default()`. -/
def CSR.init : CSR :=
  { num_nodes := 0, num_edges := 0, edge_index_to_inside_edge_index := [],
    start := [], inside_edge_list := [], distances := [], que := [] }

/-- The degree-counting loop of `CSR::build`: `degree[e.to] += 1;
degree[e.from] += 1` for every raw edge, with checked indexing. -/
def degreeLoop : List Edge → List Nat → Option (List Nat)
  | [], deg => some deg
  | e :: rest, deg => do
      let d1 ← vset deg e.«to» (deg.getD e.«to» 0 + 1)
      let d2 ← vset d1 e.«from» (d1.getD e.«from» 0 + 1)
      degreeLoop rest d2

/-- The prefix-sum loop of `CSR::build`:
`for i in 1..=num_nodes { start[i] += start[i-1] + degree[i-1] }`;
`count` counts the remaining iterations, `i` is the Rust loop variable. -/
def prefixLoop (degree : List Nat) : List Nat → Nat → Nat → List Nat
  | s, _, 0 => s
  | s, i, count + 1 =>
      prefixLoop degree
        (s.set i (s.getD i 0 + s.getD (i - 1) 0 + degree.getD (i - 1) 0)) (i + 1) count

/-- The pair-placement loop of `CSR::build`: for the `k`-th raw edge
`(u, v)` place the forward arc at `start[u] + counter[u]` and the reverse
arc at `start[v] + counter[v]`, record the forward position in
`edge_index_to_inside_edge_index`, and advance the counters. -/
def placeLoop (start1 : List Nat) :
    List Edge → Nat → List Nat → List Nat → List InsideEdge →
    Option (List Nat × List InsideEdge)
  | [], _, _, eii, inside => some (eii, inside)
  | e :: rest, k, counter, eii, inside => do
      let u := e.«from»
      let v := e.«to»
      let iu := start1.getD u 0 + counter.getD u 0
      let counter1 ← vset counter u (counter.getD u 0 + 1)
      let iv := start1.getD v 0 + counter1.getD v 0
      let eii1 ← vset eii k iu
      let counter2 ← vset counter1 v (counter1.getD v 0 + 1)
      let inside1 ← vset inside iu { «to» := v, flow := 0, upper := e.upper, rev := iv }
      let inside2 ← vset inside1 iv { «to» := u, flow := e.upper, upper := e.upper, rev := iu }
      placeLoop start1 rest (k + 1) counter2 eii1 inside2

/-- `CSR::build(graph)`: size and reset the buffers (`resize` keeps stale
contents in range, exactly as `Vec::resize` does), count degrees, prefix-sum
them into `start`, then place the paired arcs. -/
def CSR.build (c : CSR) (g : Graph) : Option CSR := do
  let N := g.num_nodes
  let M := g.num_edges
  let eii0 := vresize c.edge_index_to_inside_edge_index M usizeMax
  let start0 := vresize c.start (N + 1) 0
  let inside0 : List InsideEdge := List.replicate (2 * M) default
  let dist0 := vresize c.distances N N
  let degree ← degreeLoop g.edges (List.replicate N 0)
  let start1 := prefixLoop degree start0 1 N
  let (eii1, inside1) ← placeLoop start1 g.edges 0 (List.replicate N 0) eii0 inside0
  pure { num_nodes := N, num_edges := M, edge_index_to_inside_edge_index := eii1,
         start := start1, inside_edge_list := inside1, distances := dist0, que := c.que }

/-- `CSR::set_flow(graph)`: copy each forward arc's flow back to the user
edge list. -/
def CSR.set_flow (c : CSR) (g : Graph) : Graph :=
  { g with
    edges := (List.range g.num_edges).foldl
      (fun es edge_id =>
        es.set edge_id
          { es.getD edge_id default with
            flow := (c.inside_edge_list.getD
              (c.edge_index_to_inside_edge_index.getD edge_id 0) default).flow })
      g.edges }

/-- `CSR::push_flow(inside_edge_index, flow)`:
`flow[e] += δ` then `flow[rev e] −= δ`. -/
def CSR.push_flow (c : CSR) (inside_edge_index : Nat) (flow : Int) : CSR :=
  let rev := (c.inside_edge_list.getD inside_edge_index default).rev
  let l1 := c.inside_edge_list.set inside_edge_index
    { c.inside_edge_list.getD inside_edge_index default with
      flow := (c.inside_edge_list.getD inside_edge_index default).flow + flow }
  let l2 := l1.set rev
    { l1.getD rev default with flow := (l1.getD rev default).flow - flow }
  { c with inside_edge_list := l2 }

/-- `CSR::is_admissible_edge(from, i)`. -/
def CSR.is_admissible_edge (c : CSR) (f i : Nat) : Bool :=
  0 < (c.inside_edge_list.getD i default).residual_capacity ∧
    c.distances.getD f 0 = c.distances.getD (c.inside_edge_list.getD i default).«to» 0 + 1

/-- The inner arc scan of `CSR::update_distances`: for each arc `e` of `v`
(seen `e.to → v`), a node `e.to` still at distance `n` with `e.flow > 0`
receives `distances[v] + 1` and, unless it is the source, joins the queue. -/
def scanArcs (n source v : Nat) (inside : List InsideEdge) :
    List Nat → List Nat → Nat → Nat → List Nat × List Nat
  | dist, que, _, 0 => (dist, que)
  | dist, que, i, count + 1 =>
      let e := inside.getD i default
      if 0 < e.flow ∧ dist.getD e.«to» 0 = n then
        let dist1 := dist.set e.«to» (dist.getD v 0 + 1)
        let que1 := if e.«to» ≠ source then que ++ [e.«to»] else que
        scanArcs n source v inside dist1 que1 (i + 1) count
      else
        scanArcs n source v inside dist que (i + 1) count

/-- The queue loop of `CSR::update_distances` (fuel-counted). -/
def bfsLoop (n source : Nat) (startv : List Nat) (inside : List InsideEdge) :
    Nat → List Nat → List Nat → Option (List Nat)
  | 0, _, _ => none
  | _ + 1, dist, [] => some dist
  | fuel + 1, dist, v :: rest =>
      let p := scanArcs n source v inside dist rest (startv.getD v 0)
        (startv.getD (v + 1) 0 - startv.getD v 0)
      bfsLoop n source startv inside fuel p.1 p.2

/-- `CSR::update_distances(source, sink)`: reverse BFS from the sink over
arcs with `e.flow > 0`; nodes the scan never reaches keep distance
`num_nodes`.  The source is labelled but never expanded. -/
def CSR.update_distances (fuel : Nat) (c : CSR) (source sink : Nat) : Option CSR := do
  let dist0 := (List.replicate c.distances.length c.num_nodes).set sink 0
  let dist ← bfsLoop c.num_nodes source c.start c.inside_edge_list fuel dist0 [sink]
  pure { c with distances := dist, que := [] }

/-- A residual arc `u → v`: some out-arc of `u` with positive residual
capacity heading to `v`. -/
def resAdj (c : CSR) (u v : Nat) : Prop :=
  ∃ i, c.start.getD u 0 ≤ i ∧ i < c.start.getD (u + 1) 0 ∧
    (c.inside_edge_list.getD i default).«to» = v ∧
    0 < (c.inside_edge_list.getD i default).residual_capacity

/-- A residual path of a given length from a node to the sink. -/
inductive ResPathAny (c : CSR) (sink : Nat) : Nat → Nat → Prop where
  | refl : ResPathAny c sink sink 0
  | step {u v k} : resAdj c u v → ResPathAny c sink v k → ResPathAny c sink u (k + 1)

/-- A residual path to the sink that never passes through the source as an
intermediate node (the sink itself is always allowed). -/
inductive ResPath (c : CSR) (src sink : Nat) : Nat → Nat → Prop where
  | refl : ResPath c src sink sink 0
  | step {u v k} : resAdj c u v → (v = sink ∨ v ≠ src) → ResPath c src sink v k →
      ResPath c src sink u (k + 1)

/-- Well-formedness of the arc at index `i` in node `v`'s slice: it points
inside the node set and its reverse arc sits in the head node's slice,
points back, and carries the complementary flow. -/
def arcWF (c : CSR) (v i : Nat) : Prop :=
  (c.inside_edge_list.getD i default).«to» < c.num_nodes ∧
  c.start.getD (c.inside_edge_list.getD i default).«to» 0 ≤
    (c.inside_edge_list.getD i default).rev ∧
  (c.inside_edge_list.getD i default).rev <
    c.start.getD ((c.inside_edge_list.getD i default).«to» + 1) 0 ∧
  (c.inside_edge_list.getD (c.inside_edge_list.getD i default).rev default).«to» = v ∧
  (c.inside_edge_list.getD (c.inside_edge_list.getD i default).rev default).upper -
    (c.inside_edge_list.getD (c.inside_edge_list.getD i default).rev default).flow =
    (c.inside_edge_list.getD i default).flow ∧
  (c.inside_edge_list.getD i default).upper -
    (c.inside_edge_list.getD i default).flow =
    (c.inside_edge_list.getD (c.inside_edge_list.getD i default).rev default).flow

instance (c : CSR) (v i : Nat) : Decidable (arcWF c v i) := by
  unfold arcWF
  infer_instance

/-- Structural well-formedness of a CSR residual graph, as `CSR::build`
produces it: the distance buffer matches the node count and every arc of
every node's slice is well formed. -/
def CSRWF (c : CSR) : Prop :=
  c.distances.length = c.num_nodes ∧
  ∀ v, v < c.num_nodes →
    ∀ i, i < c.start.getD (v + 1) 0 →
      c.start.getD v 0 ≤ i → arcWF c v i

instance (c : CSR) : Decidable (CSRWF c) := by
  unfold CSRWF
  infer_instance

/-- Node `x` has been fully expanded by the reverse BFS: every arc of `x`
with positive flow points to a labelled node whose label is at most
`distances[x] + 1`. -/
def arcClosure (c : CSR) (dist : List Nat) (x : Nat) : Prop :=
  ∀ j, c.start.getD x 0 ≤ j → j < c.start.getD (x + 1) 0 →
    0 < (c.inside_edge_list.getD j default).flow →
    dist.getD (c.inside_edge_list.getD j default).«to» 0 ≠ c.num_nodes ∧
    dist.getD (c.inside_edge_list.getD j default).«to» 0 ≤ dist.getD x 0 + 1

/-- Partial expansion of node `x`: the closure above, restricted to the arc
indices below `m`. -/
def arcClosureUpto (c : CSR) (dist : List Nat) (x m : Nat) : Prop :=
  ∀ j, c.start.getD x 0 ≤ j → j < m →
    0 < (c.inside_edge_list.getD j default).flow →
    dist.getD (c.inside_edge_list.getD j default).«to» 0 ≠ c.num_nodes ∧
    dist.getD (c.inside_edge_list.getD j default).«to» 0 ≤ dist.getD x 0 + 1

/-- Every labelled node other than `v` is queued, is the source (labelled
but never expanded), or is fully expanded. -/
def closedExcept (c : CSR) (source sink v : Nat) (dist que : List Nat) : Prop :=
  ∀ x, x < c.num_nodes → dist.getD x 0 ≠ c.num_nodes → x ≠ v →
    x ∈ que ∨ (x = source ∧ x ≠ sink) ∨ arcClosure c dist x

/-- The core invariant of the reverse BFS of `CSR::update_distances`, at
frontier label `d`: sizes, the sink labelled `0`, all labels below
`num_nodes` with contiguous layers below them, soundness of every label as a
restricted residual path length, and the queue holding labelled non-source
nodes with labels in `[d, d+1]`, in nondecreasing order, dominating every
assigned label. -/
structure BfsCore (c : CSR) (source sink d : Nat) (dist que : List Nat) : Prop where
  dlen : dist.length = c.num_nodes
  sink_lt : sink < c.num_nodes
  sink0 : dist.getD sink 0 = 0
  lt : ∀ u, u < c.num_nodes → dist.getD u 0 ≠ c.num_nodes →
    dist.getD u 0 < c.num_nodes
  layers : ∀ u, u < c.num_nodes → dist.getD u 0 ≠ c.num_nodes →
    ∀ j, j ≤ dist.getD u 0 → ∃ x, x < c.num_nodes ∧ dist.getD x 0 = j
  sound : ∀ u, u < c.num_nodes → dist.getD u 0 ≠ c.num_nodes →
    ResPath c source sink u (dist.getD u 0)
  que_ok : ∀ w, w ∈ que → w < c.num_nodes ∧ dist.getD w 0 ≠ c.num_nodes ∧
    (w = sink ∨ w ≠ source)
  que_lb : ∀ w, w ∈ que → d ≤ dist.getD w 0 ∧ dist.getD w 0 ≤ d + 1
  que_sorted : que.Pairwise (fun a b => dist.getD a 0 ≤ dist.getD b 0)
  bound : ∀ w, w < c.num_nodes → dist.getD w 0 ≠ c.num_nodes →
    dist.getD w 0 ≤ d + 1

/-- The built CSR of the three-node instance with edges `2 → 0` and `0 → 1`
(capacity 1 each) after pushing one unit on each: used to instantiate the
BFS characterisation. -/
def bfsWitnessCSR : CSR :=
  { num_nodes := 3, num_edges := 2, edge_index_to_inside_edge_index := [3, 1],
    start := [0, 2, 3, 4],
    inside_edge_list := [{ «to» := 2, flow := 1, upper := 1, rev := 3 },
                         { «to» := 1, flow := 0, upper := 1, rev := 2 },
                         { «to» := 0, flow := 1, upper := 1, rev := 1 },
                         { «to» := 0, flow := 0, upper := 1, rev := 0 }],
    distances := [3, 3, 3], que := [] }

/-- `bfsWitnessCSR` after `update_distances(0, 1)`. -/
def bfsWitnessCSRAfter : CSR :=
  { bfsWitnessCSR with distances := [1, 0, 3] }

/-! ### Correctness of the CSR pair placement

The two-pass construction in `CSR::build` places, for the `k`-th raw edge
`(u, v)`, a forward arc at `start[u] + counter[u]` and a reverse arc at
`start[v] + counter[v]`.  The combinatorics below: `inc e w` is the number
of endpoint slots edge `e` contributes to node `w`, `cntIn E w` the degree
of `w`, `cBef E j w` the slots of `w` used by the first `j` edges, `psum`
the prefix sums that `start` holds, and `posF`/`posR` the final positions
of the two arcs of each edge. -/
/-- Endpoint slots edge `e` contributes to node `w` (a self-loop counts
twice, matching the two `degree` bumps in `CSR::build`). -/
def inc (e : Edge) (w : Nat) : Nat :=
  (if e.«to» = w then 1 else 0) + (if e.«from» = w then 1 else 0)

/-- Total endpoint slots of node `w` over an edge list (`degree[w]`). -/
def cntIn (E : List Edge) (w : Nat) : Nat :=
  (E.map (fun e => inc e w)).sum

/-- Slots of node `w` consumed by the first `j` edges (`counter[w]` right
before edge `j` is placed). -/
def cBef (E : List Edge) (j w : Nat) : Nat :=
  cntIn (E.take j) w

/-- Prefix sums of the degrees (`start[w]`). -/
def psum (E : List Edge) (w : Nat) : Nat :=
  ((List.range w).map (fun x => cntIn E x)).sum

/-- Final position of the forward arc of edge `j`. -/
def posF (E : List Edge) (j : Nat) : Nat :=
  psum E (E.getD j default).«from» + cBef E j (E.getD j default).«from»

/-- Final position of the reverse arc of edge `j` (for a self-loop the
forward placement has already advanced the counter). -/
def posR (E : List Edge) (j : Nat) : Nat :=
  psum E (E.getD j default).«to» + (cBef E j (E.getD j default).«to» +
    (if (E.getD j default).«from» = (E.getD j default).«to» then 1 else 0))

/-- Final content of the forward arc of edge `j`. -/
def fwdArc (E : List Edge) (j : Nat) : InsideEdge :=
  { «to» := (E.getD j default).«to», flow := 0, upper := (E.getD j default).upper,
    rev := posR E j }

/-- Final content of the reverse arc of edge `j`. -/
def revArc (E : List Edge) (j : Nat) : InsideEdge :=
  { «to» := (E.getD j default).«from», flow := (E.getD j default).upper,
    upper := (E.getD j default).upper, rev := posF E j }

/-- The paired-arc invariant of the residual graph: every arc has a partner
`rev` within bounds, the pairing is an involution without fixed points, the
partners agree on `upper`, and their flows sum to `upper`. -/
def Pairing (l : List InsideEdge) : Prop :=
  ∀ i, i < l.length →
    (l.getD i default).rev < l.length ∧
    (l.getD i default).rev ≠ i ∧
    (l.getD ((l.getD i default).rev) default).rev = i ∧
    (l.getD ((l.getD i default).rev) default).upper = (l.getD i default).upper ∧
    (l.getD i default).flow + (l.getD ((l.getD i default).rev) default).flow
      = (l.getD i default).upper

/-- `CSR::neighbors(u)`: the out-arc slice of `u`. -/
def CSR.neighbors (c : CSR) (u : Nat) : List InsideEdge :=
  (c.inside_edge_list.drop (c.start.getD u 0)).take
    (c.start.getD (u + 1) 0 - c.start.getD u 0)

/-- `maximum_flow::ford_fulkerson::FordFulkerson<Flow>`: the solver owns its
CSR scratch state. -/
structure FordFulkerson where
  csr : CSR
deriving Repr, DecidableEq

/-- The arc loop of `FordFulkerson::dfs`: try each remaining out-arc of `u`;
`next` is the recursive DFS call at one fuel less.  The inner option is the
Rust return value, the outer one models fuel exhaustion. -/
def ffScan (next : CSR → List Bool → Nat → Int → Option (Option Int × CSR × List Bool))
    (c : CSR) (visited : List Bool) :
    List Nat → Option (Option Int × CSR × List Bool)
  | [] => some (none, c, visited)
  | i :: rest =>
      let e := c.inside_edge_list.getD i default
      if visited.getD e.«to» false ∨ e.residual_capacity = 0 then
        ffScan next c visited rest
      else
        match next c visited e.«to» e.residual_capacity with
        | none => none
        | some (some d, c', visited') => some (some d, c'.push_flow i d, visited')
        | some (none, c', visited') => ffScan next c' visited' rest

/-- `FordFulkerson::dfs(u, sink, flow, visited)` (fuel-counted recursion). -/
def ffDfs : Nat → CSR → List Bool → Nat → Nat → Int → Option (Option Int × CSR × List Bool)
  | 0, _, _, _, _, _ => none
  | fuel + 1, c, visited, u, sink, flow =>
      if u = sink then some (some flow, c, visited)
      else
        ffScan (fun c' v' u' f' => ffDfs fuel c' v' u' sink (min flow f'))
          c (visited.set u true)
          (List.range' (c.start.getD u 0) (c.start.getD (u + 1) 0 - c.start.getD u 0))

/-- The augmenting loop of `FordFulkerson::solve`. -/
def ffLoop : Nat → CSR → Nat → Nat → Int → Int → Option (CSR × Int)
  | 0, _, _, _, _, _ => none
  | fuel + 1, c, source, sink, upper, flow =>
      match ffDfs fuel c (List.replicate c.num_nodes false) source sink upper with
      | none => none
      | some (some delta, c', _) => ffLoop fuel c' source sink upper (flow + delta)
      | some (none, c', _) => some (c', flow)

/-- `FordFulkerson::solve(source, sink, graph)`. -/
def FordFulkerson.solve (fuel : Nat) (s : FordFulkerson) (source sink : Nat) (g : Graph) :
    Option (Status × Graph × FordFulkerson) := do
  let c ← CSR.build s.csr g
  let upper := (c.neighbors source).foldl (fun sum e => sum + e.upper) 0
  let (c, _) ← ffLoop fuel c source sink upper 0
  pure (Status.Optimal, c.set_flow g, ⟨c⟩)

/-- `maximum_flow::capacity_scaling::CapacityScaling<Flow>`. -/
structure CapacityScaling where
  csr : CSR
  current_edge : List Nat
deriving Repr, DecidableEq

/-- The inner arc scan of `CapacityScaling::bfs`: an arc is usable when its
reverse has residual capacity at least `δ`. -/
def csScanArcs (n source v : Nat) (inside : List InsideEdge) (δ : Int) :
    List Nat → List Nat → Nat → Nat → List Nat × List Nat
  | dist, que, _, 0 => (dist, que)
  | dist, que, i, count + 1 =>
      let e := inside.getD i default
      if δ ≤ (inside.getD e.rev default).residual_capacity ∧ dist.getD e.«to» 0 = n then
        let dist1 := dist.set e.«to» (dist.getD v 0 + 1)
        let que1 := if e.«to» ≠ source then que ++ [e.«to»] else que
        csScanArcs n source v inside δ dist1 que1 (i + 1) count
      else
        csScanArcs n source v inside δ dist que (i + 1) count

/-- The queue loop of `CapacityScaling::bfs` (fuel-counted). -/
def csBfsLoop (n source : Nat) (startv : List Nat) (inside : List InsideEdge) (δ : Int) :
    Nat → List Nat → List Nat → Option (List Nat)
  | 0, _, _ => none
  | _ + 1, dist, [] => some dist
  | fuel + 1, dist, v :: rest =>
      let p := csScanArcs n source v inside δ dist rest (startv.getD v 0)
        (startv.getD (v + 1) 0 - startv.getD v 0)
      csBfsLoop n source startv inside δ fuel p.1 p.2

/-- `CapacityScaling::bfs(source, sink, delta)`. -/
def CapacityScaling.bfs (fuel : Nat) (c : CSR) (source sink : Nat) (δ : Int) :
    Option CSR := do
  let dist0 := (List.replicate c.distances.length c.num_nodes).set sink 0
  let dist ← csBfsLoop c.num_nodes source c.start c.inside_edge_list δ fuel dist0 [sink]
  pure { c with distances := dist, que := [] }

/-- The arc loop of `CapacityScaling::dfs` over the current-edge pointer. -/
def csDfsScan (next : CSR → List Nat → Nat → Int → Option (Int × CSR × List Nat))
    (u : Nat) (upper δ : Int) :
    CSR → List Nat → Int → List Nat → Option (Int × CSR × List Nat)
  | c, ce, res, [] =>
      let ce1 := ce.set u (c.start.getD (u + 1) 0)
      let c1 := { c with distances := c.distances.set u c.num_nodes }
      some (res, c1, ce1)
  | c, ce, res, i :: rest =>
      let ce1 := ce.set u i
      let e := c.inside_edge_list.getD i default
      if ¬ c.is_admissible_edge u i ∨ e.residual_capacity < δ then
        csDfsScan next u upper δ c ce1 res rest
      else
        match next c ce1 e.«to» (min e.residual_capacity (upper - res)) with
        | none => none
        | some (d, c', ce') =>
            let c2 := c'.push_flow i d
            if res + d = upper then some (res + d, c2, ce')
            else csDfsScan next u upper δ c2 ce' (res + d) rest

/-- `CapacityScaling::dfs(u, sink, upper, delta)` (fuel-counted). -/
def csDfs : Nat → CSR → List Nat → Nat → Nat → Int → Int → Option (Int × CSR × List Nat)
  | 0, _, _, _, _, _, _ => none
  | fuel + 1, c, ce, u, sink, upper, δ =>
      if u = sink then some (upper, c, ce)
      else
        csDfsScan (fun c' ce' v f => csDfs fuel c' ce' v sink f δ) u upper δ c ce 0
          (List.range' (ce.getD u 0) (c.start.getD (u + 1) 0 - ce.getD u 0))

/-- The blocking-flow loop of `CapacityScaling::solve` at one `δ`. -/
def csInnerLoop (source sink : Nat) (upper δ : Int) :
    Nat → CSR → List Nat → Int → Option (CSR × List Nat × Int)
  | 0, _, _, _ => none
  | fuel + 1, c, ce, flow =>
      match CapacityScaling.bfs fuel c source sink δ with
      | none => none
      | some c1 =>
          if c1.num_nodes ≤ c1.distances.getD source 0 then some (c1, ce, flow)
          else
            let ce1 := (List.range c1.num_nodes).foldl
              (fun l u => l.set u (c1.start.getD u 0)) ce
            match csDfs fuel c1 ce1 source sink upper δ with
            | none => none
            | some (d, c2, ce2) => csInnerLoop source sink upper δ fuel c2 ce2 (flow + d)

/-- The `δ`-halving loop of `CapacityScaling::solve`. -/
def csDeltaLoop (source sink : Nat) (upper : Int) :
    Nat → CSR → List Nat → Int → Int → Option (CSR × List Nat × Int)
  | 0, _, _, _, _ => none
  | fuel + 1, c, ce, δ, flow =>
      if 0 < δ then
        match csInnerLoop source sink upper δ fuel c ce flow with
        | none => none
        | some (c1, ce1, flow1) => csDeltaLoop source sink upper fuel c1 ce1 (δ / 2) flow1
      else some (c, ce, flow)

/-- The initial doubling `while delta <= max_capacity { delta *= two }`. -/
def csDouble : Nat → Int → Int → Option Int
  | 0, _, _ => none
  | fuel + 1, δ, maxc => if δ ≤ maxc then csDouble fuel (δ * 2) maxc else some δ

/-- `CapacityScaling::solve(source, sink, graph)`.  The unwrap of
`inside_edge_list.iter().map(|e| e.upper).max()` panics (`none`) when the
graph has no edges. -/
def CapacityScaling.solve (fuel : Nat) (s : CapacityScaling) (source sink : Nat)
    (g : Graph) : Option (Status × Graph × CapacityScaling) := do
  let c ← CSR.build s.csr g
  let ce := vresize s.current_edge c.num_nodes 0
  let maxc ← (c.inside_edge_list.map (fun e => e.upper)).max?
  let δ0 ← csDouble fuel 1 maxc
  let upper := (c.neighbors source).foldl (fun sum e => sum + e.upper) 0
  let (c1, ce1, _) ← csDeltaLoop source sink upper fuel c ce (δ0 / 2) 0
  let g1 := { g with
    edges := (List.range g.num_edges).foldl
      (fun es edge_id =>
        es.set edge_id
          { es.getD edge_id default with
            flow := (c1.inside_edge_list.getD
              (c1.edge_index_to_inside_edge_index.getD edge_id 0) default).flow })
      g.edges }
  pure (Status.Optimal, g1, ⟨c1, ce1⟩)

/-- `maximum_flow::push_relabel_fifo::PushRelabelFIFO<Flow>`. -/
structure PushRelabelFIFO where
  csr : CSR
  excesses : List Int
  alpha : Nat
  relabel_count : Nat
  active_nodes : List Nat
  current_edge : List Nat
  distance_count : List Nat
deriving Repr, DecidableEq

/-- `PushRelabelFIFO::push(u, edge_id)`. -/
def PushRelabelFIFO.push (s : PushRelabelFIFO) (u edge_id : Nat) : PushRelabelFIFO :=
  let tv := (s.csr.inside_edge_list.getD edge_id default).«to»
  let delta := min (s.excesses.getD u 0)
    (s.csr.inside_edge_list.getD edge_id default).residual_capacity
  if s.csr.is_admissible_edge u edge_id ∧ 0 < delta then
    let csr1 := s.csr.push_flow edge_id delta
    let ex1 := s.excesses.set u (s.excesses.getD u 0 - delta)
    let ex2 := ex1.set tv (ex1.getD tv 0 + delta)
    let act := if ex2.getD tv 0 = delta then s.active_nodes ++ [tv] else s.active_nodes
    { s with csr := csr1, excesses := ex2, active_nodes := act }
  else s

/-- `PushRelabelFIFO::relabel(u)`; the `min().unwrap()` over arcs with
positive residual is `none` (a panic) when no such arc exists. -/
def PushRelabelFIFO.relabel (s : PushRelabelFIFO) (u : Nat) : Option PushRelabelFIFO :=
  let d := s.csr.distances.getD u 0
  let s1 := { s with
    relabel_count := s.relabel_count + 1,
    distance_count := s.distance_count.set d (s.distance_count.getD d 0 - 1) }
  match (((s1.csr.neighbors u).filter (fun e => 0 < e.residual_capacity)).map
      (fun e => s1.csr.distances.getD e.«to» 0 + 1)).min? with
  | none => none
  | some m =>
      let nd := min m s1.csr.num_nodes
      some { s1 with
        csr := { s1.csr with distances := s1.csr.distances.set u nd },
        distance_count := s1.distance_count.set nd (s1.distance_count.getD nd 0 + 1) }

/-- `PushRelabelFIFO::gap_relabeling(k)`. -/
def PushRelabelFIFO.gap_relabeling (s : PushRelabelFIFO) (k : Nat) : PushRelabelFIFO :=
  (List.range s.csr.num_nodes).foldl
    (fun s u =>
      if k ≤ s.csr.distances.getD u 0 then
        let d := s.csr.distances.getD u 0
        let dc1 := s.distance_count.set d (s.distance_count.getD d 0 - 1)
        let nd := max d s.csr.num_nodes
        { s with csr := { s.csr with distances := s.csr.distances.set u nd },
                 distance_count := dc1.set nd (dc1.getD nd 0 + 1) }
      else s) s

/-- The push loop of `PushRelabelFIFO::discharge`; the boolean records the
early `return` taken when the excess hits zero. -/
def prDischargeScan (s : PushRelabelFIFO) (u : Nat) :
    List Nat → PushRelabelFIFO × Bool
  | [] => (s, false)
  | i :: rest =>
      let s1 := { s with current_edge := s.current_edge.set u i }
      let s2 := if 0 < s1.excesses.getD u 0 then s1.push u i else s1
      if s2.excesses.getD u 0 = 0 then (s2, true)
      else prDischargeScan s2 u rest

/-- `PushRelabelFIFO::discharge(u)`. -/
def PushRelabelFIFO.discharge (s : PushRelabelFIFO) (u : Nat) : Option PushRelabelFIFO :=
  match prDischargeScan s u
      (List.range' (s.current_edge.getD u 0)
        (s.csr.start.getD (u + 1) 0 - s.current_edge.getD u 0)) with
  | (s1, true) => some s1
  | (s1, false) =>
      let s2 := { s1 with current_edge := s1.current_edge.set u (s1.csr.start.getD u 0) }
      let s3opt :=
        if s2.distance_count.getD (s2.csr.distances.getD u 0) 0 = 1 then
          some (s2.gap_relabeling (s2.csr.distances.getD u 0))
        else s2.relabel u
      match s3opt with
      | none => none
      | some s3 =>
          some (if 0 < s3.excesses.getD u 0 then
            { s3 with active_nodes := s3.active_nodes ++ [u] } else s3)

/-- `PushRelabelFIFO::pre_process(source, sink)`. -/
def PushRelabelFIFO.pre_process (fuel : Nat) (s : PushRelabelFIFO) (source sink : Nat) :
    Option PushRelabelFIFO := do
  let n := s.csr.num_nodes
  let ex := vresize s.excesses n 0
  let ce := vresize s.current_edge n 0
  let dc := vresize s.distance_count (n + 1) 0
  let csr ← s.csr.update_distances fuel source sink
  let csr := { csr with distances := csr.distances.set source n }
  let s1 : PushRelabelFIFO :=
    { s with csr := csr, excesses := ex, current_edge := ce, distance_count := dc }
  let s2 := (List.range n).foldl
    (fun s u =>
      { s with
        distance_count := s.distance_count.set (s.csr.distances.getD u 0)
          (s.distance_count.getD (s.csr.distances.getD u 0) 0 + 1),
        current_edge := s.current_edge.set u (s.csr.start.getD u 0) }) s1
  let s3 := (List.range' (s2.csr.start.getD source 0)
      (s2.csr.start.getD (source + 1) 0 - s2.csr.start.getD source 0)).foldl
    (fun s i =>
      let delta := (s.csr.inside_edge_list.getD i default).residual_capacity
      let tv := (s.csr.inside_edge_list.getD i default).«to»
      { s with excesses := s.excesses.set tv (s.excesses.getD tv 0 + delta),
               csr := s.csr.push_flow i delta }) s2
  let s4 := (List.range n).foldl
    (fun s u =>
      if u ≠ source ∧ u ≠ sink ∧ 0 < s.excesses.getD u 0 then
        { s with active_nodes := s.active_nodes ++ [u] }
      else s) s3
  pure s4

/-- The FIFO main loop of `PushRelabelFIFO::solve` (fuel-counted). -/
def prMainLoop (source sink : Nat) : Nat → PushRelabelFIFO → Option PushRelabelFIFO
  | 0, _ => none
  | fuel + 1, s =>
      match s.active_nodes with
      | [] => some s
      | u :: rest =>
          let s1 := { s with active_nodes := rest }
          if u = source ∨ u = sink ∨ s1.csr.num_nodes ≤ s1.csr.distances.getD u 0 then
            prMainLoop source sink fuel s1
          else do
            let s2 ← s1.discharge u
            let s3 ←
              if s2.alpha ≠ 0 ∧ s2.alpha * s2.csr.num_nodes < s2.relabel_count then do
                let csr ← s2.csr.update_distances fuel source sink
                pure { s2 with relabel_count := 0, csr := csr }
              else pure s2
            prMainLoop source sink fuel s3

/-- The arc loop of `PushRelabelFIFO::dfs`. -/
def prDfsScan
    (next : CSR → List Nat → List Bool → Nat → Int →
      Option (Int × CSR × List Nat × List Bool)) (u : Nat) (flow : Int) :
    CSR → List Nat → List Bool → List Nat → Option (Int × CSR × List Nat × List Bool)
  | c, ce, vis, [] => some (0, c, ce, vis)
  | c, ce, vis, i :: rest =>
      let ce1 := ce.set u i
      let e := c.inside_edge_list.getD i default
      if vis.getD e.«to» false ∨ e.residual_capacity = 0 then
        prDfsScan next u flow c ce1 vis rest
      else
        match next c ce1 vis e.«to» (min flow e.residual_capacity) with
        | none => none
        | some (d, c', ce', vis') =>
            if 0 < d then some (d, c'.push_flow i d, ce', vis')
            else prDfsScan next u flow c' ce' vis' rest

/-- `PushRelabelFIFO::dfs(u, source, flow, visited)` (fuel-counted). -/
def prDfs : Nat → CSR → List Nat → List Bool → Nat → Nat → Int →
    Option (Int × CSR × List Nat × List Bool)
  | 0, _, _, _, _, _, _ => none
  | fuel + 1, c, ce, vis, u, source, flow =>
      if u = source then some (flow, c, ce, vis)
      else
        prDfsScan (fun c' ce' vis' v f => prDfs fuel c' ce' vis' v source f) u flow
          c ce (vis.set u true)
          (List.range' (ce.getD u 0) (c.start.getD (u + 1) 0 - ce.getD u 0))

/-- The per-node `while excesses[u] > 0` loop of
`push_flow_excess_back_to_source` (fuel-counted). -/
def prPushBackWhile (source u : Nat) : Nat → PushRelabelFIFO → Option PushRelabelFIFO
  | 0, _ => none
  | fuel + 1, s =>
      if 0 < s.excesses.getD u 0 then
        let vis := List.replicate s.csr.num_nodes false
        let ce := (List.range s.current_edge.length).foldl
          (fun l v => l.set v (s.csr.start.getD v 0)) s.current_edge
        match prDfs fuel s.csr ce vis u source (s.excesses.getD u 0) with
        | none => none
        | some (d, c', ce', _) =>
            let ex1 := s.excesses.set u (s.excesses.getD u 0 - d)
            let ex2 := ex1.set source (ex1.getD source 0 + d)
            prPushBackWhile source u fuel
              { s with csr := c', current_edge := ce', excesses := ex2 }
      else some s

/-- `PushRelabelFIFO::push_flow_excess_back_to_source(source, sink)`. -/
def PushRelabelFIFO.push_flow_excess_back_to_source (fuel : Nat) (s : PushRelabelFIFO)
    (source sink : Nat) : Option PushRelabelFIFO :=
  (List.range s.csr.num_nodes).foldlM
    (fun s u =>
      if u = source ∨ u = sink then pure s
      else prPushBackWhile source u fuel s) s

/-- `PushRelabelFIFO::solve(source, sink, graph)`: the input check precedes
everything; every other exit point reports `Optimal`. -/
def PushRelabelFIFO.solve (fuel : Nat) (s : PushRelabelFIFO) (source sink : Nat)
    (g : Graph) : Option (Status × Graph × PushRelabelFIFO) :=
  if source ≥ g.num_nodes ∨ sink ≥ g.num_nodes ∨ source = sink then
    some (Status.BadInput, g, s)
  else do
    let csr ← CSR.build s.csr g
    let s1 ← PushRelabelFIFO.pre_process fuel { s with csr := csr } source sink
    let s2 ← prMainLoop source sink fuel s1
    let s3 ← PushRelabelFIFO.push_flow_excess_back_to_source fuel s2 source sink
    pure (Status.Optimal, s3.csr.set_flow g, s3)

end MaxFlow

namespace MinCostFlow

/-- `Graph::construct_extend_network_feasible_solution`: add a root node and
one artificial edge per original node carrying its excess; each `unwrap` and
each direct `edges[edge_id].flow = …` write is checked. -/
def Graph.construct_extend_network_feasible_solution (g : Graph) :
    Option (Nat × List Nat × List Nat × Graph) := do
  let inf_cost := g.edges.foldl (fun acc e => acc + e.cost) 1
  let (root, g1) := g.add_node
  let res ← (List.range g1.num_nodes).foldlM
    (fun (p : Graph × List Nat) u => do
      let (g, aes) := p
      if u = root then pure (g, aes)
      else
        let excess := g.excesses.getD u 0
        if 0 ≤ excess then do
          let (ido, g2) := g.add_directed_edge u root 0 excess inf_cost
          let edge_id ← ido
          let es ← vset g2.edges edge_id
            { g2.edges.getD edge_id default with flow := excess }
          let g3 := { g2 with edges := es, excesses := g2.excesses.set u 0 }
          pure (g3, aes ++ [edge_id])
        else do
          let (ido, g2) := g.add_directed_edge root u 0 (-excess) inf_cost
          let edge_id ← ido
          let es ← vset g2.edges edge_id
            { g2.edges.getD edge_id default with flow := -excess }
          let g3 := { g2 with edges := es, excesses := g2.excesses.set u 0 }
          pure (g3, aes ++ [edge_id]))
    (g1, [])
  pure (root, [root], res.2, res.1)

/-- `Graph::remove_artificial_sub_graph` (`Vec::truncate` is `List.take`). -/
def Graph.remove_artificial_sub_graph (g : Graph)
    (artificial_nodes artificial_edges : List Nat) : Graph :=
  { num_nodes := g.num_nodes - artificial_nodes.length,
    num_edges := g.num_edges - artificial_edges.length,
    edges := g.edges.take (g.num_edges - artificial_edges.length),
    b := g.b.take (g.num_nodes - artificial_nodes.length),
    lowers := g.lowers.take (g.num_edges - artificial_edges.length),
    excesses := g.excesses.take (g.num_nodes - artificial_nodes.length),
    is_reversed := g.is_reversed.take (g.num_edges - artificial_edges.length) }

/-- `minimum_cost_flow::csr::InsideEdge<Flow>` (Rust `Default`: all zero). -/
structure InsideEdge where
  «to» : Nat
  flow : Int
  upper : Int
  cost : Int
  rev : Nat
deriving Repr, DecidableEq

instance : Inhabited InsideEdge := ⟨⟨0, 0, 0, 0, 0⟩⟩

/-- `InsideEdge::residual_capacity` (minimum-cost-flow side). -/
def InsideEdge.residual_capacity (e : InsideEdge) : Int :=
  e.upper - e.flow

/-- `minimum_cost_flow::csr::CSR<Flow>`. -/
structure CSR where
  num_nodes : Nat
  num_edges : Nat
  edge_index_to_inside_edge_index : List Nat
  excesses : List Int
  potentials : List Int
  start : List Nat
  inside_edge_list : List InsideEdge
deriving Repr, DecidableEq

/-- `CSR::default()` (minimum-cost-flow side). -/
def CSR.init : CSR :=
  { num_nodes := 0, num_edges := 0, edge_index_to_inside_edge_index := [],
    excesses := [], potentials := [], start := [], inside_edge_list := [] }

/-- The degree-counting loop of the minimum-cost-flow `CSR::build`. -/
def mcfDegreeLoop : List Edge → List Nat → Option (List Nat)
  | [], deg => some deg
  | e :: rest, deg => do
      let d1 ← vset deg e.«to» (deg.getD e.«to» 0 + 1)
      let d2 ← vset d1 e.«from» (d1.getD e.«from» 0 + 1)
      mcfDegreeLoop rest d2

/-- The pair-placement loop of the minimum-cost-flow `CSR::build`: the
forward arc keeps the raw flow and cost, the reverse arc carries
`upper − flow` and `−cost`; the in-loop `assert_ne!` and the trailing
`assert!`s on cost and capacity are modelled as `none`. -/
def mcfPlaceLoop (start1 : List Nat) :
    List Edge → Nat → List Nat → List Nat → List InsideEdge →
    Option (List Nat × List InsideEdge)
  | [], _, _, eii, inside => some (eii, inside)
  | e :: rest, k, counter, eii, inside => do
      let u := e.«from»
      let v := e.«to»
      let iu := start1.getD u 0 + counter.getD u 0
      let counter1 ← vset counter u (counter.getD u 0 + 1)
      let iv := start1.getD v 0 + counter1.getD v 0
      let eii1 ← vset eii k iu
      let counter2 ← vset counter1 v (counter1.getD v 0 + 1)
      if iu = iv then none
      else do
        let inside1 ← vset inside iu
          { «to» := v, flow := e.flow, upper := e.upper, cost := e.cost, rev := iv }
        let inside2 ← vset inside1 iv
          { «to» := u, flow := e.upper - e.flow, upper := e.upper, cost := -e.cost,
            rev := iu }
        if e.cost < 0 ∨ e.upper < 0 then none
        else mcfPlaceLoop start1 rest (k + 1) counter2 eii1 inside2

/-- The minimum-cost-flow `CSR::build(graph)`: early return on an empty
node set, then size the buffers (`resize` keeps stale contents, the inside
edge list alone is freshly collected), count degrees, prefix-sum into
`start`, and place the paired arcs. -/
def CSR.build (c : CSR) (g : Graph) : Option CSR :=
  if g.num_nodes = 0 then some c
  else do
    let N := g.num_nodes
    let M := g.num_edges
    let eii0 := vresize c.edge_index_to_inside_edge_index M MaxFlow.usizeMax
    let start0 := vresize c.start (N + 1) 0
    let inside0 : List InsideEdge := List.replicate (2 * M) default
    let pot0 := vresize c.potentials N 0
    let degree ← mcfDegreeLoop g.edges (List.replicate N 0)
    let start1 := MaxFlow.prefixLoop degree start0 1 N
    let (eii1, inside1) ← mcfPlaceLoop start1 g.edges 0 (List.replicate N 0) eii0 inside0
    pure { num_nodes := N, num_edges := M, edge_index_to_inside_edge_index := eii1,
           excesses := g.excesses, potentials := pot0, start := start1,
           inside_edge_list := inside1 }

/-- The minimum-cost-flow `CSR::set_flow(graph)`: copy the excesses and
each forward arc's flow back to the user edge list. -/
def CSR.set_flow (c : CSR) (g : Graph) : Graph :=
  { g with
    excesses := c.excesses,
    edges := (List.range g.num_edges).foldl
      (fun es edge_id =>
        es.set edge_id
          { es.getD edge_id default with
            flow := (c.inside_edge_list.getD
              (c.edge_index_to_inside_edge_index.getD edge_id 0) default).flow })
      g.edges }

/-- `minimum_cost_flow::cycle_canceling::CycleCanceling<Flow>`. -/
structure CycleCanceling where
  csr : CSR
deriving Repr, DecidableEq

/-- One relaxation of `CycleCanceling::find_negative_cycle`: the Bellman-Ford
step for arc `ei` out of `u`, threading `(dist, prev, start, updated)`. -/
def ccArcStep (c : CSR) (u : Nat)
    (acc : List Int × List (Nat × Nat) × Nat × Bool) (ei : Nat) :
    Option (List Int × List (Nat × Nat) × Nat × Bool) :=
  let (dist, prev, strt, upd) := acc
  let e := c.inside_edge_list.getD ei default
  if 0 < e.residual_capacity ∧ dist.getD u 0 + e.cost < dist.getD e.«to» 0 then do
    let dist1 ← vset dist e.«to» (dist.getD u 0 + e.cost)
    let prev1 ← vset prev e.«to» (u, ei)
    pure (dist1, prev1, u, true)
  else pure (dist, prev, strt, upd)

/-- One full round of the Bellman-Ford loop in `find_negative_cycle`, with
the round-local `updated` flag reset to `false`. -/
def ccRound (c : CSR) (dist : List Int) (prev : List (Nat × Nat)) (strt : Nat) :
    Option (List Int × List (Nat × Nat) × Nat × Bool) :=
  (List.range c.num_nodes).foldlM
    (fun acc u =>
      (List.range' (c.start.getD u 0) (c.start.getD (u + 1) 0 - c.start.getD u 0)).foldlM
        (ccArcStep c u) acc)
    (dist, prev, strt, false)

/-- The `loop` at the end of `find_negative_cycle` that walks `prev` with a
`visited` vector until a repeated node gives a cycle entry point; the
unchecked reads `prev[v]` and `visited[u]` are checked here. -/
def ccWalk (prev : List (Nat × Nat)) : Nat → List Bool → Nat → Option Nat
  | 0, _, _ => none
  | fuel + 1, visited, v =>
      if v < prev.length then
        let u := (prev.getD v default).1
        if u < visited.length then
          if visited.getD u false then some v
          else ccWalk prev fuel (visited.set u true) u
        else none
      else none

/-- The round loop of `find_negative_cycle`: run `num_nodes` rounds,
returning `(none, prev)` as soon as a round makes no update, and walking the
`prev` cycle after the final round otherwise. -/
def ccBF (c : CSR) : Nat → List Int → List (Nat × Nat) → Nat →
    Option (Option Nat × List (Nat × Nat))
  | 0, _, prev, strt =>
      match ccWalk prev (c.num_nodes + 1) (List.replicate c.num_nodes false) strt with
      | none => none
      | some v => some (some v, prev)
  | rounds + 1, dist, prev, strt => do
      let (dist1, prev1, strt1, upd) ← ccRound c dist prev strt
      if upd then ccBF c rounds dist1 prev1 strt1
      else some (none, prev1)

/-- `CycleCanceling::find_negative_cycle(prev)`: `dist` starts at all zero,
`start` at `usize::MAX`. -/
def CycleCanceling.find_negative_cycle (c : CSR) (prev : List (Nat × Nat)) :
    Option (Option Nat × List (Nat × Nat)) :=
  ccBF c c.num_nodes (List.replicate c.num_nodes 0) prev MaxFlow.usizeMax

/-- The inner `while v != start` loop of `CycleCanceling::solve` that
collects the cycle's arc indices and its bottleneck residual capacity. -/
def ccCollect (c : CSR) (prev : List (Nat × Nat)) (strt : Nat) :
    Nat → Nat → List Nat → Int → Option (List Nat × Int)
  | 0, _, _, _ => none
  | fuel + 1, v, cycle, delta =>
      if v = strt then some (cycle, delta)
      else
        let p := prev.getD v default
        ccCollect c prev strt fuel p.1 (cycle ++ [p.2])
          (min delta ((c.inside_edge_list.getD p.2 default).residual_capacity))

/-- The cancellation walk of `CycleCanceling::solve`: saturate the cycle by
`delta` on every collected arc and `−delta` on its reverse. -/
def ccApply (delta : Int) (c : CSR) (cycle : List Nat) : Option CSR :=
  cycle.foldlM
    (fun (c : CSR) idx => do
      let e := c.inside_edge_list.getD idx default
      let l1 ← vset c.inside_edge_list idx { e with flow := e.flow + delta }
      let e2 := l1.getD e.rev default
      let l2 ← vset l1 e.rev { e2 with flow := e2.flow - delta }
      pure { c with inside_edge_list := l2 })
    c

/-- The `while let Some(start) = find_negative_cycle(..)` loop of
`CycleCanceling::solve` (fuel-counted; the `assert!(delta > 0)` is `none`). -/
def ccMain : Nat → CSR → List (Nat × Nat) → Option CSR
  | 0, _, _ => none
  | fuel + 1, c, prev =>
      match CycleCanceling.find_negative_cycle c prev with
      | none => none
      | some (none, _) => some c
      | some (some strt, prev1) =>
          let p := prev1.getD strt default
          match ccCollect c prev1 strt (c.num_nodes + 1) p.1 [p.2]
              ((c.inside_edge_list.getD p.2 default).residual_capacity) with
          | none => none
          | some (cycle, delta) =>
              if delta ≤ 0 then none
              else
                match ccApply delta c cycle with
                | none => none
                | some c1 => ccMain fuel c1 prev1

/-- `CycleCanceling::solve(graph)`.  Note the absence of any
`is_unbalance` test: the extended network is built and solved
unconditionally. -/
def CycleCanceling.solve (fuel : Nat) (s : CycleCanceling) (g : Graph) :
    Option (Status × Graph × CycleCanceling) := do
  let (_source, artificial_nodes, artificial_edges, g1) ←
    g.construct_extend_network_feasible_solution
  let csr1 ← CSR.build s.csr g1
  let c2 ← ccMain fuel csr1
    (List.replicate csr1.num_nodes (MaxFlow.usizeMax, MaxFlow.usizeMax))
  let g2 := c2.set_flow g1
  let status :=
    if artificial_edges.all (fun eid => (g2.edges.getD eid default).flow = 0) then
      Status.Optimal
    else Status.Infeasible
  let g3 := g2.remove_artificial_sub_graph artificial_nodes artificial_edges
  pure (status, g3, { csr := c2 })

/-- `minimum_cost_flow::spanning_tree_structure::EdgeState` (default
`Lower`). -/
inductive EdgeState where
  | Lower
  | Upper
  | Tree
deriving Repr, DecidableEq

/-- `minimum_cost_flow::spanning_tree_structure::InternalEdge<Flow>`. -/
structure InternalEdge where
  «from» : Nat
  «to» : Nat
  upper : Int
  cost : Int
  flow : Int
  state : EdgeState
deriving Repr, DecidableEq

instance : Inhabited InternalEdge := ⟨⟨0, 0, 0, 0, 0, EdgeState.Lower⟩⟩

/-- `minimum_cost_flow::spanning_tree_structure::Node<Flow>`. -/
structure Node where
  parent : Nat
  parent_edge_id : Nat
  potential : Int
deriving Repr, DecidableEq

instance : Inhabited Node := ⟨⟨0, 0, 0⟩⟩

/-- `minimum_cost_flow::spanning_tree_structure::SpanningTreeStructure<Flow>`
(only the members the pivot rules read). -/
structure SpanningTreeStructure where
  num_nodes : Nat
  num_edges : Nat
  excesses : List Int
  nodes : List Node
  edges : List InternalEdge
  root : Nat
deriving Repr, DecidableEq

/-- `SpanningTreeStructure::reduced_cost(edge)`. -/
def SpanningTreeStructure.reduced_cost (st : SpanningTreeStructure)
    (e : InternalEdge) : Int :=
  e.cost - (st.nodes.getD e.«from» default).potential
    + (st.nodes.getD e.«to» default).potential

/-- `PrimalNetworkSimplex::calculate_violation(edge, st)`: `+c̄` for an
`Upper` arc, `−c̄` otherwise. -/
def calculate_violation (e : InternalEdge) (st : SpanningTreeStructure) : Int :=
  match e.state with
  | EdgeState.Upper => st.reduced_cost e
  | _ => -st.reduced_cost e

/-- One step of `BestEligibleArcPivotRule::find_entering_edge`: record the
enumerated arc when its violation beats the current maximum. -/
def beStep (st : SpanningTreeStructure)
    (cv : InternalEdge → SpanningTreeStructure → Int)
    (acc : Int × Option Nat) (p : Nat × InternalEdge) : Int × Option Nat :=
  if acc.1 < cv p.2 st then (cv p.2 st, some p.1) else acc

/-- `BestEligibleArcPivotRule::find_entering_edge`: full scan keeping the
largest strictly positive violation. -/
def BestEligibleArcPivotRule.find_entering_edge (st : SpanningTreeStructure)
    (cv : InternalEdge → SpanningTreeStructure → Int) : Option Nat :=
  (st.edges.enum.foldl (beStep st cv) (0, none)).2

/-- Shorthand for the violation of the arc with a given id, with the primal
network simplex violation formula. -/
def violationAt (st : SpanningTreeStructure) (id : Nat) : Int :=
  calculate_violation (st.edges.getD id default) st

/-- `minimum_cost_flow::network_simplex_pivot_rules::FirstEligibleArcPivotRule`. -/
structure FirstEligibleArcPivotRule where
  current_edge_id : Nat
deriving Repr, DecidableEq

/-- The cyclic scan of `FirstEligibleArcPivotRule::find_entering_edge`
(`k` counts the remaining iterations of `for _ in 0..num_edges`). -/
def feLoop (st : SpanningTreeStructure)
    (cv : InternalEdge → SpanningTreeStructure → Int) :
    Nat → Nat → Option Nat × Nat
  | 0, ce => (none, ce)
  | k + 1, ce =>
      if 0 < cv (st.edges.getD ce default) st then (some ce, ce)
      else feLoop st cv k (if ce + 1 = st.num_edges then 0 else ce + 1)

/-- `FirstEligibleArcPivotRule::find_entering_edge`. -/
def FirstEligibleArcPivotRule.find_entering_edge (r : FirstEligibleArcPivotRule)
    (st : SpanningTreeStructure) (cv : InternalEdge → SpanningTreeStructure → Int) :
    Option Nat × FirstEligibleArcPivotRule :=
  let (res, ce) := feLoop st cv st.num_edges r.current_edge_id
  (res, { current_edge_id := ce })

/-- `minimum_cost_flow::network_simplex_pivot_rules::BlockSearchPivotRule`. -/
structure BlockSearchPivotRule where
  current_edge_id : Nat
  block_size : Nat
deriving Repr, DecidableEq

/-- The cyclic block scan of `BlockSearchPivotRule::find_entering_edge`,
threading `(count, maxi_violation, entering_edge_id)`; at a block boundary a
recorded candidate is returned with `current_edge_id` left in place. -/
def bsLoop (st : SpanningTreeStructure)
    (cv : InternalEdge → SpanningTreeStructure → Int) (bs : Nat) :
    Nat → Nat → Nat → Int → Option Nat → Option Nat × Nat
  | 0, ce, _, _, ent => (ent, ce)
  | k + 1, ce, count, maxi, ent =>
      let violation := cv (st.edges.getD ce default) st
      let maxi1 := if maxi < violation then violation else maxi
      let ent1 := if maxi < violation then some ce else ent
      let count1 := count - 1
      if count1 = 0 then
        if ent1.isSome then (ent1, ce)
        else bsLoop st cv bs k (if ce + 1 = st.num_edges then 0 else ce + 1) bs maxi1 ent1
      else bsLoop st cv bs k (if ce + 1 = st.num_edges then 0 else ce + 1) count1 maxi1 ent1

/-- `BlockSearchPivotRule::find_entering_edge`. -/
def BlockSearchPivotRule.find_entering_edge (r : BlockSearchPivotRule)
    (st : SpanningTreeStructure) (cv : InternalEdge → SpanningTreeStructure → Int) :
    Option Nat × BlockSearchPivotRule :=
  let (res, ce) := bsLoop st cv r.block_size st.num_edges r.current_edge_id
    r.block_size 0 none
  (res, { r with current_edge_id := ce })

/-- `minimum_cost_flow::network_simplex_pivot_rules::CandidateListPivotRule`. -/
structure CandidateListPivotRule where
  current_edge_id : Nat
  candidates : List Nat
  candidate_list_size : Nat
  minor_count_limit : Nat
  minor_count : Nat
  current_size : Nat
deriving Repr, DecidableEq

/-- The minor iteration of `CandidateListPivotRule::find_entering_edge`:
rescans `candidates[0..current_size]`, compacting out arcs whose violation
is no longer positive (the `while i < current_size` loop, fuel-counted by
its decreasing measure `current_size - i`). -/
def clMinor (st : SpanningTreeStructure)
    (cv : InternalEdge → SpanningTreeStructure → Int) :
    Nat → Nat → List Nat → Nat → Int → Option Nat →
    Option (List Nat × Nat × Int × Option Nat)
  | 0, i, cands, cs, maxi, ent =>
      if i < cs then none else some (cands, cs, maxi, ent)
  | fuel + 1, i, cands, cs, maxi, ent =>
      if i < cs then
        let edge_id := cands.getD i 0
        let violation := cv (st.edges.getD edge_id default) st
        if violation ≤ 0 then do
          let cands1 ← vset cands i (cands.getD (cs - 1) 0)
          clMinor st cv fuel i cands1 (cs - 1) maxi ent
        else
          clMinor st cv fuel (i + 1) cands cs
            (if maxi < violation then violation else maxi)
            (if maxi < violation then some edge_id else ent)
      else some (cands, cs, maxi, ent)

/-- The list-rebuilding loop of `CandidateListPivotRule::find_entering_edge`.
It keeps the source's slip verbatim: the slot is filled with `current_size`
itself, not with `current_edge_id`. -/
def clMajor (st : SpanningTreeStructure) (lsz : Nat) :
    Nat → Nat → List Nat → Nat → Int → Option Nat →
    Option (Nat × List Nat × Nat × Int × Option Nat)
  | 0, ce, cands, cs, maxi, ent => some (ce, cands, cs, maxi, ent)
  | k + 1, ce, cands, cs, maxi, ent => do
      let violation := calculate_violation (st.edges.getD ce default) st
      if 0 < violation then do
        let cands1 ← vset cands cs cs
        let maxi1 := if maxi < violation then violation else maxi
        let ent1 := if maxi < violation then some ce else ent
        if cs + 1 = lsz then some (ce, cands1, cs + 1, maxi1, ent1)
        else
          clMajor st lsz k (if ce + 1 = st.num_edges then 0 else ce + 1)
            cands1 (cs + 1) maxi1 ent1
      else
        if cs = lsz then some (ce, cands, cs, maxi, ent)
        else
          clMajor st lsz k (if ce + 1 = st.num_edges then 0 else ce + 1)
            cands cs maxi ent

/-- `CandidateListPivotRule::find_entering_edge`: a minor iteration over the
stored candidates when allowed, otherwise (or when it finds nothing) a major
iteration rebuilding the list. -/
def CandidateListPivotRule.find_entering_edge (r : CandidateListPivotRule)
    (st : SpanningTreeStructure) (cv : InternalEdge → SpanningTreeStructure → Int) :
    Option (Option Nat × CandidateListPivotRule) := do
  if 0 < r.current_size ∧ r.minor_count < r.minor_count_limit then do
    let (cands1, cs1, maxi1, ent1) ←
      clMinor st cv r.current_size 0 r.candidates r.current_size 0 none
    match ent1 with
    | some id =>
        pure (some id,
          { r with minor_count := r.minor_count + 1, candidates := cands1,
                   current_size := cs1 })
    | none => do
        let (ce2, cands2, cs2, _, ent2) ←
          clMajor st r.candidate_list_size st.num_edges r.current_edge_id cands1 0
            maxi1 none
        pure (ent2,
          { r with current_edge_id := ce2, candidates := cands2,
                   current_size := cs2, minor_count := 1 })
  else do
    let (ce2, cands2, cs2, _, ent2) ←
      clMajor st r.candidate_list_size st.num_edges r.current_edge_id r.candidates 0
        0 none
    pure (ent2,
      { r with current_edge_id := ce2, candidates := cands2,
               current_size := cs2, minor_count := 1 })

/-- `minimum_cost_flow::network_simplex_pivot_rules::AlteringCandidateListPivotRule`. -/
structure AlteringCandidateListPivotRule where
  current_edge_id : Nat
  block_size : Nat
  head_length : Nat
  candidates : List (Nat × Int)
  current_size : Nat
deriving Repr, DecidableEq

/-- The refresh loop of `AlteringCandidateListPivotRule::find_entering_edge`:
recompute every stored candidate's violation, compacting out the
non-positive ones (fuel-counted by the decreasing `current_size - i`). -/
def aclUpdate (st : SpanningTreeStructure)
    (cv : InternalEdge → SpanningTreeStructure → Int) :
    Nat → Nat → List (Nat × Int) → Nat → Option (List (Nat × Int) × Nat)
  | 0, i, cands, cs => if i < cs then none else some (cands, cs)
  | fuel + 1, i, cands, cs =>
      if i < cs then
        let edge_id := (cands.getD i default).1
        let violation := cv (st.edges.getD edge_id default) st
        if violation ≤ 0 then do
          let cands1 ← vset cands i (cands.getD (cs - 1) default)
          aclUpdate st cv fuel i cands1 (cs - 1)
        else do
          let cands1 ← vset cands i (edge_id, violation)
          aclUpdate st cv fuel (i + 1) cands1 cs
      else some (cands, cs)

/-- The extension loop of
`AlteringCandidateListPivotRule::find_entering_edge`, threading
`(block_count, limit)`; at a block boundary the scan stops once the list
holds more than `limit` arcs. -/
def aclExtend (st : SpanningTreeStructure) (bs : Nat) :
    Nat → Nat → List (Nat × Int) → Nat → Nat → Nat →
    Option (Nat × List (Nat × Int) × Nat)
  | 0, ce, cands, cs, _, _ => some (ce, cands, cs)
  | k + 1, ce, cands, cs, bc, limit => do
      let violation := calculate_violation (st.edges.getD ce default) st
      let (cands1, cs1) ←
        if 0 < violation then do
          let c ← vset cands cs (ce, violation)
          pure (c, cs + 1)
        else pure (cands, cs)
      let bc1 := bc - 1
      if bc1 = 0 then
        if limit < cs1 then some (ce, cands1, cs1)
        else aclExtend st bs k (if ce + 1 = st.num_edges then 0 else ce + 1) cands1 cs1 bs 0
      else aclExtend st bs k (if ce + 1 = st.num_edges then 0 else ce + 1) cands1 cs1 bc1 limit

/-- `AlteringCandidateListPivotRule::find_entering_edge`.  The unstable
`sort_unstable_by` / `select_nth_unstable_by` on the first `current_size`
slots (descending by violation) is realised by a merge sort of that prefix —
one of the orders the unstable partition permits. -/
def AlteringCandidateListPivotRule.find_entering_edge
    (r : AlteringCandidateListPivotRule) (st : SpanningTreeStructure)
    (cv : InternalEdge → SpanningTreeStructure → Int) :
    Option (Option Nat × AlteringCandidateListPivotRule) := do
  let (cands1, cs1) ← aclUpdate st cv r.current_size 0 r.candidates r.current_size
  let (ce2, cands2, cs2) ←
    aclExtend st r.block_size st.num_edges r.current_edge_id cands1 cs1 r.block_size
      r.head_length
  if cs2 = 0 then
    pure (none, { r with current_edge_id := ce2, candidates := cands2, current_size := 0 })
  else
    let new_length := min cs2 (r.head_length + 1)
    let sorted := (cands2.take cs2).mergeSort (fun a b => decide (b.2 ≤ a.2)) ++
      cands2.drop cs2
    let entering := (sorted.getD 0 default).1
    let cands3 ← vset sorted 0 (sorted.getD (new_length - 1) default)
    pure (some entering,
      { r with current_edge_id := ce2, candidates := cands3,
               current_size := new_length - 1 })

/-- A concrete spanning-tree state used to instantiate the pivot-rule
contract: two nodes with zero potentials and one non-tree arc `0 → 1` of
cost `−1` (violation `1`). -/
def pivotWitnessState : SpanningTreeStructure :=
  { num_nodes := 2, num_edges := 1, excesses := [0, 0],
    nodes := [{ parent := 0, parent_edge_id := 0, potential := 0 },
              { parent := 0, parent_edge_id := 0, potential := 0 }],
    edges := [{ «from» := 0, «to» := 1, upper := 1, cost := -1, flow := 0,
                state := EdgeState.Lower }],
    root := 0 }

end MinCostFlow

/-! ## Theorems -/

theorem vset_some {α : Type} {l : List α} {i : Nat} {a : α} (h : i < l.length) :
    vset l i a = some (l.set i a) := by
  simp [vset, h]

theorem vset_eq_some_iff {α : Type} {l l' : List α} {i : Nat} {a : α} :
    vset l i a = some l' ↔ i < l.length ∧ l' = l.set i a := by
  unfold vset
  split <;> simp_all [eq_comm]

theorem getD_append_length {α : Type} (l : List α) (a d : α) :
    (l ++ [a]).getD l.length d = a := by
  induction l with
  | nil => rfl
  | cons x xs ih => simp [ih]

theorem getD_append_lt {α : Type} (l t : List α) (i : Nat) (d : α) (h : i < l.length) :
    (l ++ t).getD i d = l.getD i d := by
  simp [List.getD, List.getElem?_append_left h]

theorem getD_set_eq {α : Type} (l : List α) (i : Nat) (a d : α) (h : i < l.length) :
    (l.set i a).getD i d = a := by
  induction l generalizing i with
  | nil => simp at h
  | cons x xs ih =>
    cases i with
    | zero => rfl
    | succ n => simpa using ih n (by simpa using h)

theorem getD_set_ne {α : Type} (l : List α) (i j : Nat) (a d : α) (h : i ≠ j) :
    (l.set i a).getD j d = l.getD j d := by
  induction l generalizing i j with
  | nil => simp [List.set]
  | cons x xs ih =>
    cases i with
    | zero =>
      cases j with
      | zero => exact absurd rfl h
      | succ m => rfl
    | succ n =>
      cases j with
      | zero => rfl
      | succ m => simpa using ih n m (by omega)

theorem set_getD_self {α : Type} (l : List α) (i : Nat) (d : α) :
    l.set i (l.getD i d) = l := by
  induction l generalizing i with
  | nil => rfl
  | cons x xs ih =>
    cases i with
    | zero => rfl
    | succ n => simpa using ih n

namespace MaxFlow

theorem cntIn_nil (w : Nat) : cntIn [] w = 0 := rfl

theorem cntIn_cons (e : Edge) (E : List Edge) (w : Nat) :
    cntIn (e :: E) w = inc e w + cntIn E w := by
  simp [cntIn]

theorem cntIn_append (E1 E2 : List Edge) (w : Nat) :
    cntIn (E1 ++ E2) w = cntIn E1 w + cntIn E2 w := by
  simp [cntIn]

theorem cBef_zero (E : List Edge) (w : Nat) : cBef E 0 w = 0 := rfl

theorem cntIn_take_le (L : List Edge) (j w : Nat) : cntIn (L.take j) w ≤ cntIn L w := by
  conv_rhs => rw [← List.take_append_drop j L]
  rw [cntIn_append]
  omega

theorem cBef_mono (E : List Edge) {j k : Nat} (h : j ≤ k) (w : Nat) :
    cBef E j w ≤ cBef E k w := by
  unfold cBef
  rw [show E.take j = (E.take k).take j by rw [List.take_take, Nat.min_eq_left h]]
  exact cntIn_take_le _ _ _

theorem cBef_le (E : List Edge) (j w : Nat) : cBef E j w ≤ cntIn E w := by
  conv_rhs => rw [← List.take_append_drop j E]
  rw [cBef, cntIn_append]
  omega

theorem cBef_succ (E : List Edge) {j : Nat} (h : j < E.length) (w : Nat) :
    cBef E (j + 1) w = cBef E j w + inc (E.getD j default) w := by
  unfold cBef
  rw [List.take_succ, cntIn_append]
  congr 1
  rw [List.getElem?_eq_getElem h]
  simp [cntIn, List.getD, List.getElem?_eq_getElem h]

theorem psum_succ (E : List Edge) (w : Nat) :
    psum E (w + 1) = psum E w + cntIn E w := by
  simp [psum, List.range_succ]

theorem psum_mono (E : List Edge) {a b : Nat} (h : a ≤ b) : psum E a ≤ psum E b := by
  induction b with
  | zero => simp_all
  | succ n ih =>
    rcases Nat.lt_or_ge a (n + 1) with h' | h'
    · have := ih (by omega)
      rw [psum_succ]
      omega
    · have : a = n + 1 := by omega
      subst this
      exact le_refl _

theorem pos_lt_psum (E : List Edge) {w r N : Nat} (hw : w < N) (hr : r < cntIn E w) :
    psum E w + r < psum E N := by
  have h1 : psum E w + r < psum E (w + 1) := by
    rw [psum_succ]
    omega
  have h2 : psum E (w + 1) ≤ psum E N := psum_mono E hw
  omega

theorem pos_inj (E : List Edge) {w1 r1 w2 r2 : Nat}
    (h1 : r1 < cntIn E w1) (h2 : r2 < cntIn E w2)
    (heq : psum E w1 + r1 = psum E w2 + r2) : w1 = w2 ∧ r1 = r2 := by
  rcases Nat.lt_trichotomy w1 w2 with h | h | h
  · have := pos_lt_psum E h h1
    have := psum_mono E (le_refl w2)
    have h3 : psum E w2 ≤ psum E w2 + r2 := Nat.le_add_right _ _
    omega
  · subst h
    omega
  · have := pos_lt_psum E h h2
    omega

theorem pos_ne (E : List Edge) {w1 r1 w2 r2 : Nat}
    (h1 : r1 < cntIn E w1) (h2 : r2 < cntIn E w2)
    (hne : w1 ≠ w2 ∨ r1 ≠ r2) : psum E w1 + r1 ≠ psum E w2 + r2 := by
  intro heq
  obtain ⟨hw, hr⟩ := pos_inj E h1 h2 heq
  tauto

theorem sum_map_add {α : Type} (l : List α) (f g : α → Nat) :
    (l.map (fun x => f x + g x)).sum = (l.map f).sum + (l.map g).sum := by
  induction l with
  | nil => rfl
  | cons x xs ih => simp [ih]; omega

theorem sum_indicator_range (a N : Nat) :
    ((List.range N).map (fun w => if a = w then (1 : Nat) else 0)).sum
      = if a < N then 1 else 0 := by
  induction N with
  | zero => simp
  | succ n ih =>
    rw [List.range_succ, List.map_append, List.sum_append, ih]
    simp only [List.map_cons, List.map_nil, List.sum_cons, List.sum_nil]
    by_cases h1 : a = n
    · subst h1
      rw [if_neg (lt_irrefl a), if_pos rfl, if_pos (by omega)]
      omega
    · rw [if_neg h1]
      by_cases h2 : a < n
      · rw [if_pos h2, if_pos (by omega)]
        omega
      · rw [if_neg h2, if_neg (by omega)]
        omega

theorem psum_top (E : List Edge) (N : Nat)
    (hE : ∀ e ∈ E, e.«from» < N ∧ e.«to» < N) : psum E N = 2 * E.length := by
  induction E with
  | nil => simp [psum, cntIn]
  | cons e rest ih =>
    have he := hE e (List.mem_cons_self _ _)
    have hrest : ∀ e' ∈ rest, e'.«from» < N ∧ e'.«to» < N :=
      fun e' h' => hE e' (List.mem_cons_of_mem _ h')
    have hexp : psum (e :: rest) N =
        ((List.range N).map (fun w => inc e w)).sum + psum rest N := by
      unfold psum
      rw [← sum_map_add]
      simp only [cntIn_cons]
    have hinc : ((List.range N).map (fun w => inc e w)).sum = 2 := by
      unfold inc
      rw [sum_map_add, sum_indicator_range, sum_indicator_range,
        if_pos he.2, if_pos he.1]
    rw [hexp, hinc, ih hrest]
    simp only [List.length_cons]
    omega

theorem cover_pos (E : List Edge) (N : Nat) {p : Nat} (hp : p < psum E N) :
    ∃ w, w < N ∧ ∃ r, r < cntIn E w ∧ p = psum E w + r := by
  induction N with
  | zero => simp [psum] at hp
  | succ n ih =>
    rw [psum_succ] at hp
    rcases Nat.lt_or_ge p (psum E n) with h | h
    · obtain ⟨w, hw, r, hr, hpr⟩ := ih h
      exact ⟨w, by omega, r, hr, hpr⟩
    · exact ⟨n, by omega, p - psum E n, by omega, by omega⟩

theorem slot_edge (E : List Edge) {w r : Nat} (h : r < cntIn E w) :
    ∃ j, j < E.length ∧
      (((E.getD j default).«from» = w ∧ r = cBef E j w) ∨
       ((E.getD j default).«to» = w ∧
        r = cBef E j w + (if (E.getD j default).«from» = w then 1 else 0))) := by
  induction E generalizing r with
  | nil => simp [cntIn] at h
  | cons e rest ih =>
    rw [cntIn_cons] at h
    rcases Nat.lt_or_ge r (inc e w) with hlt | hge
    · by_cases hf : e.«from» = w
      · by_cases ht : e.«to» = w
        · simp [inc, hf, ht] at hlt
          rcases Nat.lt_or_ge r 1 with h0 | h1
          · exact ⟨0, by simp, Or.inl ⟨hf, by rw [cBef_zero]; omega⟩⟩
          · refine ⟨0, by simp, Or.inr ⟨ht, ?_⟩⟩
            rw [cBef_zero]
            have : ((e :: rest).getD 0 default).«from» = w := hf
            rw [if_pos this]
            omega
        · simp [inc, hf, ht] at hlt
          exact ⟨0, by simp, Or.inl ⟨hf, by rw [cBef_zero]; omega⟩⟩
      · by_cases ht : e.«to» = w
        · simp [inc, hf, ht] at hlt
          refine ⟨0, by simp, Or.inr ⟨ht, ?_⟩⟩
          rw [cBef_zero]
          have : ¬((e :: rest).getD 0 default).«from» = w := hf
          rw [if_neg this]
          omega
        · simp [inc, hf, ht] at hlt
    · have hrec : r - inc e w < cntIn rest w := by omega
      obtain ⟨j, hj, hcase⟩ := ih hrec
      refine ⟨j + 1, by simpa using Nat.succ_lt_succ hj, ?_⟩
      have hget : (e :: rest).getD (j + 1) default = rest.getD j default := rfl
      have hcb : cBef (e :: rest) (j + 1) w = inc e w + cBef rest j w := by
        unfold cBef
        rw [List.take_cons, cntIn_cons]
        norm_num
        omega
      rcases hcase with hc | hc
      · exact Or.inl ⟨by rw [hget]; exact hc.1, by rw [hcb]; omega⟩
      · obtain ⟨hcw, hcr⟩ := hc
        refine Or.inr ⟨by rw [hget]; exact hcw, ?_⟩
        rw [hget, hcb]
        by_cases hfw : (rest.getD j default).«from» = w
        · rw [if_pos hfw]
          rw [if_pos hfw] at hcr
          omega
        · rw [if_neg hfw]
          rw [if_neg hfw] at hcr
          omega

theorem degreeLoop_some (edges : List Edge) (deg d : List Nat)
    (h : degreeLoop edges deg = some d) :
    d.length = deg.length ∧
    (∀ e ∈ edges, e.«from» < deg.length ∧ e.«to» < deg.length) ∧
    (∀ w, d.getD w 0 = deg.getD w 0 + cntIn edges w) := by
  induction edges generalizing deg with
  | nil =>
    injection h with h
    subst h
    exact ⟨rfl, by simp, fun w => by simp [cntIn]⟩
  | cons e rest ih =>
    simp only [degreeLoop, Option.bind_eq_bind] at h
    obtain ⟨d1, hv1, h⟩ := Option.bind_eq_some.mp h
    obtain ⟨d2, hv2, h⟩ := Option.bind_eq_some.mp h
    obtain ⟨hto, hd1⟩ := vset_eq_some_iff.mp hv1
    obtain ⟨hfr, hd2⟩ := vset_eq_some_iff.mp hv2
    subst hd1
    subst hd2
    obtain ⟨hlen, hends, hget⟩ := ih _ h
    have hlen1 : (deg.set e.«to» (deg.getD e.«to» 0 + 1)).length = deg.length :=
      List.length_set ..
    refine ⟨by simp_all, ?_, ?_⟩
    · intro e' he'
      rcases List.mem_cons.mp he' with rfl | hmem
      · exact ⟨by simpa [hlen1] using hfr, hto⟩
      · have := hends e' hmem
        simp_all
    · intro w
      have hstep2 : ((deg.set e.«to» (deg.getD e.«to» 0 + 1)).set e.«from»
          ((deg.set e.«to» (deg.getD e.«to» 0 + 1)).getD e.«from» 0 + 1)).getD w 0
          = (deg.set e.«to» (deg.getD e.«to» 0 + 1)).getD w 0 +
            (if e.«from» = w then 1 else 0) := by
        by_cases hw : e.«from» = w
        · rw [if_pos hw, ← hw, getD_set_eq _ _ _ _ hfr]
        · rw [if_neg hw, getD_set_ne _ _ _ _ _ hw]
          omega
      have hstep1 : (deg.set e.«to» (deg.getD e.«to» 0 + 1)).getD w 0
          = deg.getD w 0 + (if e.«to» = w then 1 else 0) := by
        by_cases hw : e.«to» = w
        · rw [if_pos hw, ← hw, getD_set_eq _ _ _ _ hto]
        · rw [if_neg hw, getD_set_ne _ _ _ _ _ hw]
          omega
      rw [hget w, hstep2, hstep1, cntIn_cons]
      unfold inc
      omega

theorem prefixLoop_spec (E : List Edge) (degree : List Nat)
    (hdeg : ∀ x, degree.getD x 0 = cntIn E x) (N : Nat) :
    ∀ count i s, 1 ≤ i → i + count = N + 1 → s.length = N + 1 →
    (∀ j, j < i → s.getD j 0 = psum E j) →
    (∀ j, i ≤ j → s.getD j 0 = 0) →
    (prefixLoop degree s i count).length = N + 1 ∧
    (∀ j, j ≤ N → (prefixLoop degree s i count).getD j 0 = psum E j) := by
  intro count
  induction count with
  | zero =>
    intro i s hi hcount hlen hlow _
    exact ⟨hlen, fun j hj => hlow j (by omega)⟩
  | succ c ih =>
    intro i s hi hcount hlen hlow hhigh
    have hiN : i ≤ N := by omega
    have hval : s.getD i 0 + s.getD (i - 1) 0 + degree.getD (i - 1) 0 = psum E i := by
      rw [hhigh i (le_refl i), hlow (i - 1) (by omega), hdeg]
      have h2 : psum E (i - 1 + 1) = psum E (i - 1) + cntIn E (i - 1) := psum_succ E (i - 1)
      have h3 : i - 1 + 1 = i := by omega
      rw [h3] at h2
      omega
    unfold prefixLoop
    have hset : ∀ j, (s.set i (s.getD i 0 + s.getD (i - 1) 0 + degree.getD (i - 1) 0)).getD j 0
        = if i = j then psum E i else s.getD j 0 := by
      intro j
      by_cases hw : i = j
      · rw [if_pos hw, ← hw, getD_set_eq _ _ _ _ (by omega), hval]
      · rw [if_neg hw, getD_set_ne _ _ _ _ _ hw]
    refine ih (i + 1) _ (by omega) (by omega) (by simpa using hlen) ?_ ?_
    · intro j hj
      rw [hset j]
      by_cases hw : i = j
      · rw [if_pos hw, hw]
      · rw [if_neg hw]
        exact hlow j (by omega)
    · intro j hj
      rw [hset j, if_neg (by omega)]
      exact hhigh j (by omega)

theorem getD_mem {α : Type} (l : List α) (j : Nat) (d : α) (h : j < l.length) :
    l.getD j d ∈ l := by
  induction l generalizing j with
  | nil => simp at h
  | cons x xs ih =>
    cases j with
    | zero => exact List.mem_cons_self _ _
    | succ n => exact List.mem_cons_of_mem _ (ih n (by simpa using h))

theorem rankF_lt (E : List Edge) {j : Nat} (hj : j < E.length) :
    cBef E j (E.getD j default).«from» < cntIn E (E.getD j default).«from» := by
  have h1 := cBef_succ E hj (E.getD j default).«from»
  have h2 := cBef_le E (j + 1) (E.getD j default).«from»
  have h3 : 1 ≤ inc (E.getD j default) (E.getD j default).«from» := by
    unfold inc
    rw [if_pos rfl]
    omega
  omega

theorem rankR_lt (E : List Edge) {j : Nat} (hj : j < E.length) :
    cBef E j (E.getD j default).«to» +
      (if (E.getD j default).«from» = (E.getD j default).«to» then 1 else 0)
      < cntIn E (E.getD j default).«to» := by
  have h1 := cBef_succ E hj (E.getD j default).«to»
  have h2 := cBef_le E (j + 1) (E.getD j default).«to»
  have h3 : inc (E.getD j default) (E.getD j default).«to» =
      1 + (if (E.getD j default).«from» = (E.getD j default).«to» then 1 else 0) := by
    unfold inc
    rw [if_pos rfl]
  omega

theorem cBef_lt_cBef (E : List Edge) {j k : Nat} (w : Nat) (hjk : j < k)
    (hj : j < E.length) (h1 : 1 ≤ inc (E.getD j default) w) :
    cBef E j w < cBef E k w := by
  have h2 := cBef_succ E hj w
  have h3 := cBef_mono E (show j + 1 ≤ k from hjk) w
  omega

theorem pos_distinct (E : List Edge) {j k : Nat} (hj : j < E.length) (hk : k < E.length) :
    (j ≠ k → posF E j ≠ posF E k) ∧
    (posF E j ≠ posR E k) ∧
    (j ≠ k → posR E j ≠ posR E k) := by
  refine ⟨?_, ?_, ?_⟩
  · intro hne heq
    obtain ⟨hw, hr⟩ := pos_inj E (rankF_lt E hj) (rankF_lt E hk) heq
    rcases Nat.lt_trichotomy j k with h | h | h
    · have h1 := cBef_lt_cBef E (E.getD j default).«from» h hj
        (by unfold inc; rw [if_pos rfl]; omega)
      rw [hw] at h1 hr
      omega
    · exact hne h
    · have h1 := cBef_lt_cBef E (E.getD k default).«from» h hk
        (by unfold inc; rw [if_pos rfl]; omega)
      rw [hw] at hr
      omega
  · intro heq
    obtain ⟨hw, hr⟩ := pos_inj E (rankF_lt E hj) (rankR_lt E hk) heq
    rcases Nat.lt_trichotomy j k with h | h | h
    · have h1 := cBef_lt_cBef E (E.getD j default).«from» h hj
        (by unfold inc; rw [if_pos rfl]; omega)
      rw [hw] at h1 hr
      omega
    · subst h
      rw [hw] at hr
      rw [if_pos rfl] at hr
      omega
    · have h1 := cBef_succ E hk (E.getD k default).«to»
      have h2 := cBef_mono E (show k + 1 ≤ j from h) (E.getD k default).«to»
      have h3 : inc (E.getD k default) (E.getD k default).«to» =
          1 + (if (E.getD k default).«from» = (E.getD k default).«to» then 1 else 0) := by
        unfold inc
        rw [if_pos rfl]
      rw [hw] at hr
      omega
  · intro hne heq
    obtain ⟨hw, hr⟩ := pos_inj E (rankR_lt E hj) (rankR_lt E hk) heq
    rcases Nat.lt_trichotomy j k with h | h | h
    · have h1 := cBef_succ E hj (E.getD j default).«to»
      have h2 := cBef_mono E (show j + 1 ≤ k from h) (E.getD j default).«to»
      have h3 : inc (E.getD j default) (E.getD j default).«to» =
          1 + (if (E.getD j default).«from» = (E.getD j default).«to» then 1 else 0) := by
        unfold inc
        rw [if_pos rfl]
      rw [hw] at h1 h2 h3 hr
      omega
    · exact hne h
    · have h1 := cBef_succ E hk (E.getD k default).«to»
      have h2 := cBef_mono E (show k + 1 ≤ j from h) (E.getD k default).«to»
      have h3 : inc (E.getD k default) (E.getD k default).«to» =
          1 + (if (E.getD k default).«from» = (E.getD k default).«to» then 1 else 0) := by
        unfold inc
        rw [if_pos rfl]
      rw [← hw] at h1 h2 h3 hr
      omega

theorem posF_lt (E : List Edge) (N : Nat)
    (hE : ∀ e ∈ E, e.«from» < N ∧ e.«to» < N) {j : Nat} (hj : j < E.length) :
    posF E j < 2 * E.length := by
  rw [← psum_top E N hE]
  exact pos_lt_psum E (hE _ (getD_mem E j default hj)).1 (rankF_lt E hj)

theorem posR_lt (E : List Edge) (N : Nat)
    (hE : ∀ e ∈ E, e.«from» < N ∧ e.«to» < N) {j : Nat} (hj : j < E.length) :
    posR E j < 2 * E.length := by
  rw [← psum_top E N hE]
  exact pos_lt_psum E (hE _ (getD_mem E j default hj)).2 (rankR_lt E hj)

theorem getD_eq_of_drop {α : Type} (l : List α) (k : Nat) (x : α) (t : List α) (d : α)
    (h : l.drop k = x :: t) : l.getD k d = x := by
  induction l generalizing k with
  | nil => simp at h
  | cons y ys ih =>
    cases k with
    | zero =>
      simp only [List.drop_zero] at h
      cases h
      rfl
    | succ n => exact ih n (by simpa using h)

theorem drop_succ_of_drop {α : Type} (l : List α) (k : Nat) (x : α) (t : List α)
    (h : l.drop k = x :: t) : l.drop (k + 1) = t := by
  induction l generalizing k with
  | nil => simp at h
  | cons y ys ih =>
    cases k with
    | zero =>
      simp only [List.drop_zero] at h
      cases h
      rfl
    | succ n => exact ih n (by simpa using h)

theorem placeLoop_spec (E : List Edge) (N : Nat) (S : List Nat)
    (hE : ∀ e ∈ E, e.«from» < N ∧ e.«to» < N)
    (hS : ∀ w, w ≤ N → S.getD w 0 = psum E w) :
    ∀ rest k counter eii inside eii2 inside2,
      k + rest.length = E.length →
      E.drop k = rest →
      counter.length = N →
      (∀ w, counter.getD w 0 = cBef E k w) →
      inside.length = 2 * E.length →
      (∀ j, j < k → eii.getD j 0 = posF E j) →
      (∀ j, j < k → inside.getD (posF E j) default = fwdArc E j ∧
                    inside.getD (posR E j) default = revArc E j) →
      (∀ w, w < N → ∀ r, cBef E k w ≤ r → r < cntIn E w →
          inside.getD (psum E w + r) default = default) →
      placeLoop S rest k counter eii inside = some (eii2, inside2) →
      eii2.length = eii.length ∧ inside2.length = inside.length ∧
      (∀ j, j < E.length → eii2.getD j 0 = posF E j) ∧
      (∀ j, j < E.length → inside2.getD (posF E j) default = fwdArc E j ∧
                           inside2.getD (posR E j) default = revArc E j) := by
  intro rest
  induction rest with
  | nil =>
    intro k counter eii inside eii2 inside2 hk _ _ _ _ h5 h6 _ hrun
    simp only [List.length_nil, Nat.add_zero] at hk
    injection hrun with hrun
    injection hrun with h1 h2
    subst h1
    subst h2
    subst hk
    exact ⟨rfl, rfl, h5, h6⟩
  | cons e rest ih =>
    intro k counter eii inside eii2 inside2 hk hdrop hclen hcnt hilen h5 h6 h7 hrun
    simp only [List.length_cons] at hk
    have hkE : k < E.length := by omega
    have he : E.getD k default = e := getD_eq_of_drop E k e rest default hdrop
    have hdrop1 : E.drop (k + 1) = rest := drop_succ_of_drop E k e rest hdrop
    have hmem : e ∈ E := by
      rw [← he]
      exact getD_mem E k default hkE
    obtain ⟨hu, hv⟩ := hE e hmem
    simp only [placeLoop, Option.bind_eq_bind] at hrun
    obtain ⟨counter1, hc1, hrun⟩ := Option.bind_eq_some.mp hrun
    obtain ⟨eii1, he1, hrun⟩ := Option.bind_eq_some.mp hrun
    obtain ⟨counterB, hc2, hrun⟩ := Option.bind_eq_some.mp hrun
    obtain ⟨insideA, hi1, hrun⟩ := Option.bind_eq_some.mp hrun
    obtain ⟨insideB, hi2, hrun⟩ := Option.bind_eq_some.mp hrun
    obtain ⟨hfl, hc1e⟩ := vset_eq_some_iff.mp hc1
    subst hc1e
    obtain ⟨hkl, he1e⟩ := vset_eq_some_iff.mp he1
    obtain ⟨htl, hc2e⟩ := vset_eq_some_iff.mp hc2
    obtain ⟨hiul, hi1e⟩ := vset_eq_some_iff.mp hi1
    obtain ⟨hivl, hi2e⟩ := vset_eq_some_iff.mp hi2
    -- the position the forward arc goes to
    have hposFk : posF E k = psum E e.«from» + cBef E k e.«from» := by
      unfold posF
      rw [he]
    have hposRk : posR E k = psum E e.«to» +
        (cBef E k e.«to» + (if e.«from» = e.«to» then 1 else 0)) := by
      unfold posR
      rw [he]
    have hiuF : S.getD e.«from» 0 + counter.getD e.«from» 0 = posF E k := by
      rw [hS _ (le_of_lt hu), hcnt e.«from», hposFk]
    have hcnt1 : ∀ w, (counter.set e.«from» (counter.getD e.«from» 0 + 1)).getD w 0
        = cBef E k w + (if e.«from» = w then 1 else 0) := by
      intro w
      by_cases hw : e.«from» = w
      · rw [if_pos hw, ← hw, getD_set_eq _ _ _ _ hfl, hcnt]
      · rw [if_neg hw, getD_set_ne _ _ _ _ _ hw, hcnt]
        omega
    have hivR : S.getD e.«to» 0 +
        (counter.set e.«from» (counter.getD e.«from» 0 + 1)).getD e.«to» 0 = posR E k := by
      rw [hS _ (le_of_lt hv), hcnt1 e.«to», hposRk]
    -- rank validity of the two slots being written
    have hrkF : cBef E k e.«from» < cntIn E e.«from» := by
      have h' := rankF_lt E hkE
      rw [he] at h'
      exact h'
    have hrkR : cBef E k e.«to» + (if e.«from» = e.«to» then 1 else 0) < cntIn E e.«to» := by
      have h' := rankR_lt E hkE
      rw [he] at h'
      exact h'
    rw [hiuF] at he1e hi1e hiul hi2e
    rw [hivR] at hi1e hi2e hivl
    have hfwd : ({ «to» := e.«to», flow := 0, upper := e.upper, rev := posR E k }
        : InsideEdge) = fwdArc E k := by
      unfold fwdArc
      rw [he]
    have hrev : ({ «to» := e.«from», flow := e.upper, upper := e.upper, rev := posF E k }
        : InsideEdge) = revArc E k := by
      unfold revArc
      rw [he]
    rw [hfwd] at hi1e
    rw [hrev] at hi2e
    subst he1e
    subst hi1e
    subst hi2e
    subst hc2e
    -- distinctness of the two new positions
    have hFR : posF E k ≠ posR E k := (pos_distinct E hkE hkE).2.1
    -- counters after the step
    have hcntB : ∀ w, ((counter.set e.«from» (counter.getD e.«from» 0 + 1)).set e.«to»
        ((counter.set e.«from» (counter.getD e.«from» 0 + 1)).getD e.«to» 0 + 1)).getD w 0
        = cBef E (k + 1) w := by
      intro w
      rw [cBef_succ E hkE w, he]
      by_cases hw : e.«to» = w
      · rw [← hw, getD_set_eq _ _ _ _ htl, hcnt1]
        unfold inc
        rw [if_pos rfl]
        omega
      · rw [getD_set_ne _ _ _ _ _ hw, hcnt1]
        unfold inc
        rw [if_neg hw]
        omega
    -- apply the induction hypothesis at k + 1
    have hmain := ih (k + 1)
      ((counter.set e.«from» (counter.getD e.«from» 0 + 1)).set e.«to»
        ((counter.set e.«from» (counter.getD e.«from» 0 + 1)).getD e.«to» 0 + 1))
      (eii.set k (posF E k))
      ((inside.set (posF E k) (fwdArc E k)).set (posR E k) (revArc E k))
      eii2 inside2 (by omega) hdrop1 (by simpa using hclen) hcntB
      (by simpa using hilen) ?_ ?_ ?_ hrun
    · obtain ⟨hl1, hl2, hc3, hc4⟩ := hmain
      refine ⟨by simpa using hl1, by simpa using hl2, hc3, hc4⟩
    · -- edge ids recorded so far
      intro j hj
      rcases Nat.lt_or_ge j k with hjk | hjk
      · rw [getD_set_ne _ _ _ _ _ (by omega)]
        exact h5 j hjk
      · have : j = k := by omega
        subst this
        rw [getD_set_eq _ _ _ _ hkl]
    · -- arcs written so far
      intro j hj
      rcases Nat.lt_or_ge j k with hjk | hjk
      · have hjE : j < E.length := by omega
        have hd1 := pos_distinct E hjE hkE
        have hd2 := pos_distinct E hkE hjE
        constructor
        · rw [getD_set_ne _ _ _ _ _ (Ne.symm (hd1.2.1)),
            getD_set_ne _ _ _ _ _ (Ne.symm (hd1.1 (by omega)))]
          exact (h6 j hjk).1
        · rw [getD_set_ne _ _ _ _ _ (Ne.symm (hd1.2.2 (by omega))),
            getD_set_ne _ _ _ _ _ (hd2.2.1)]
          exact (h6 j hjk).2
      · have : j = k := by omega
        subst this
        constructor
        · rw [getD_set_ne _ _ _ _ _ (Ne.symm hFR), getD_set_eq _ _ _ _ hiul]
        · rw [getD_set_eq _ _ _ _ (by simpa using hivl)]
    · -- slots still to be written are untouched
      intro w hw r hr1 hr2
      have hmono : cBef E k w ≤ cBef E (k + 1) w := cBef_mono E (by omega) w
      have hstep : cBef E (k + 1) w = cBef E k w + inc e w := by
        rw [cBef_succ E hkE w, he]
      have hnF : psum E w + r ≠ posF E k := by
        rw [hposFk]
        apply pos_ne E hr2 hrkF
        by_cases hww : w = e.«from»
        · right
          subst hww
          have h8 : 1 ≤ inc e e.«from» := by
            unfold inc
            rw [if_pos rfl]
            omega
          omega
        · exact Or.inl hww
      have hnR : psum E w + r ≠ posR E k := by
        rw [hposRk]
        apply pos_ne E hr2 hrkR
        by_cases hww : w = e.«to»
        · right
          subst hww
          have h9 : inc e e.«to» = 1 + (if e.«from» = e.«to» then 1 else 0) := by
            unfold inc
            rw [if_pos rfl]
          omega
        · exact Or.inl hww
      rw [getD_set_ne _ _ _ _ _ (Ne.symm hnR), getD_set_ne _ _ _ _ _ (Ne.symm hnF)]
      exact h7 w hw r (by omega) hr2

theorem vresize_nil {α : Type} (n : Nat) (v : α) :
    vresize ([] : List α) n v = List.replicate n v := by
  unfold vresize
  rcases Nat.eq_zero_or_pos n with h | h
  · subst h
    simp
  · rw [if_neg (by simp; omega)]
    simp

theorem getD_replicate_self {α : Type} (n i : Nat) (a : α) :
    (List.replicate n a).getD i a = a := by
  induction n generalizing i with
  | zero => rfl
  | succ m ih =>
    cases i with
    | zero => rfl
    | succ j => simpa using ih j

/-- `push_flow` preserves the pairing invariant and moves `δ` from the arc
to its partner. -/
theorem push_flow_pairing (c : CSR) (hp : Pairing c.inside_edge_list)
    {i : Nat} (hi : i < c.inside_edge_list.length) (δ : Int) :
    Pairing (c.push_flow i δ).inside_edge_list ∧
    ((c.push_flow i δ).inside_edge_list.getD i default).flow
      = (c.inside_edge_list.getD i default).flow + δ ∧
    ((c.push_flow i δ).inside_edge_list.getD
        ((c.inside_edge_list.getD i default).rev) default).flow
      = (c.inside_edge_list.getD ((c.inside_edge_list.getD i default).rev) default).flow
        - δ := by
  obtain ⟨hrlt, hrne, hrr, hru, hrs⟩ := hp i hi
  have hset_ne : ∀ v : InsideEdge, (c.inside_edge_list.set i v).getD
      ((c.inside_edge_list.getD i default).rev) default
      = c.inside_edge_list.getD ((c.inside_edge_list.getD i default).rev) default :=
    fun v => getD_set_ne _ _ _ _ _ (Ne.symm hrne)
  have hnew : (c.push_flow i δ).inside_edge_list
      = (c.inside_edge_list.set i
          { «to» := (c.inside_edge_list.getD i default).«to»,
            flow := (c.inside_edge_list.getD i default).flow + δ,
            upper := (c.inside_edge_list.getD i default).upper,
            rev := (c.inside_edge_list.getD i default).rev }).set
          ((c.inside_edge_list.getD i default).rev)
          { «to» := (c.inside_edge_list.getD ((c.inside_edge_list.getD i default).rev)
              default).«to»,
            flow := (c.inside_edge_list.getD ((c.inside_edge_list.getD i default).rev)
              default).flow - δ,
            upper := (c.inside_edge_list.getD ((c.inside_edge_list.getD i default).rev)
              default).upper,
            rev := (c.inside_edge_list.getD ((c.inside_edge_list.getD i default).rev)
              default).rev } := by
    simp only [CSR.push_flow]
    rw [hset_ne]
  set l := c.inside_edge_list with hl
  set r := (l.getD i default).rev with hr
  set eI : InsideEdge :=
    { «to» := (l.getD i default).«to», flow := (l.getD i default).flow + δ,
      upper := (l.getD i default).upper, rev := (l.getD i default).rev } with heI
  set eR : InsideEdge :=
    { «to» := (l.getD r default).«to», flow := (l.getD r default).flow - δ,
      upper := (l.getD r default).upper, rev := (l.getD r default).rev } with heR
  have hlen : ((l.set i eI).set r eR).length = l.length := by
    simp
  have hget : ∀ p, ((l.set i eI).set r eR).getD p default =
      if r = p then eR else if i = p then eI else l.getD p default := by
    intro p
    by_cases hpr : r = p
    · rw [if_pos hpr, ← hpr, getD_set_eq _ _ _ _ (by simpa using hrlt)]
    · rw [if_neg hpr, getD_set_ne _ _ _ _ _ hpr]
      by_cases hpi : i = p
      · rw [if_pos hpi, ← hpi, getD_set_eq _ _ _ _ hi]
      · rw [if_neg hpi, getD_set_ne _ _ _ _ _ hpi]
  have hRrev : eR.rev = i := hrr
  have hRup : eR.upper = (l.getD r default).upper := rfl
  have hRfl : eR.flow = (l.getD r default).flow - δ := rfl
  have hIrev : eI.rev = r := rfl
  have hIup : eI.upper = (l.getD i default).upper := rfl
  have hIfl : eI.flow = (l.getD i default).flow + δ := rfl
  refine ⟨?_, ?_, ?_⟩
  · intro p hplen
    rw [hnew, hlen] at hplen
    obtain ⟨hprlt, hprne, hprr, hpru, hprs⟩ := hp p hplen
    rw [hnew]
    by_cases hpr : r = p
    · subst hpr
      rw [hget r, if_pos rfl, hRrev, hget i, if_neg hrne, if_pos rfl]
      refine ⟨by rw [hlen]; exact hi, Ne.symm hrne, ?_, ?_, ?_⟩
      · rw [hIrev]
      · rw [hIup, hRup, hru]
      · rw [hIfl, hRfl, hRup]
        omega
    · by_cases hpi : i = p
      · subst hpi
        rw [hget i, if_neg hrne, if_pos rfl, hIrev, hget r, if_pos rfl]
        refine ⟨by rw [hlen]; exact hrlt, hrne, ?_, ?_, ?_⟩
        · rw [hRrev]
        · rw [hRup, hIup, hru]
        · rw [hIfl, hRfl, hIup]
          omega
      · have hq : (l.getD p default).rev ≠ r := by
          intro hcon
          apply hpi
          rw [← hprr, hcon, hrr]
        have hq2 : (l.getD p default).rev ≠ i := by
          intro hcon
          apply hpr
          rw [hr, ← hcon, hprr]
        rw [hget p, if_neg hpr, if_neg hpi, hget ((l.getD p default).rev),
          if_neg (fun h => hq h.symm), if_neg (fun h => hq2 h.symm)]
        exact ⟨by rw [hlen]; exact hprlt, hprne, hprr, hpru, hprs⟩
  · rw [hnew, hget i, if_neg hrne, if_pos rfl, hIfl]
  · rw [hnew, hget r, if_pos rfl, hRfl]

/-- What `CSR::build` produces from a fresh (`Default`) CSR: correct sizes,
`start` holding the degree prefix sums, distances reset, and every raw edge's
arc pair placed at `posF`/`posR` with the recorded forward index. -/
theorem build_csr_spec (g : Graph) (hwf : g.edges.length = g.num_edges) (csr : CSR)
    (hbuild : CSR.build CSR.init g = some csr) :
    csr.num_nodes = g.num_nodes ∧
    csr.num_edges = g.num_edges ∧
    csr.inside_edge_list.length = 2 * g.edges.length ∧
    csr.edge_index_to_inside_edge_index.length = g.num_edges ∧
    (∀ w, w ≤ g.num_nodes → csr.start.getD w 0 = psum g.edges w) ∧
    csr.start.length = g.num_nodes + 1 ∧
    csr.distances = List.replicate g.num_nodes g.num_nodes ∧
    (∀ e ∈ g.edges, e.«from» < g.num_nodes ∧ e.«to» < g.num_nodes) ∧
    (∀ j, j < g.edges.length →
      csr.edge_index_to_inside_edge_index.getD j 0 = posF g.edges j) ∧
    (∀ j, j < g.edges.length →
      csr.inside_edge_list.getD (posF g.edges j) default = fwdArc g.edges j ∧
      csr.inside_edge_list.getD (posR g.edges j) default = revArc g.edges j) := by
  unfold CSR.build at hbuild
  simp only [CSR.init, vresize_nil, Option.bind_eq_bind] at hbuild
  obtain ⟨degree, hdeg, hbuild⟩ := Option.bind_eq_some.mp hbuild
  obtain ⟨pr, hplace, hbuild⟩ := Option.bind_eq_some.mp hbuild
  obtain ⟨eii1, inside1⟩ := pr
  simp only [pure] at hbuild
  injection hbuild with hbuild
  subst hbuild
  obtain ⟨hdlen, hdE, hdval⟩ := degreeLoop_some _ _ _ hdeg
  simp only [List.length_replicate] at hdlen hdE
  have hdval' : ∀ x, degree.getD x 0 = cntIn g.edges x := by
    intro x
    rw [hdval x, getD_replicate_self]
    omega
  have hE : ∀ e ∈ g.edges, e.«from» < g.num_nodes ∧ e.«to» < g.num_nodes := hdE
  obtain ⟨hslen, hsval⟩ := prefixLoop_spec g.edges degree hdval' g.num_nodes
    g.num_nodes 1 (List.replicate (g.num_nodes + 1) 0) (le_refl 1) (by omega)
    (by simp)
    (by
      intro j hj
      have : j = 0 := by omega
      subst this
      rw [getD_replicate_self]
      rfl)
    (by
      intro j _
      rw [getD_replicate_self])
  have hplace' := placeLoop_spec g.edges g.num_nodes
    (prefixLoop degree (List.replicate (g.num_nodes + 1) 0) 1 g.num_nodes) hE hsval
    g.edges 0 (List.replicate g.num_nodes 0) (List.replicate g.num_edges usizeMax)
    (List.replicate (2 * g.num_edges) default) eii1 inside1
    (by simp) (List.drop_zero g.edges) (by simp)
    (by
      intro w
      rw [getD_replicate_self, cBef_zero])
    (by simp [hwf])
    (by omega)
    (by omega)
    (by
      intro w _ r _ _
      rw [getD_replicate_self])
    hplace
  obtain ⟨hl1, hl2, hceii, hcinside⟩ := hplace'
  simp only [List.length_replicate] at hl1 hl2
  exact ⟨rfl, rfl, by simpa [hwf] using hl2, by simpa using hl1, hsval, hslen, rfl,
    hE, hceii, hcinside⟩

end MaxFlow

namespace MinCostFlow

theorem cycHit (M ce id : Nat) (hce : ce < M) (hid : id < M) :
    ∃ t, t < M ∧ (ce + t) % M = id := by
  refine ⟨(id + M - ce) % M, Nat.mod_lt _ (by omega), ?_⟩
  have h1 : (ce + (id + M - ce) % M) % M = (ce + (id + M - ce)) % M := by
    rw [Nat.add_mod ce ((id + M - ce) % M), Nat.mod_mod_of_dvd _ (dvd_refl M),
      ← Nat.add_mod]
  have h2 : ce + (id + M - ce) = id + M := by omega
  rw [h1, h2, Nat.add_mod_right, Nat.mod_eq_of_lt hid]

theorem mem_take_getD {α : Type} [Inhabited α] :
    ∀ (l : List α) (n : Nat) (p : α), p ∈ l.take n →
      ∃ j, j < n ∧ j < l.length ∧ l.getD j default = p
  | [], n, p, h => by simp at h
  | a :: t, 0, p, h => by simp at h
  | a :: t, n + 1, p, h => by
      simp only [List.take_succ_cons, List.mem_cons] at h
      rcases h with h | h
      · exact ⟨0, by omega, by simp, by simp [h]⟩
      · obtain ⟨j, h1, h2, h3⟩ := mem_take_getD t n p h
        exact ⟨j + 1, by omega, by simp; omega, by simpa using h3⟩

theorem enumFrom_getD {α : Type} [Inhabited α] :
    ∀ (l : List α) (n : Nat) (p : Nat × α), p ∈ l.enumFrom n →
      n ≤ p.1 ∧ p.1 - n < l.length ∧ l.getD (p.1 - n) default = p.2
  | [], n, p, h => by simp [List.enumFrom] at h
  | a :: t, n, p, h => by
      simp only [List.enumFrom, List.mem_cons] at h
      rcases h with h | h
      · subst h
        exact ⟨le_refl n, by simp, by simp⟩
      · obtain ⟨h1, h2, h3⟩ := enumFrom_getD t (n + 1) p h
        refine ⟨by omega, by simp; omega, ?_⟩
        have : p.1 - n = (p.1 - (n + 1)) + 1 := by omega
        rw [this]
        simpa using h3

theorem enumFrom_mem {α : Type} [Inhabited α] :
    ∀ (l : List α) (n i : Nat), i < l.length →
      (n + i, l.getD i default) ∈ l.enumFrom n
  | [], _, i, h => by simp at h
  | a :: t, n, 0, _ => by simp [List.enumFrom]
  | a :: t, n, i + 1, h => by
      have := enumFrom_mem t (n + 1) i (by simp at h; omega)
      simp only [List.enumFrom, List.mem_cons]
      right
      have harr : n + (i + 1) = (n + 1) + i := by omega
      rw [harr]
      simpa using this

theorem beFold_spec (st : SpanningTreeStructure)
    (cv : InternalEdge → SpanningTreeStructure → Int) :
    ∀ (l : List (Nat × InternalEdge)) (acc : Int × Option Nat),
      0 ≤ acc.1 →
      (∀ id, acc.2 = some id → 0 < cv (st.edges.getD id default) st) →
      (acc.2 = none → acc.1 = 0) →
      (∀ p ∈ l, st.edges.getD p.1 default = p.2) →
      (∀ id, (l.foldl (beStep st cv) acc).2 = some id →
          0 < cv (st.edges.getD id default) st) ∧
      ((l.foldl (beStep st cv) acc).2 = none →
          acc.2 = none ∧ ∀ p ∈ l, cv p.2 st ≤ 0)
  | [], acc, h1, h2, h3, hl => by
      refine ⟨by simpa using h2, ?_⟩
      intro h
      exact ⟨h, by simp⟩
  | p :: t, acc, h1, h2, h3, hl => by
      simp only [List.foldl_cons]
      by_cases hcmp : acc.1 < cv p.2 st
      · have hstep : beStep st cv acc p = (cv p.2 st, some p.1) := by
          simp [beStep, hcmp]
        rw [hstep]
        have hrec := beFold_spec st cv t (cv p.2 st, some p.1)
          (by simp; omega)
          (by
            intro id hid
            simp at hid
            subst hid
            have := hl p (by simp)
            rw [this]
            omega)
          (by simp)
          (fun q hq => hl q (by simp [hq]))
        refine ⟨hrec.1, ?_⟩
        intro hnone
        have := hrec.2 hnone
        simp at this
      · have hstep : beStep st cv acc p = acc := by
          simp [beStep, hcmp]
        rw [hstep]
        have hrec := beFold_spec st cv t acc h1 h2 h3
          (fun q hq => hl q (by simp [hq]))
        refine ⟨hrec.1, ?_⟩
        intro hnone
        obtain ⟨ha, hall⟩ := hrec.2 hnone
        refine ⟨ha, ?_⟩
        intro q hq
        rcases List.mem_cons.mp hq with h | h
        · subst h
          have := h3 ha
          omega
        · exact hall q h

theorem feLoop_some (st : SpanningTreeStructure)
    (cv : InternalEdge → SpanningTreeStructure → Int) :
    ∀ (k ce id ceF : Nat), feLoop st cv k ce = (some id, ceF) →
      0 < cv (st.edges.getD id default) st
  | 0, ce, id, ceF, h => by simp [feLoop] at h
  | k + 1, ce, id, ceF, h => by
      rw [feLoop] at h
      by_cases hv : 0 < cv (st.edges.getD ce default) st
      · rw [if_pos hv] at h
        injection h with h1 h2
        injection h1 with h1
        subst h1
        exact hv
      · rw [if_neg hv] at h
        exact feLoop_some st cv k _ id ceF h

theorem feLoop_none (st : SpanningTreeStructure)
    (cv : InternalEdge → SpanningTreeStructure → Int) :
    ∀ (k ce : Nat), ce < st.num_edges →
      ((feLoop st cv k ce).1 = none) →
      ∀ t, t < k → cv (st.edges.getD ((ce + t) % st.num_edges) default) st ≤ 0
  | 0, ce, hce, h, t, ht => by omega
  | k + 1, ce, hce, h, t, ht => by
      rw [feLoop] at h
      by_cases hv : 0 < cv (st.edges.getD ce default) st
      · rw [if_pos hv] at h
        simp at h
      · rw [if_neg hv] at h
        rcases Nat.eq_zero_or_pos t with h0 | h0
        · subst h0
          rw [Nat.add_zero, Nat.mod_eq_of_lt hce]
          omega
        · have hM : 0 < st.num_edges := by omega
          by_cases hwrap : ce + 1 = st.num_edges
          · rw [if_pos hwrap] at h
            have := feLoop_none st cv k 0 hM h (t - 1) (by omega)
            have harith : (ce + t) % st.num_edges = (0 + (t - 1)) % st.num_edges := by
              have : ce + t = st.num_edges + (t - 1) := by omega
              rw [this, Nat.add_comm st.num_edges (t - 1), Nat.add_mod_right]
              simp
            rw [harith]
            exact this
          · rw [if_neg hwrap] at h
            have := feLoop_none st cv k (ce + 1) (by omega) h (t - 1) (by omega)
            have harith : ce + t = (ce + 1) + (t - 1) := by omega
            rw [harith]
            exact this

theorem bsLoop_isSome (st : SpanningTreeStructure)
    (cv : InternalEdge → SpanningTreeStructure → Int) (bs : Nat) :
    ∀ (k ce count : Nat) (maxi : Int) (ent : Option Nat), ent.isSome →
      (bsLoop st cv bs k ce count maxi ent).1.isSome
  | 0, ce, count, maxi, ent, h => h
  | k + 1, ce, count, maxi, ent, h => by
      rw [bsLoop]
      have hsome : (if maxi < cv (st.edges.getD ce default) st then some ce else ent).isSome := by
        by_cases hc : maxi < cv (st.edges.getD ce default) st
        · rw [if_pos hc]
          rfl
        · rw [if_neg hc]
          exact h
      by_cases hcnt : count - 1 = 0
      · simp only [hcnt, if_pos rfl]
        rw [if_pos hsome]
        exact hsome
      · simp only [if_neg hcnt]
        exact bsLoop_isSome st cv bs k _ _ _ _ hsome

theorem bsLoop_some (st : SpanningTreeStructure)
    (cv : InternalEdge → SpanningTreeStructure → Int) (bs : Nat) :
    ∀ (k ce count : Nat) (maxi : Int) (ent : Option Nat) (id ceF : Nat),
      0 ≤ maxi →
      (∀ j, ent = some j → 0 < cv (st.edges.getD j default) st) →
      bsLoop st cv bs k ce count maxi ent = (some id, ceF) →
      0 < cv (st.edges.getD id default) st
  | 0, ce, count, maxi, ent, id, ceF, hm, hent, h => by
      rw [bsLoop] at h
      injection h with h1 h2
      exact hent id h1
  | k + 1, ce, count, maxi, ent, id, ceF, hm, hent, h => by
      rw [bsLoop] at h
      set violation := cv (st.edges.getD ce default) st with hv
      have hm1 : 0 ≤ if maxi < violation then violation else maxi := by
        by_cases hc : maxi < violation
        · simp [hc]; omega
        · simpa [hc] using hm
      have hent1 : ∀ j, (if maxi < violation then some ce else ent) = some j →
          0 < cv (st.edges.getD j default) st := by
        intro j hj
        by_cases hc : maxi < violation
        · rw [if_pos hc] at hj
          injection hj with hj
          subst hj
          rw [← hv]
          omega
        · rw [if_neg hc] at hj
          exact hent j hj
      by_cases hcnt : count - 1 = 0
      · rw [if_pos hcnt] at h
        by_cases hs : (if maxi < violation then some ce else ent).isSome
        · rw [if_pos hs] at h
          injection h with h1 h2
          exact hent1 id h1
        · rw [if_neg hs] at h
          exact bsLoop_some st cv bs k _ _ _ _ id ceF hm1 hent1 h
      · rw [if_neg hcnt] at h
        exact bsLoop_some st cv bs k _ _ _ _ id ceF hm1 hent1 h

theorem bsLoop_none (st : SpanningTreeStructure)
    (cv : InternalEdge → SpanningTreeStructure → Int) (bs : Nat) :
    ∀ (k ce count : Nat), ce < st.num_edges →
      (bsLoop st cv bs k ce count 0 none).1 = none →
      ∀ t, t < k → cv (st.edges.getD ((ce + t) % st.num_edges) default) st ≤ 0
  | 0, ce, count, hce, h, t, ht => by omega
  | k + 1, ce, count, hce, h, t, ht => by
      rw [bsLoop] at h
      by_cases hv : (0 : Int) < cv (st.edges.getD ce default) st
      · exfalso
        simp only [if_pos hv] at h
        by_cases hcnt : count - 1 = 0
        · rw [if_pos hcnt] at h
          rw [if_pos (by simp)] at h
          simp at h
        · rw [if_neg hcnt] at h
          have := bsLoop_isSome st cv bs k
            (if ce + 1 = st.num_edges then 0 else ce + 1) (count - 1)
            (cv (st.edges.getD ce default) st) (some ce) (by simp)
          rw [h] at this
          simp at this
      · rw [if_neg hv] at h
        have hmaxi : (if (0 : Int) < cv (st.edges.getD ce default) st
            then cv (st.edges.getD ce default) st else 0) = 0 := by
          rw [if_neg hv]
        have hrest : ∀ count1,
            (bsLoop st cv bs k (if ce + 1 = st.num_edges then 0 else ce + 1)
              count1 0 none).1 = none →
            ∀ s, s < k → cv (st.edges.getD
              (((if ce + 1 = st.num_edges then 0 else ce + 1) + s) % st.num_edges)
                default) st ≤ 0 := by
          intro count1 hh
          refine bsLoop_none st cv bs k _ count1 ?_ hh
          by_cases hwrap : ce + 1 = st.num_edges
          · rw [if_pos hwrap]; omega
          · rw [if_neg hwrap]; omega
        rcases Nat.eq_zero_or_pos t with h0 | h0
        · subst h0
          rw [Nat.add_zero, Nat.mod_eq_of_lt hce]
          omega
        · have hM : 0 < st.num_edges := by omega
          have harith : (ce + t) % st.num_edges =
              ((if ce + 1 = st.num_edges then 0 else ce + 1) + (t - 1)) % st.num_edges := by
            by_cases hwrap : ce + 1 = st.num_edges
            · rw [if_pos hwrap]
              have : ce + t = (t - 1) + st.num_edges := by omega
              rw [this, Nat.add_mod_right]
              simp
            · rw [if_neg hwrap]
              have : ce + t = (ce + 1) + (t - 1) := by omega
              rw [this]
          rw [harith]
          by_cases hcnt : count - 1 = 0
          · rw [if_pos hcnt, if_neg (by simp), hmaxi] at h
            exact hrest bs h (t - 1) (by omega)
          · rw [if_neg hcnt, hmaxi] at h
            exact hrest (count - 1) h (t - 1) (by omega)

theorem clMinor_inv (st : SpanningTreeStructure)
    (cv : InternalEdge → SpanningTreeStructure → Int) :
    ∀ (fuel i : Nat) (cands : List Nat) (cs : Nat) (maxi : Int) (ent : Option Nat)
      (cands' : List Nat) (cs' : Nat) (maxi' : Int) (ent' : Option Nat),
      0 ≤ maxi →
      (∀ j, ent = some j → 0 < cv (st.edges.getD j default) st) →
      (ent = none → maxi = 0) →
      clMinor st cv fuel i cands cs maxi ent = some (cands', cs', maxi', ent') →
      (∀ j, ent' = some j → 0 < cv (st.edges.getD j default) st) ∧
      (ent' = none → maxi' = 0)
  | 0, i, cands, cs, maxi, ent, cands', cs', maxi', ent', hm, hs, hn, h => by
      rw [clMinor] at h
      by_cases hi : i < cs
      · rw [if_pos hi] at h
        simp at h
      · rw [if_neg hi] at h
        injection h with h
        injection h with h1 h
        injection h with h2 h
        injection h with h3 h4
        subst h3; subst h4
        exact ⟨hs, hn⟩
  | fuel + 1, i, cands, cs, maxi, ent, cands', cs', maxi', ent', hm, hs, hn, h => by
      rw [clMinor] at h
      by_cases hi : i < cs
      · rw [if_pos hi] at h
        set edge_id := cands.getD i 0 with he
        by_cases hv : cv (st.edges.getD edge_id default) st ≤ 0
        · rw [if_pos hv] at h
          simp only [Option.bind_eq_bind] at h
          obtain ⟨cands1, _, hrec⟩ := Option.bind_eq_some.mp h
          exact clMinor_inv st cv fuel i cands1 (cs - 1) maxi ent
            cands' cs' maxi' ent' hm hs hn hrec
        · rw [if_neg hv] at h
          refine clMinor_inv st cv fuel (i + 1) cands cs _ _ cands' cs' maxi' ent'
            ?_ ?_ ?_ h
          · by_cases hc : maxi < cv (st.edges.getD edge_id default) st
            · rw [if_pos hc]; omega
            · rw [if_neg hc]; exact hm
          · intro j hj
            by_cases hc : maxi < cv (st.edges.getD edge_id default) st
            · rw [if_pos hc] at hj
              injection hj with hj
              subst hj
              omega
            · rw [if_neg hc] at hj
              exact hs j hj
          · intro hnone
            by_cases hc : maxi < cv (st.edges.getD edge_id default) st
            · rw [if_pos hc] at hnone
              simp at hnone
            · rw [if_neg hc] at hnone
              have := hn hnone
              omega
      · rw [if_neg hi] at h
        injection h with h
        injection h with h1 h
        injection h with h2 h
        injection h with h3 h4
        subst h3; subst h4
        exact ⟨hs, hn⟩

theorem clMajor_isSome (st : SpanningTreeStructure) (lsz : Nat) :
    ∀ (k ce : Nat) (cands : List Nat) (cs : Nat) (maxi : Int) (ent : Option Nat)
      (ce' : Nat) (cands' : List Nat) (cs' : Nat) (maxi' : Int) (ent' : Option Nat),
      ent.isSome →
      clMajor st lsz k ce cands cs maxi ent = some (ce', cands', cs', maxi', ent') →
      ent'.isSome
  | 0, ce, cands, cs, maxi, ent, ce', cands', cs', maxi', ent', hsome, h => by
      rw [clMajor] at h
      injection h with h
      injection h with h1 h
      injection h with h2 h
      injection h with h3 h
      injection h with h4 h5
      subst h5
      exact hsome
  | k + 1, ce, cands, cs, maxi, ent, ce', cands', cs', maxi', ent', hsome, h => by
      rw [clMajor] at h
      set violation := calculate_violation (st.edges.getD ce default) st with hviol
      have hentsome : (if maxi < violation then some ce else ent).isSome := by
        by_cases hc : maxi < violation
        · rw [if_pos hc]; rfl
        · rw [if_neg hc]; exact hsome
      by_cases hv : (0 : Int) < violation
      · rw [if_pos hv] at h
        simp only [Option.bind_eq_bind] at h
        obtain ⟨cands1, _, hrec⟩ := Option.bind_eq_some.mp h
        by_cases hbrk : cs + 1 = lsz
        · rw [if_pos hbrk] at hrec
          injection hrec with hrec
          injection hrec with h1 hrec
          injection hrec with h2 hrec
          injection hrec with h3 hrec
          injection hrec with h4 h5
          subst h5
          exact hentsome
        · rw [if_neg hbrk] at hrec
          exact clMajor_isSome st lsz k _ cands1 (cs + 1) _ _
            ce' cands' cs' maxi' ent' hentsome hrec
      · rw [if_neg hv] at h
        by_cases hbrk : cs = lsz
        · rw [if_pos hbrk] at h
          injection h with h
          injection h with h1 h
          injection h with h2 h
          injection h with h3 h
          injection h with h4 h5
          subst h5
          exact hsome
        · rw [if_neg hbrk] at h
          exact clMajor_isSome st lsz k _ cands cs maxi ent
            ce' cands' cs' maxi' ent' hsome h

theorem clMajor_some (st : SpanningTreeStructure) (lsz : Nat) :
    ∀ (k ce : Nat) (cands : List Nat) (cs : Nat) (maxi : Int) (ent : Option Nat)
      (ce' : Nat) (cands' : List Nat) (cs' : Nat) (maxi' : Int) (ent' : Option Nat),
      0 ≤ maxi →
      (∀ j, ent = some j → 0 < violationAt st j) →
      clMajor st lsz k ce cands cs maxi ent = some (ce', cands', cs', maxi', ent') →
      ∀ j, ent' = some j → 0 < violationAt st j
  | 0, ce, cands, cs, maxi, ent, ce', cands', cs', maxi', ent', hm, hs, h => by
      rw [clMajor] at h
      injection h with h
      injection h with h1 h
      injection h with h2 h
      injection h with h3 h
      injection h with h4 h5
      subst h5
      exact hs
  | k + 1, ce, cands, cs, maxi, ent, ce', cands', cs', maxi', ent', hm, hs, h => by
      rw [clMajor] at h
      have hm1 : 0 ≤ if maxi < violationAt st ce then violationAt st ce else maxi := by
        by_cases hc : maxi < violationAt st ce
        · rw [if_pos hc]; omega
        · rw [if_neg hc]; exact hm
      have hs1 : ∀ j, (if maxi < violationAt st ce then some ce else ent) = some j →
          0 < violationAt st j := by
        intro j hj
        by_cases hc : maxi < violationAt st ce
        · rw [if_pos hc] at hj
          injection hj with hj
          subst hj
          omega
        · rw [if_neg hc] at hj
          exact hs j hj
      by_cases hv : (0 : Int) < calculate_violation (st.edges.getD ce default) st
      · rw [if_pos hv] at h
        simp only [Option.bind_eq_bind] at h
        obtain ⟨cands1, _, hrec⟩ := Option.bind_eq_some.mp h
        by_cases hbrk : cs + 1 = lsz
        · rw [if_pos hbrk] at hrec
          injection hrec with hrec
          injection hrec with h1 hrec
          injection hrec with h2 hrec
          injection hrec with h3 hrec
          injection hrec with h4 h5
          subst h5
          exact hs1
        · rw [if_neg hbrk] at hrec
          exact clMajor_some st lsz k _ cands1 (cs + 1) _ _
            ce' cands' cs' maxi' ent' hm1 hs1 hrec
      · rw [if_neg hv] at h
        by_cases hbrk : cs = lsz
        · rw [if_pos hbrk] at h
          injection h with h
          injection h with h1 h
          injection h with h2 h
          injection h with h3 h
          injection h with h4 h5
          subst h5
          exact hs
        · rw [if_neg hbrk] at h
          exact clMajor_some st lsz k _ cands cs maxi ent
            ce' cands' cs' maxi' ent' hm hs h

theorem clMajor_none (st : SpanningTreeStructure) (lsz : Nat) (hlsz : 0 < lsz) :
    ∀ (k ce : Nat) (cands : List Nat) (ce' : Nat) (cands' : List Nat)
      (cs' : Nat) (maxi' : Int),
      ce < st.num_edges →
      clMajor st lsz k ce cands 0 0 none = some (ce', cands', cs', maxi', none) →
      ∀ t, t < k → violationAt st ((ce + t) % st.num_edges) ≤ 0
  | 0, ce, cands, ce', cands', cs', maxi', hce, h, t, ht => by omega
  | k + 1, ce, cands, ce', cands', cs', maxi', hce, h, t, ht => by
      rw [clMajor] at h
      by_cases hv : (0 : Int) < calculate_violation (st.edges.getD ce default) st
      · exfalso
        rw [if_pos hv] at h
        simp only [Option.bind_eq_bind] at h
        obtain ⟨cands1, _, hrec⟩ := Option.bind_eq_some.mp h
        simp only [if_pos hv] at hrec
        by_cases hbrk : 0 + 1 = lsz
        · rw [if_pos hbrk] at hrec
          injection hrec with hrec
          injection hrec with h1 hrec
          injection hrec with h2 hrec
          injection hrec with h3 hrec
          injection hrec with h4 h5
          simp at h5
        · rw [if_neg hbrk] at hrec
          have := clMajor_isSome st lsz k _ cands1 (0 + 1) _ (some ce)
            ce' cands' cs' maxi' none (by rfl) hrec
          simp at this
      · rw [if_neg hv] at h
        rw [if_neg (by omega : ¬(0 : Nat) = lsz)] at h
        rcases Nat.eq_zero_or_pos t with h0 | h0
        · subst h0
          rw [Nat.add_zero, Nat.mod_eq_of_lt hce]
          rw [violationAt]
          omega
        · have hM : 0 < st.num_edges := by omega
          have hce1 : (if ce + 1 = st.num_edges then 0 else ce + 1) < st.num_edges := by
            by_cases hwrap : ce + 1 = st.num_edges
            · rw [if_pos hwrap]; omega
            · rw [if_neg hwrap]; omega
          have hrest := clMajor_none st lsz hlsz k _ cands ce' cands' cs' maxi' hce1 h
            (t - 1) (by omega)
          have harith : (ce + t) % st.num_edges =
              ((if ce + 1 = st.num_edges then 0 else ce + 1) + (t - 1)) % st.num_edges := by
            by_cases hwrap : ce + 1 = st.num_edges
            · rw [if_pos hwrap]
              have : ce + t = (t - 1) + st.num_edges := by omega
              rw [this, Nat.add_mod_right]
              simp
            · rw [if_neg hwrap]
              have : ce + t = (ce + 1) + (t - 1) := by omega
              rw [this]
          rw [harith]
          exact hrest

theorem aclUpdate_inv (st : SpanningTreeStructure)
    (cv : InternalEdge → SpanningTreeStructure → Int) :
    ∀ (fuel i : Nat) (cands : List (Nat × Int)) (cs : Nat)
      (cands' : List (Nat × Int)) (cs' : Nat),
      (∀ j, j < i → 0 < cv (st.edges.getD (cands.getD j default).1 default) st) →
      aclUpdate st cv fuel i cands cs = some (cands', cs') →
      (∀ j, j < cs' → 0 < cv (st.edges.getD (cands'.getD j default).1 default) st) ∧
      cands'.length = cands.length ∧ cs' ≤ cs
  | 0, i, cands, cs, cands', cs', hinv, h => by
      rw [aclUpdate] at h
      by_cases hi : i < cs
      · rw [if_pos hi] at h
        simp at h
      · rw [if_neg hi] at h
        injection h with h
        injection h with h1 h2
        subst h1; subst h2
        exact ⟨fun j hj => hinv j (by omega), rfl, le_refl cs⟩
  | fuel + 1, i, cands, cs, cands', cs', hinv, h => by
      rw [aclUpdate] at h
      by_cases hi : i < cs
      · rw [if_pos hi] at h
        set edge_id := (cands.getD i default).1 with he
        by_cases hv : cv (st.edges.getD edge_id default) st ≤ 0
        · rw [if_pos hv] at h
          simp only [Option.bind_eq_bind] at h
          obtain ⟨cands1, hset, hrec⟩ := Option.bind_eq_some.mp h
          obtain ⟨hlt, hc1⟩ := vset_eq_some_iff.mp hset
          subst hc1
          have := aclUpdate_inv st cv fuel i _ (cs - 1) cands' cs'
            (by
              intro j hj
              rw [getD_set_ne _ _ _ _ _ (by omega)]
              exact hinv j hj)
            hrec
          refine ⟨this.1, ?_, by omega⟩
          rw [this.2.1, List.length_set]
        · rw [if_neg hv] at h
          simp only [Option.bind_eq_bind] at h
          obtain ⟨cands1, hset, hrec⟩ := Option.bind_eq_some.mp h
          obtain ⟨hlt, hc1⟩ := vset_eq_some_iff.mp hset
          subst hc1
          have := aclUpdate_inv st cv fuel (i + 1) _ cs cands' cs'
            (by
              intro j hj
              rcases Nat.lt_or_ge j i with hji | hji
              · rw [getD_set_ne _ _ _ _ _ (by omega)]
                exact hinv j hji
              · have hj_eq : j = i := by omega
                subst hj_eq
                rw [getD_set_eq _ _ _ _ hlt]
                simp only []
                omega)
            hrec
          refine ⟨this.1, ?_, this.2.2⟩
          rw [this.2.1, List.length_set]
      · rw [if_neg hi] at h
        injection h with h
        injection h with h1 h2
        subst h1; subst h2
        exact ⟨fun j hj => hinv j (by omega), rfl, le_refl cs⟩

theorem aclExtend_mono (st : SpanningTreeStructure) (bs : Nat) :
    ∀ (k ce : Nat) (cands : List (Nat × Int)) (cs bc limit : Nat)
      (ce' : Nat) (cands' : List (Nat × Int)) (cs' : Nat),
      aclExtend st bs k ce cands cs bc limit = some (ce', cands', cs') →
      cs ≤ cs'
  | 0, ce, cands, cs, bc, limit, ce', cands', cs', h => by
      rw [aclExtend] at h
      injection h with h
      injection h with h1 h
      injection h with h2 h3
      omega
  | k + 1, ce, cands, cs, bc, limit, ce', cands', cs', h => by
      rw [aclExtend] at h
      by_cases hv : (0 : Int) < calculate_violation (st.edges.getD ce default) st
      · rw [if_pos hv] at h
        simp only [Option.bind_eq_bind] at h
        obtain ⟨c, hc, hrest⟩ := Option.bind_eq_some.mp h
        simp only [Option.pure_def, Option.some_bind] at hrest
        by_cases hbc : bc - 1 = 0
        · rw [if_pos hbc] at hrest
          by_cases hlim : limit < cs + 1
          · rw [if_pos hlim] at hrest
            injection hrest with hrest
            injection hrest with h1 hrest
            injection hrest with h2 h3
            omega
          · rw [if_neg hlim] at hrest
            have := aclExtend_mono st bs k _ c (cs + 1) bs 0 ce' cands' cs' hrest
            omega
        · rw [if_neg hbc] at hrest
          have := aclExtend_mono st bs k _ c (cs + 1) (bc - 1) limit ce' cands' cs' hrest
          omega
      · rw [if_neg hv] at h
        simp only [Option.pure_def, Option.bind_eq_bind, Option.some_bind] at h
        by_cases hbc : bc - 1 = 0
        · rw [if_pos hbc] at h
          by_cases hlim : limit < cs
          · rw [if_pos hlim] at h
            injection h with h
            injection h with h1 h
            injection h with h2 h3
            omega
          · rw [if_neg hlim] at h
            exact aclExtend_mono st bs k _ cands cs bs 0 ce' cands' cs' h
        · rw [if_neg hbc] at h
          exact aclExtend_mono st bs k _ cands cs (bc - 1) limit ce' cands' cs' h

theorem aclExtend_inv (st : SpanningTreeStructure) (bs : Nat) :
    ∀ (k ce : Nat) (cands : List (Nat × Int)) (cs bc limit : Nat)
      (ce' : Nat) (cands' : List (Nat × Int)) (cs' : Nat),
      (∀ j, j < cs → 0 < violationAt st (cands.getD j default).1) →
      cs ≤ cands.length →
      aclExtend st bs k ce cands cs bc limit = some (ce', cands', cs') →
      (∀ j, j < cs' → 0 < violationAt st (cands'.getD j default).1) ∧
      cands'.length = cands.length ∧ cs' ≤ cands'.length
  | 0, ce, cands, cs, bc, limit, ce', cands', cs', hinv, hcl, h => by
      rw [aclExtend] at h
      injection h with h
      injection h with h1 h
      injection h with h2 h3
      subst h2; subst h3
      exact ⟨hinv, rfl, hcl⟩
  | k + 1, ce, cands, cs, bc, limit, ce', cands', cs', hinv, hcl, h => by
      rw [aclExtend] at h
      by_cases hv : (0 : Int) < calculate_violation (st.edges.getD ce default) st
      · rw [if_pos hv] at h
        simp only [Option.bind_eq_bind] at h
        obtain ⟨c, hc, hrest⟩ := Option.bind_eq_some.mp h
        simp only [Option.pure_def, Option.some_bind] at hrest
        obtain ⟨hlt, hceq⟩ := vset_eq_some_iff.mp hc
        subst hceq
        have hstep : ∀ j, j < cs + 1 →
            0 < violationAt st
              (((cands.set cs (ce, calculate_violation (st.edges.getD ce default) st)).getD
                j default)).1 := by
          intro j hj
          rcases Nat.lt_or_ge j cs with hji | hji
          · rw [getD_set_ne _ _ _ _ _ (by omega)]
            exact hinv j hji
          · have hj_eq : j = cs := by omega
            subst hj_eq
            rw [getD_set_eq _ _ _ _ hlt]
            simpa [violationAt] using hv
        have hlen : (cands.set cs (ce, calculate_violation (st.edges.getD ce default) st)).length
            = cands.length := List.length_set _ _ _
        have hcl1 : cs + 1 ≤ (cands.set cs
            (ce, calculate_violation (st.edges.getD ce default) st)).length := by
          rw [hlen]; omega
        by_cases hbc : bc - 1 = 0
        · rw [if_pos hbc] at hrest
          by_cases hlim : limit < cs + 1
          · rw [if_pos hlim] at hrest
            injection hrest with hrest
            injection hrest with h1 hrest
            injection hrest with h2 h3
            subst h2; subst h3
            exact ⟨hstep, hlen, hcl1⟩
          · rw [if_neg hlim] at hrest
            have := aclExtend_inv st bs k _ _ (cs + 1) bs 0 ce' cands' cs' hstep hcl1 hrest
            exact ⟨this.1, this.2.1.trans hlen, this.2.2⟩
        · rw [if_neg hbc] at hrest
          have := aclExtend_inv st bs k _ _ (cs + 1) (bc - 1) limit ce' cands' cs' hstep hcl1 hrest
          exact ⟨this.1, this.2.1.trans hlen, this.2.2⟩
      · rw [if_neg hv] at h
        simp only [Option.pure_def, Option.bind_eq_bind, Option.some_bind] at h
        by_cases hbc : bc - 1 = 0
        · rw [if_pos hbc] at h
          by_cases hlim : limit < cs
          · rw [if_pos hlim] at h
            injection h with h
            injection h with h1 h
            injection h with h2 h3
            subst h2; subst h3
            exact ⟨hinv, rfl, hcl⟩
          · rw [if_neg hlim] at h
            exact aclExtend_inv st bs k _ cands cs bs 0 ce' cands' cs' hinv hcl h
        · rw [if_neg hbc] at h
          exact aclExtend_inv st bs k _ cands cs (bc - 1) limit ce' cands' cs' hinv hcl h

theorem aclExtend_none (st : SpanningTreeStructure) (bs : Nat) :
    ∀ (k ce : Nat) (cands : List (Nat × Int)) (cs bc limit : Nat)
      (ce' : Nat) (cands' : List (Nat × Int)),
      ce < st.num_edges →
      aclExtend st bs k ce cands cs bc limit = some (ce', cands', 0) →
      cs = 0 ∧ ∀ t, t < k → violationAt st ((ce + t) % st.num_edges) ≤ 0
  | 0, ce, cands, cs, bc, limit, ce', cands', hce, h => by
      rw [aclExtend] at h
      injection h with h
      injection h with h1 h
      injection h with h2 h3
      exact ⟨h3, fun t ht => by omega⟩
  | k + 1, ce, cands, cs, bc, limit, ce', cands', hce, h => by
      rw [aclExtend] at h
      by_cases hv : (0 : Int) < calculate_violation (st.edges.getD ce default) st
      · exfalso
        rw [if_pos hv] at h
        simp only [Option.bind_eq_bind] at h
        obtain ⟨c, hc, hrest⟩ := Option.bind_eq_some.mp h
        simp only [Option.pure_def, Option.some_bind] at hrest
        by_cases hbc : bc - 1 = 0
        · rw [if_pos hbc] at hrest
          by_cases hlim : limit < cs + 1
          · rw [if_pos hlim] at hrest
            injection hrest with hrest
            injection hrest with ha hrest
            injection hrest with hb hc2
            omega
          · rw [if_neg hlim] at hrest
            have := aclExtend_mono st bs k _ c (cs + 1) bs 0 ce' cands' 0 hrest
            omega
        · rw [if_neg hbc] at hrest
          have := aclExtend_mono st bs k _ c (cs + 1) (bc - 1) limit ce' cands' 0 hrest
          omega
      · rw [if_neg hv] at h
        simp only [Option.pure_def, Option.bind_eq_bind, Option.some_bind] at h
        have hce1 : (if ce + 1 = st.num_edges then 0 else ce + 1) < st.num_edges := by
          by_cases hwrap : ce + 1 = st.num_edges
          · rw [if_pos hwrap]; omega
          · rw [if_neg hwrap]; omega
        have hmain : cs = 0 ∧ ∀ s, s < k → violationAt st
            (((if ce + 1 = st.num_edges then 0 else ce + 1) + s) % st.num_edges) ≤ 0 := by
          by_cases hbc : bc - 1 = 0
          · rw [if_pos hbc] at h
            by_cases hlim : limit < cs
            · rw [if_pos hlim] at h
              injection h with h
              injection h with ha h
              injection h with hb hc2
              omega
            · rw [if_neg hlim] at h
              exact aclExtend_none st bs k _ cands cs bs 0 ce' cands' hce1 h
          · rw [if_neg hbc] at h
            exact aclExtend_none st bs k _ cands cs (bc - 1) limit ce' cands' hce1 h
        refine ⟨hmain.1, ?_⟩
        intro t ht
        rcases Nat.eq_zero_or_pos t with h0 | h0
        · subst h0
          rw [Nat.add_zero, Nat.mod_eq_of_lt hce, violationAt]
          omega
        · have harith : (ce + t) % st.num_edges =
              ((if ce + 1 = st.num_edges then 0 else ce + 1) + (t - 1)) % st.num_edges := by
            by_cases hwrap : ce + 1 = st.num_edges
            · rw [if_pos hwrap]
              have : ce + t = (t - 1) + st.num_edges := by omega
              rw [this, Nat.add_mod_right]
              simp
            · rw [if_neg hwrap]
              have : ce + t = (ce + 1) + (t - 1) := by omega
              rw [this]
          rw [harith]
          exact hmain.2 (t - 1) (by omega)

end MinCostFlow

namespace MaxFlow

theorem pairwise_transfer {α : Type} {R S : α → α → Prop} :
    ∀ (l : List α), (∀ a b, a ∈ l → b ∈ l → R a b → S a b) →
      l.Pairwise R → l.Pairwise S
  | [], _, _ => .nil
  | a :: t, h, hp => by
      rw [List.pairwise_cons] at hp ⊢
      refine ⟨fun b hb => h a b (by simp) (by simp [hb]) (hp.1 b hb), ?_⟩
      exact pairwise_transfer t (fun x y hx hy => h x y (by simp [hx]) (by simp [hy])) hp.2

theorem label_bound (n : Nat) (dist : List Nat) (v w : Nat) (hw : w < n)
    (hvl : dist.getD v 0 < n) (hwu : dist.getD w 0 = n)
    (hlayers : ∀ j, j ≤ dist.getD v 0 → ∃ x, x < n ∧ dist.getD x 0 = j) :
    dist.getD v 0 + 1 < n := by
  by_contra hcon
  push_neg at hcon
  have hch : ∀ j : Nat, j < n → ∃ x, x < n ∧ dist.getD x 0 = j := fun j hj =>
    hlayers j (by omega)
  have hprop : ∀ j : Nat, ∃ x, j < n → (x < n ∧ dist.getD x 0 = j) := by
    intro j
    by_cases hj : j < n
    · obtain ⟨x, hx⟩ := hch j hj
      exact ⟨x, fun _ => hx⟩
    · exact ⟨0, fun h => absurd h hj⟩
  choose f hfspec using hprop
  have hmaps : ∀ j ∈ Finset.range n, f j ∈ (Finset.range n).erase w := by
    intro j hj
    rw [Finset.mem_range] at hj
    obtain ⟨hx1, hx2⟩ := hfspec j hj
    rw [Finset.mem_erase, Finset.mem_range]
    refine ⟨?_, hx1⟩
    intro heq
    rw [heq, hwu] at hx2
    omega
  have hinj : Set.InjOn f (Finset.range n) := by
    intro a ha b hb hab
    rw [Finset.coe_range, Set.mem_Iio] at ha hb
    have h1 := (hfspec a ha).2
    have h2 := (hfspec b hb).2
    rw [hab] at h1
    rw [h1] at h2
    exact h2
  have hcard := Finset.card_le_card_of_injOn f hmaps hinj
  rw [Finset.card_erase_of_mem (Finset.mem_range.mpr hw), Finset.card_range] at hcard
  omega

theorem scanArcs_inv (c : CSR) (hwf : CSRWF c) (source sink d v : Nat)
    (hv : v < c.num_nodes) (hvcond : v = sink ∨ v ≠ source)
    (hdlt : d < c.num_nodes) :
    ∀ (count i : Nat) (dist que : List Nat),
      dist.getD v 0 = d →
      c.start.getD v 0 ≤ i →
      (i + count ≤ c.start.getD (v + 1) 0 ∨ count = 0) →
      BfsCore c source sink d dist que →
      closedExcept c source sink v dist que →
      arcClosureUpto c dist v i →
      BfsCore c source sink d
        (scanArcs c.num_nodes source v c.inside_edge_list dist que i count).1
        (scanArcs c.num_nodes source v c.inside_edge_list dist que i count).2 ∧
      closedExcept c source sink v
        (scanArcs c.num_nodes source v c.inside_edge_list dist que i count).1
        (scanArcs c.num_nodes source v c.inside_edge_list dist que i count).2 ∧
      arcClosureUpto c
        (scanArcs c.num_nodes source v c.inside_edge_list dist que i count).1 v
        (i + count) ∧
      (∀ u, dist.getD u 0 ≠ c.num_nodes →
        (scanArcs c.num_nodes source v c.inside_edge_list dist que i count).1.getD u 0 =
          dist.getD u 0)
  | 0, i, dist, que, hd, hi, hr, hcore, hce, hup => by
      rw [scanArcs]
      exact ⟨hcore, hce, by simpa using hup, fun u _ => rfl⟩
  | count + 1, i, dist, que, hd, hi, hr, hcore, hce, hup => by
      have hiT : i < c.start.getD (v + 1) 0 := by
        rcases hr with h | h
        · omega
        · omega
      have harc := hwf.2 v hv i hiT hi
      obtain ⟨hto_lt, hrev_lb, hrev_ub, hrev_to, hrev_res, hfwd_res⟩ := harc
      have hnpos : 0 < c.num_nodes := by omega
      have hvlab : dist.getD v 0 ≠ c.num_nodes := by rw [hd]; omega
      rw [scanArcs]
      by_cases hcase : 0 < (c.inside_edge_list.getD i default).flow ∧
          dist.getD (c.inside_edge_list.getD i default).«to» 0 = c.num_nodes
      · rw [if_pos hcase]
        obtain ⟨hflow, hto_n⟩ := hcase
        have hw_ne_sink : (c.inside_edge_list.getD i default).«to» ≠ sink := by
          intro h
          rw [h, hcore.sink0] at hto_n
          omega
        have hv_ne_w : v ≠ (c.inside_edge_list.getD i default).«to» := by
          intro h
          rw [← h, hd] at hto_n
          omega
        have hd1 : d + 1 < c.num_nodes := by
          have := label_bound c.num_nodes dist v
            (c.inside_edge_list.getD i default).«to» hto_lt
            (by rw [hd]; exact hdlt) hto_n
            (hcore.layers v hv hvlab)
          rw [hd] at this
          exact this
        have hlen1 : (dist.set (c.inside_edge_list.getD i default).«to»
            (dist.getD v 0 + 1)).length = c.num_nodes := by
          rw [List.length_set, hcore.dlen]
        have hget_w : (dist.set (c.inside_edge_list.getD i default).«to»
            (dist.getD v 0 + 1)).getD (c.inside_edge_list.getD i default).«to» 0
            = d + 1 := by
          rw [getD_set_eq _ _ _ _ (by rw [hcore.dlen]; exact hto_lt), hd]
        have hstab : ∀ u, u ≠ (c.inside_edge_list.getD i default).«to» →
            (dist.set (c.inside_edge_list.getD i default).«to»
              (dist.getD v 0 + 1)).getD u 0 = dist.getD u 0 := by
          intro u hu
          exact getD_set_ne _ _ _ _ _ (fun h => hu h.symm)
        have hstabl : ∀ u, dist.getD u 0 ≠ c.num_nodes →
            (dist.set (c.inside_edge_list.getD i default).«to»
              (dist.getD v 0 + 1)).getD u 0 = dist.getD u 0 := by
          intro u hu
          refine hstab u ?_
          intro h
          rw [h, hto_n] at hu
          exact hu rfl
        have hd' : (dist.set (c.inside_edge_list.getD i default).«to»
            (dist.getD v 0 + 1)).getD v 0 = d := by
          rw [hstab v hv_ne_w, hd]
        have hcore1 : BfsCore c source sink d
            (dist.set (c.inside_edge_list.getD i default).«to» (dist.getD v 0 + 1))
            (if (c.inside_edge_list.getD i default).«to» ≠ source then
              que ++ [(c.inside_edge_list.getD i default).«to»] else que) := by
          constructor
          · exact hlen1
          · exact hcore.sink_lt
          · rw [hstab sink (fun h => hw_ne_sink h.symm)]
            exact hcore.sink0
          · intro u hu hlab
            by_cases hue : u = (c.inside_edge_list.getD i default).«to»
            · rw [hue, hget_w]
              exact hd1
            · rw [hstab u hue] at hlab ⊢
              exact hcore.lt u hu hlab
          · intro u hu hlab j hj
            by_cases hue : u = (c.inside_edge_list.getD i default).«to»
            · rw [hue, hget_w] at hj
              by_cases hj1 : j = d + 1
              · exact ⟨(c.inside_edge_list.getD i default).«to», hto_lt,
                  by rw [hget_w, hj1]⟩
              · obtain ⟨x, hx1, hx2⟩ := hcore.layers v hv hvlab j (by rw [hd]; omega)
                refine ⟨x, hx1, ?_⟩
                rw [hstab x ?_, hx2]
                intro h
                rw [h, hto_n] at hx2
                omega
            · rw [hstab u hue] at hlab hj
              obtain ⟨x, hx1, hx2⟩ := hcore.layers u hu hlab j hj
              refine ⟨x, hx1, ?_⟩
              rw [hstab x ?_, hx2]
              intro h
              rw [h, hto_n] at hx2
              have := hcore.lt u hu hlab
              omega
          · intro u hu hlab
            by_cases hue : u = (c.inside_edge_list.getD i default).«to»
            · rw [hue, hget_w]
              refine ResPath.step (v := v) ?_ hvcond ?_
              · refine ⟨(c.inside_edge_list.getD i default).rev, ?_, ?_, hrev_to, ?_⟩
                · rw [hue] at hu
                  exact hrev_lb
                · exact hrev_ub
                · simp only [InsideEdge.residual_capacity]
                  rw [hrev_res]
                  exact hflow
              · have := hcore.sound v hv hvlab
                rw [hd] at this
                exact this
            · rw [hstab u hue] at hlab ⊢
              exact hcore.sound u hu hlab
          · intro x hx
            by_cases hsrc : (c.inside_edge_list.getD i default).«to» ≠ source
            · rw [if_pos hsrc] at hx
              rcases List.mem_append.mp hx with hx | hx
              · obtain ⟨h1, h2, h3⟩ := hcore.que_ok x hx
                exact ⟨h1, by rw [hstabl x h2]; exact h2, h3⟩
              · have hxe : x = (c.inside_edge_list.getD i default).«to» := by
                  simpa using hx
                subst hxe
                exact ⟨hto_lt, by rw [hget_w]; omega, Or.inr hsrc⟩
            · rw [if_neg hsrc] at hx
              obtain ⟨h1, h2, h3⟩ := hcore.que_ok x hx
              exact ⟨h1, by rw [hstabl x h2]; exact h2, h3⟩
          · intro x hx
            by_cases hsrc : (c.inside_edge_list.getD i default).«to» ≠ source
            · rw [if_pos hsrc] at hx
              rcases List.mem_append.mp hx with hx | hx
              · obtain ⟨h1, h2⟩ := hcore.que_lb x hx
                rw [hstabl x (hcore.que_ok x hx).2.1]
                exact ⟨h1, h2⟩
              · have hxe : x = (c.inside_edge_list.getD i default).«to» := by
                  simpa using hx
                subst hxe
                rw [hget_w]
                omega
            · rw [if_neg hsrc] at hx
              obtain ⟨h1, h2⟩ := hcore.que_lb x hx
              rw [hstabl x (hcore.que_ok x hx).2.1]
              exact ⟨h1, h2⟩
          · by_cases hsrc : (c.inside_edge_list.getD i default).«to» ≠ source
            · rw [if_pos hsrc]
              rw [List.pairwise_append]
              refine ⟨?_, List.pairwise_singleton _ _, ?_⟩
              · refine pairwise_transfer que ?_ hcore.que_sorted
                intro a b ha hb hab
                rw [hstabl a (hcore.que_ok a ha).2.1,
                  hstabl b (hcore.que_ok b hb).2.1]
                exact hab
              · intro a ha b hb
                have hbe : b = (c.inside_edge_list.getD i default).«to» := by
                  simpa using hb
                subst hbe
                rw [hstabl a (hcore.que_ok a ha).2.1, hget_w]
                have := (hcore.que_lb a ha).2
                omega
            · rw [if_neg hsrc]
              refine pairwise_transfer que ?_ hcore.que_sorted
              intro a b ha hb hab
              rw [hstabl a (hcore.que_ok a ha).2.1,
                hstabl b (hcore.que_ok b hb).2.1]
              exact hab
          · intro u hu hlab
            by_cases hue : u = (c.inside_edge_list.getD i default).«to»
            · rw [hue, hget_w]
            · rw [hstab u hue] at hlab ⊢
              exact hcore.bound u hu hlab
        have hce1 : closedExcept c source sink v
            (dist.set (c.inside_edge_list.getD i default).«to» (dist.getD v 0 + 1))
            (if (c.inside_edge_list.getD i default).«to» ≠ source then
              que ++ [(c.inside_edge_list.getD i default).«to»] else que) := by
          intro x hx hlab hxv
          by_cases hxe : x = (c.inside_edge_list.getD i default).«to»
          · by_cases hsrc : (c.inside_edge_list.getD i default).«to» ≠ source
            · rw [if_pos hsrc]
              left
              rw [hxe]
              simp
            · push_neg at hsrc
              right
              left
              rw [hxe]
              exact ⟨hsrc, hw_ne_sink⟩
          · rw [hstab x hxe] at hlab
            rcases hce x hx hlab hxv with hq | hs | hc
            · left
              by_cases hsrc : (c.inside_edge_list.getD i default).«to» ≠ source
              · rw [if_pos hsrc]
                exact List.mem_append.mpr (Or.inl hq)
              · rw [if_neg hsrc]
                exact hq
            · exact Or.inr (Or.inl hs)
            · right
              right
              intro j hj1 hj2 hj3
              obtain ⟨h1, h2⟩ := hc j hj1 hj2 hj3
              rw [hstabl _ h1, hstab x hxe]
              exact ⟨h1, h2⟩
        have hup1 : arcClosureUpto c
            (dist.set (c.inside_edge_list.getD i default).«to» (dist.getD v 0 + 1))
            v (i + 1) := by
          intro j hj1 hj2 hj3
          by_cases hji : j = i
          · subst hji
            rw [hget_w, hd']
            omega
          · obtain ⟨h1, h2⟩ := hup j hj1 (by omega) hj3
            rw [hstabl _ h1, hd', ← hd]
            exact ⟨h1, h2⟩
        have hih := scanArcs_inv c hwf source sink d v hv hvcond hdlt count (i + 1)
          (dist.set (c.inside_edge_list.getD i default).«to» (dist.getD v 0 + 1))
          (if (c.inside_edge_list.getD i default).«to» ≠ source then
            que ++ [(c.inside_edge_list.getD i default).«to»] else que)
          hd' (by omega) (by omega)
          hcore1 hce1 hup1
        refine ⟨hih.1, hih.2.1, ?_, ?_⟩
        · have heq : i + (count + 1) = (i + 1) + count := by omega
          rw [heq]
          exact hih.2.2.1
        · intro u hu
          rw [hih.2.2.2 u (by rw [hstabl u hu]; exact hu), hstabl u hu]
      · rw [if_neg hcase]
        have hup' : arcClosureUpto c dist v (i + 1) := by
          intro j hj1 hj2 hj3
          by_cases hji : j = i
          · subst hji
            have hlab : dist.getD (c.inside_edge_list.getD j default).«to» 0 ≠
                c.num_nodes := by
              intro h
              exact hcase ⟨hj3, h⟩
            refine ⟨hlab, ?_⟩
            have := hcore.bound (c.inside_edge_list.getD j default).«to» hto_lt hlab
            rw [hd]
            omega
          · exact hup j hj1 (by omega) hj3
        have hih := scanArcs_inv c hwf source sink d v hv hvcond hdlt count (i + 1)
          dist que hd (by omega) (by omega)
          hcore hce hup'
        refine ⟨hih.1, hih.2.1, ?_, hih.2.2.2⟩
        have heq : i + (count + 1) = (i + 1) + count := by omega
        rw [heq]
        exact hih.2.2.1

theorem bfsLoop_inv (c : CSR) (hwf : CSRWF c) (source sink : Nat) :
    ∀ (fuel d : Nat) (dist que dist' : List Nat),
      BfsCore c source sink d dist que →
      (∀ x, x < c.num_nodes → dist.getD x 0 ≠ c.num_nodes →
        x ∈ que ∨ (x = source ∧ x ≠ sink) ∨ arcClosure c dist x) →
      bfsLoop c.num_nodes source c.start c.inside_edge_list fuel dist que = some dist' →
      ∃ d', BfsCore c source sink d' dist' [] ∧
        (∀ x, x < c.num_nodes → dist'.getD x 0 ≠ c.num_nodes →
          (x = source ∧ x ≠ sink) ∨ arcClosure c dist' x)
  | 0, d, dist, que, dist', hcore, hclosed, h => by
      rw [bfsLoop] at h
      simp at h
  | fuel + 1, d, dist, que, dist', hcore, hclosed, h => by
      cases que with
      | nil =>
          rw [bfsLoop] at h
          injection h with h
          subst h
          refine ⟨d, hcore, ?_⟩
          intro x hx hlab
          rcases hclosed x hx hlab with hq | hs | hc
          · simp at hq
          · exact Or.inl hs
          · exact Or.inr hc
      | cons v rest =>
          rw [bfsLoop] at h
          obtain ⟨hv, hvlab, hvcond⟩ := hcore.que_ok v (by simp)
          have hdnew_lt := hcore.lt v hv hvlab
          have hsorted := hcore.que_sorted
          rw [List.pairwise_cons] at hsorted
          obtain ⟨hvlb, hvub⟩ := hcore.que_lb v (by simp)
          have hcore' : BfsCore c source sink (dist.getD v 0) dist rest :=
            { dlen := hcore.dlen
              sink_lt := hcore.sink_lt
              sink0 := hcore.sink0
              lt := hcore.lt
              layers := hcore.layers
              sound := hcore.sound
              que_ok := fun w hw => hcore.que_ok w (by simp [hw])
              que_lb := fun w hw => ⟨hsorted.1 w hw, by
                have := (hcore.que_lb w (by simp [hw])).2
                omega⟩
              que_sorted := hsorted.2
              bound := fun x hx hlab => by
                have := hcore.bound x hx hlab
                omega }
          have hce' : closedExcept c source sink v dist rest := by
            intro x hx hlab hxv
            rcases hclosed x hx hlab with hq | hs | hc
            · rcases List.mem_cons.mp hq with hq | hq
              · exact absurd hq hxv
              · exact Or.inl hq
            · exact Or.inr (Or.inl hs)
            · exact Or.inr (Or.inr hc)
          have hup0 : arcClosureUpto c dist v (c.start.getD v 0) := by
            intro j hj1 hj2 hj3
            omega
          have hscan := scanArcs_inv c hwf source sink (dist.getD v 0) v hv hvcond
            hdnew_lt (c.start.getD (v + 1) 0 - c.start.getD v 0) (c.start.getD v 0)
            dist rest rfl (le_refl _) (by omega) hcore' hce' hup0
          have hclosed1 : ∀ x, x < c.num_nodes →
              (scanArcs c.num_nodes source v c.inside_edge_list dist rest
                (c.start.getD v 0)
                (c.start.getD (v + 1) 0 - c.start.getD v 0)).1.getD x 0 ≠ c.num_nodes →
              x ∈ (scanArcs c.num_nodes source v c.inside_edge_list dist rest
                (c.start.getD v 0) (c.start.getD (v + 1) 0 - c.start.getD v 0)).2 ∨
              (x = source ∧ x ≠ sink) ∨
              arcClosure c (scanArcs c.num_nodes source v c.inside_edge_list dist rest
                (c.start.getD v 0) (c.start.getD (v + 1) 0 - c.start.getD v 0)).1 x := by
            intro x hx hlab
            by_cases hxv : x = v
            · subst hxv
              right
              right
              intro j hj1 hj2 hj3
              exact hscan.2.2.1 j hj1 (by omega) hj3
            · exact hscan.2.1 x hx hlab hxv
          exact bfsLoop_inv c hwf source sink fuel (dist.getD v 0) _ _ dist'
            hscan.1 hclosed1 h

theorem getD_replicate_lt {α : Type} :
    ∀ (m i : Nat) (a d : α), i < m → (List.replicate m a).getD i d = a
  | 0, i, a, d, h => by omega
  | m + 1, 0, a, d, h => rfl
  | m + 1, i + 1, a, d, h => by
      have hrec := getD_replicate_lt m i a d (by omega)
      rw [List.replicate_succ]
      simpa using hrec

theorem bfs_minimal (c : CSR) (hwf : CSRWF c) (source sink d' : Nat)
    (dist' : List Nat) (hcore : BfsCore c source sink d' dist' [])
    (hclosed : ∀ x, x < c.num_nodes → dist'.getD x 0 ≠ c.num_nodes →
      (x = source ∧ x ≠ sink) ∨ arcClosure c dist' x) :
    ∀ (k u : Nat), u < c.num_nodes → ResPath c source sink u k →
      dist'.getD u 0 ≠ c.num_nodes ∧ dist'.getD u 0 ≤ k
  | 0, u, hu, hpath => by
      cases hpath with
      | refl =>
          rw [hcore.sink0]
          have := hcore.sink_lt
          exact ⟨by omega, le_refl 0⟩
  | k + 1, u, hu, hpath => by
      cases hpath with
      | step hadj hcond hpath' =>
          rename_i v
          obtain ⟨i, hi1, hi2, hito, hires⟩ := hadj
          have harc := hwf.2 u hu i hi2 hi1
          obtain ⟨hto_lt, hrev_lb, hrev_ub, hrev_to, hrev_res, hfwd_res⟩ := harc
          rw [hito] at hto_lt hrev_lb hrev_ub
          have hih := bfs_minimal c hwf source sink d' dist' hcore hclosed k v
            hto_lt hpath'
          rcases hclosed v hto_lt hih.1 with ⟨hsrc, hnsink⟩ | hc
          · rcases hcond with h | h
            · exact absurd h hnsink
            · exact absurd hsrc h
          · simp only [InsideEdge.residual_capacity] at hires
            have hflow : 0 < (c.inside_edge_list.getD
                (c.inside_edge_list.getD i default).rev default).flow := by
              rw [← hfwd_res]
              exact hires
            have hcl := hc (c.inside_edge_list.getD i default).rev hrev_lb hrev_ub hflow
            rw [hrev_to] at hcl
            refine ⟨hcl.1, ?_⟩
            have h2 := hcl.2
            have h3 := hih.2
            omega

end MaxFlow

/-! ## Claims about the graph builders -/
/-- C4: in the maximum-flow CSR residual graph built from a fresh solver,
every paired forward/reverse arc pair satisfies `e.flow + ê.flow = e.upper`
immediately after `build` (forward flow `0`, reverse flow equal to the
capacity), and the invariant is preserved by every in-bounds
`push_flow(e, δ)`, which adds `δ` to `e.flow` and subtracts `δ` from
`ê.flow`. -/
theorem claim_C4_csr_paired_arcs (g : MaxFlow.Graph)
    (hwf : g.edges.length = g.num_edges)
    (csr : MaxFlow.CSR) (hbuild : MaxFlow.CSR.build MaxFlow.CSR.init g = some csr) :
    (∀ k, k < csr.num_edges →
      csr.edge_index_to_inside_edge_index.getD k 0 < csr.inside_edge_list.length ∧
      (csr.inside_edge_list.getD (csr.edge_index_to_inside_edge_index.getD k 0)
        default).flow = 0 ∧
      (csr.inside_edge_list.getD
          ((csr.inside_edge_list.getD (csr.edge_index_to_inside_edge_index.getD k 0)
            default).rev) default).flow
        = (csr.inside_edge_list.getD (csr.edge_index_to_inside_edge_index.getD k 0)
            default).upper) ∧
    MaxFlow.Pairing csr.inside_edge_list ∧
    (∀ c' : MaxFlow.CSR, MaxFlow.Pairing c'.inside_edge_list →
      ∀ i δ, i < c'.inside_edge_list.length →
      MaxFlow.Pairing (c'.push_flow i δ).inside_edge_list ∧
      ((c'.push_flow i δ).inside_edge_list.getD i default).flow
        = (c'.inside_edge_list.getD i default).flow + δ ∧
      ((c'.push_flow i δ).inside_edge_list.getD
          ((c'.inside_edge_list.getD i default).rev) default).flow
        = (c'.inside_edge_list.getD ((c'.inside_edge_list.getD i default).rev)
            default).flow - δ) := by
  obtain ⟨hn, hm, hilen, heiilen, hstart, hstartlen, hdist, hE, heii, hins⟩ :=
    MaxFlow.build_csr_spec g hwf csr hbuild
  have hpsumN : MaxFlow.psum g.edges g.num_nodes = 2 * g.edges.length :=
    MaxFlow.psum_top g.edges g.num_nodes hE
  refine ⟨?_, ?_, ?_⟩
  · intro k hk
    have hkE : k < g.edges.length := by omega
    obtain ⟨hf, hrv⟩ := hins k hkE
    rw [heii k hkE, hf]
    have hbound : MaxFlow.posF g.edges k < csr.inside_edge_list.length := by
      rw [hilen]
      exact MaxFlow.posF_lt g.edges g.num_nodes hE hkE
    have hrevpos : (MaxFlow.fwdArc g.edges k).rev = MaxFlow.posR g.edges k := rfl
    rw [hrevpos, hrv]
    exact ⟨hbound, rfl, rfl⟩
  · intro i hi
    have hiP : i < MaxFlow.psum g.edges g.num_nodes := by omega
    obtain ⟨w, hw, r, hr, hpr⟩ := MaxFlow.cover_pos g.edges g.num_nodes hiP
    obtain ⟨j, hj, hside⟩ := MaxFlow.slot_edge g.edges hr
    rcases hside with ⟨hfw, hrr⟩ | ⟨htw, hrr⟩
    · have hiposF : i = MaxFlow.posF g.edges j := by
        rw [hpr, hrr]
        unfold MaxFlow.posF
        rw [hfw]
      obtain ⟨hf, hrv⟩ := hins j hj
      subst hiposF
      rw [hf]
      have hrevpos : (MaxFlow.fwdArc g.edges j).rev = MaxFlow.posR g.edges j := rfl
      rw [hrevpos, hrv]
      refine ⟨?_, ?_, ?_, ?_, ?_⟩
      · rw [hilen]
        exact MaxFlow.posR_lt g.edges g.num_nodes hE hj
      · exact Ne.symm (MaxFlow.pos_distinct g.edges hj hj).2.1
      · rfl
      · rfl
      · have h0 : (MaxFlow.fwdArc g.edges j).flow = 0 := rfl
        have h1 : (MaxFlow.revArc g.edges j).flow = (g.edges.getD j default).upper := rfl
        have h2 : (MaxFlow.fwdArc g.edges j).upper = (g.edges.getD j default).upper := rfl
        rw [h0, h1, h2]
        omega
    · have hiposR : i = MaxFlow.posR g.edges j := by
        rw [hpr, hrr]
        unfold MaxFlow.posR
        rw [htw]
      obtain ⟨hf, hrv⟩ := hins j hj
      subst hiposR
      rw [hrv]
      have hrevpos : (MaxFlow.revArc g.edges j).rev = MaxFlow.posF g.edges j := rfl
      rw [hrevpos, hf]
      refine ⟨?_, ?_, ?_, ?_, ?_⟩
      · rw [hilen]
        exact MaxFlow.posF_lt g.edges g.num_nodes hE hj
      · exact (MaxFlow.pos_distinct g.edges hj hj).2.1
      · rfl
      · rfl
      · have h0 : (MaxFlow.fwdArc g.edges j).flow = 0 := rfl
        have h1 : (MaxFlow.revArc g.edges j).flow = (g.edges.getD j default).upper := rfl
        have h2 : (MaxFlow.revArc g.edges j).upper = (g.edges.getD j default).upper := rfl
        rw [h0, h1, h2]
        omega
  · intro c' hp i δ hi
    exact MaxFlow.push_flow_pairing c' hp hi δ

/-- Witness for C4: the CSR built from the one-edge graph `0 → 1` with
capacity `5`. -/
theorem claim_C4_csr_paired_arcs_witness :
    MaxFlow.Pairing
      [{ «to» := 1, flow := 0, upper := 5, rev := 1 },
       { «to» := 0, flow := 5, upper := 5, rev := 0 }] :=
  (claim_C4_csr_paired_arcs
    { num_nodes := 2, num_edges := 1,
      edges := [{ «from» := 0, «to» := 1, flow := 0, upper := 5 }], excesses := [0, 0] }
    rfl
    { num_nodes := 2, num_edges := 1, edge_index_to_inside_edge_index := [0],
      start := [0, 1, 2],
      inside_edge_list := [{ «to» := 1, flow := 0, upper := 5, rev := 1 },
                           { «to» := 0, flow := 5, upper := 5, rev := 0 }],
      distances := [2, 2], que := [] }
    (by decide)).2.1

/-- C3: every MCF edge accepted by `add_directed_edge(from, to, lower, upper,
cost)` — any sign of `cost`, `lower ≤ upper`, endpoints in range — is reported
back by `get_edge(id)` with exactly the `from`, `to`, `lower`, `upper` and
`cost` originally passed, even though negative-cost edges are stored reversed
and lower bounds are subtracted out internally. -/
theorem claim_C3_mcf_get_edge_roundtrip
    (g : MinCostFlow.Graph) (hWF : g.WF) (f t : Nat) (lower upper cost : Int)
    (id : Nat) (g' : MinCostFlow.Graph)
    (h : g.add_directed_edge f t lower upper cost = (some id, g')) :
    ∃ e, g'.get_edge id = some e ∧ e.«from» = f ∧ e.«to» = t ∧
      e.lower = lower ∧ e.upper = upper ∧ e.cost = cost := by
  unfold MinCostFlow.Graph.add_directed_edge at h
  by_cases hguard : lower > upper ∨ f ≥ g.num_nodes ∨ t ≥ g.num_nodes
  · simp [hguard] at h
  rw [if_neg hguard] at h
  by_cases hc : (0 : Int) ≤ cost
  · rw [if_pos hc] at h
    injection h with hid hg'
    injection hid with hid
    subst hid
    subst hg'
    refine ⟨⟨f, t, lower, lower, upper, cost⟩, ?_, rfl, rfl, rfl, rfl, rfl⟩
    unfold MinCostFlow.Graph.get_edge
    rw [if_neg (by simp [hWF.edges_len])]
    simp only
    rw [show g.num_edges = g.is_reversed.length from hWF.rev_len.symm, getD_append_length,
      hWF.rev_len, show g.num_edges = g.edges.length from hWF.edges_len.symm, getD_append_length,
      hWF.edges_len, show g.num_edges = g.lowers.length from hWF.lowers_len.symm,
      getD_append_length]
    simp only [if_neg Bool.false_ne_true, Option.some.injEq, MinCostFlow.Edge.mk.injEq]
    and_intros <;> first | trivial | ring
  · rw [if_neg hc] at h
    injection h with hid hg'
    injection hid with hid
    subst hid
    subst hg'
    refine ⟨⟨f, t, upper, lower, upper, cost⟩, ?_, rfl, rfl, rfl, rfl, rfl⟩
    unfold MinCostFlow.Graph.get_edge
    rw [if_neg (by simp [hWF.edges_len])]
    simp only
    rw [show g.num_edges = g.is_reversed.length from hWF.rev_len.symm, getD_append_length,
      hWF.rev_len, show g.num_edges = g.edges.length from hWF.edges_len.symm, getD_append_length,
      hWF.edges_len, show g.num_edges = g.lowers.length from hWF.lowers_len.symm,
      getD_append_length]
    simp only [if_pos trivial, Option.some.injEq, MinCostFlow.Edge.mk.injEq]
    and_intros <;> first | trivial | ring

/-- Witness for C3 at a concrete input: a reversed (negative-cost) edge with a
non-zero lower bound on a two-node graph. -/
theorem claim_C3_mcf_get_edge_roundtrip_witness :
    ∃ e, (MinCostFlow.Graph.add_directed_edge
        { num_nodes := 2, num_edges := 0, edges := [], b := [0, 0],
          lowers := [], excesses := [0, 0], is_reversed := [] }
        0 1 1 3 (-2)).2.get_edge 0 = some e ∧
      e.«from» = 0 ∧ e.«to» = 1 ∧ e.lower = 1 ∧ e.upper = 3 ∧ e.cost = -2 :=
  claim_C3_mcf_get_edge_roundtrip
    { num_nodes := 2, num_edges := 0, edges := [], b := [0, 0],
      lowers := [], excesses := [0, 0], is_reversed := [] }
    ⟨rfl, rfl, rfl, rfl, rfl⟩ 0 1 1 3 (-2) 0 _ (by decide)

/-- C7: for both builders, `add_directed_edge` returns `None` exactly on
invalid input (MF: an endpoint out of range; MCF: additionally
`lower > upper`), in that case introduces no partial state, and on success
returns `Some(id)` with `id` the number of previously added edges, the edge
appended at the end of the dense edge list and `num_edges` incremented. -/
theorem claim_C7_add_directed_edge_contract
    (gm : MaxFlow.Graph) (f t : Nat) (upper : Int)
    (gc : MinCostFlow.Graph) (f' t' : Nat) (lower' upper' cost' : Int) :
    (((gm.add_directed_edge f t upper).1 = none) ↔ f ≥ gm.num_nodes ∨ t ≥ gm.num_nodes) ∧
    ((gm.add_directed_edge f t upper).1 = none → (gm.add_directed_edge f t upper).2 = gm) ∧
    ((gm.add_directed_edge f t upper).1 ≠ none →
      (gm.add_directed_edge f t upper).1 = some gm.num_edges ∧
      (gm.add_directed_edge f t upper).2.num_edges = gm.num_edges + 1 ∧
      (gm.add_directed_edge f t upper).2.edges =
        gm.edges ++ [{ «from» := f, «to» := t, flow := 0, upper := upper }] ∧
      (gm.add_directed_edge f t upper).2.excesses = gm.excesses) ∧
    (((gc.add_directed_edge f' t' lower' upper' cost').1 = none) ↔
      lower' > upper' ∨ f' ≥ gc.num_nodes ∨ t' ≥ gc.num_nodes) ∧
    ((gc.add_directed_edge f' t' lower' upper' cost').1 = none →
      (gc.add_directed_edge f' t' lower' upper' cost').2 = gc) ∧
    ((gc.add_directed_edge f' t' lower' upper' cost').1 ≠ none →
      (gc.add_directed_edge f' t' lower' upper' cost').1 = some gc.num_edges ∧
      (gc.add_directed_edge f' t' lower' upper' cost').2.num_edges = gc.num_edges + 1 ∧
      (gc.add_directed_edge f' t' lower' upper' cost').2.edges.length =
        gc.edges.length + 1) := by
  unfold MaxFlow.Graph.add_directed_edge MinCostFlow.Graph.add_directed_edge
  by_cases hm : f ≥ gm.num_nodes ∨ t ≥ gm.num_nodes <;>
    by_cases hc : lower' > upper' ∨ f' ≥ gc.num_nodes ∨ t' ≥ gc.num_nodes <;>
      by_cases hsign : (0 : Int) ≤ cost' <;>
        simp [hm, hc, hsign]

/-- Witness for C7: on a two-node MF graph and a two-node MCF graph, the
success branch of the contract at in-range edges. -/
theorem claim_C7_add_directed_edge_contract_witness :
    (MaxFlow.Graph.add_directed_edge
        { num_nodes := 2, num_edges := 0, edges := [], excesses := [0, 0] }
        0 1 4).1 = some 0 ∧
    (MinCostFlow.Graph.add_directed_edge
        { num_nodes := 2, num_edges := 0, edges := [], b := [0, 0],
          lowers := [], excesses := [0, 0], is_reversed := [] }
        0 1 0 4 1).1 = some 0 :=
  ⟨((claim_C7_add_directed_edge_contract
      { num_nodes := 2, num_edges := 0, edges := [], excesses := [0, 0] } 0 1 4
      { num_nodes := 2, num_edges := 0, edges := [], b := [0, 0],
        lowers := [], excesses := [0, 0], is_reversed := [] }
      0 1 0 4 1).2.2.1 (by decide)).1,
   ((claim_C7_add_directed_edge_contract
      { num_nodes := 2, num_edges := 0, edges := [], excesses := [0, 0] } 0 1 4
      { num_nodes := 2, num_edges := 0, edges := [], b := [0, 0],
        lowers := [], excesses := [0, 0], is_reversed := [] }
      0 1 0 4 1).2.2.2.2.2 (by decide)).1⟩

/-- C10: an MCF edge added with `cost < 0` (and `lower ≤ upper`, endpoints in
range) is stored reversed with internal flow `0`, so before any solve
`get_edge(id)` reports `flow = upper`; at insertion time `excesses[from]` is
decreased by `upper` and `excesses[to]` increased by `upper` (for a self-loop
the two sequential updates cancel). -/
theorem claim_C10_negative_cost_edge_initial_state
    (g : MinCostFlow.Graph) (hWF : g.WF) (f t : Nat) (lower upper cost : Int)
    (hc : cost < 0) (id : Nat) (g' : MinCostFlow.Graph)
    (h : g.add_directed_edge f t lower upper cost = (some id, g')) :
    (∃ e, g'.get_edge id = some e ∧ e.flow = upper) ∧
    (f ≠ t → g'.excesses.getD f 0 = g.excesses.getD f 0 - upper ∧
             g'.excesses.getD t 0 = g.excesses.getD t 0 + upper) ∧
    (f = t → g'.excesses = g.excesses) := by
  unfold MinCostFlow.Graph.add_directed_edge at h
  by_cases hguard : lower > upper ∨ f ≥ g.num_nodes ∨ t ≥ g.num_nodes
  · simp [hguard] at h
  rw [if_neg hguard, if_neg (by omega : ¬(0 : Int) ≤ cost)] at h
  injection h with hid hg'
  injection hid with hid
  subst hid
  subst hg'
  have hf : f < g.excesses.length := by
    rw [hWF.excesses_len]; omega
  have ht : t < g.excesses.length := by
    rw [hWF.excesses_len]; omega
  refine ⟨⟨⟨f, t, upper, lower, upper, cost⟩, ?_, rfl⟩, ?_, ?_⟩
  · unfold MinCostFlow.Graph.get_edge
    rw [if_neg (by simp [hWF.edges_len])]
    simp only
    rw [show g.num_edges = g.is_reversed.length from hWF.rev_len.symm, getD_append_length,
      hWF.rev_len, show g.num_edges = g.edges.length from hWF.edges_len.symm, getD_append_length,
      hWF.edges_len, show g.num_edges = g.lowers.length from hWF.lowers_len.symm,
      getD_append_length]
    simp only [if_pos trivial, Option.some.injEq, MinCostFlow.Edge.mk.injEq]
    and_intros <;> first | trivial | ring
  · intro hne
    constructor
    · simp only
      rw [getD_set_ne _ t f _ _ (by omega), getD_set_eq _ f _ _ hf]
    · simp only
      rw [getD_set_eq _ t _ _ (by simpa using ht), getD_set_ne _ f t _ _ hne]
  · intro heq
    subst heq
    simp only
    rw [getD_set_eq _ f _ _ hf, List.set_set]
    have : g.excesses.getD f 0 - upper + upper = g.excesses.getD f 0 := by ring
    rw [this, set_getD_self]

/-- Witness for C10: adding a negative-cost edge `(0 → 1, lower 0, upper 2,
cost −1)` to a two-node graph. -/
theorem claim_C10_negative_cost_edge_initial_state_witness :
    (∃ e, (MinCostFlow.Graph.add_directed_edge
        { num_nodes := 2, num_edges := 0, edges := [], b := [0, 0],
          lowers := [], excesses := [0, 0], is_reversed := [] }
        0 1 0 2 (-1)).2.get_edge 0 = some e ∧ e.flow = 2) ∧
    ((0 : Nat) ≠ 1 → (MinCostFlow.Graph.add_directed_edge
        { num_nodes := 2, num_edges := 0, edges := [], b := [0, 0],
          lowers := [], excesses := [0, 0], is_reversed := [] }
        0 1 0 2 (-1)).2.excesses.getD 0 0 = (0 : Int) - 2 ∧
      (MinCostFlow.Graph.add_directed_edge
        { num_nodes := 2, num_edges := 0, edges := [], b := [0, 0],
          lowers := [], excesses := [0, 0], is_reversed := [] }
        0 1 0 2 (-1)).2.excesses.getD 1 0 = (0 : Int) + 2) := by
  have h := claim_C10_negative_cost_edge_initial_state
    { num_nodes := 2, num_edges := 0, edges := [], b := [0, 0],
      lowers := [], excesses := [0, 0], is_reversed := [] }
    ⟨rfl, rfl, rfl, rfl, rfl⟩ 0 1 0 2 (-1) (by decide) 0
    (MinCostFlow.Graph.add_directed_edge
      { num_nodes := 2, num_edges := 0, edges := [], b := [0, 0],
        lowers := [], excesses := [0, 0], is_reversed := [] }
      0 1 0 2 (-1)).2 (by decide)
  exact ⟨h.1, h.2.1⟩

/-- C6 counterexample: on the graph with edges `2 → 0` and `0 → 1` (all
capacities 1, zero flow), after `update_distances(source = 0, sink = 1)` node
`2` keeps distance `N = 3` although the residual path `2 → 0 → 1` (length 2)
reaches the sink: the BFS labels the source but never expands it, so
`distances[u]` is not the residual shortest-path distance, and `N` does not
characterise "no path exists". -/
theorem claim_C6_counterexample :
    MaxFlow.CSR.build MaxFlow.CSR.init
      { num_nodes := 3, num_edges := 2,
        edges := [{ «from» := 2, «to» := 0, flow := 0, upper := 1 },
                  { «from» := 0, «to» := 1, flow := 0, upper := 1 }],
        excesses := [0, 0, 0] } = some
      { num_nodes := 3, num_edges := 2, edge_index_to_inside_edge_index := [3, 1],
        start := [0, 2, 3, 4],
        inside_edge_list := [{ «to» := 2, flow := 1, upper := 1, rev := 3 },
                             { «to» := 1, flow := 0, upper := 1, rev := 2 },
                             { «to» := 0, flow := 1, upper := 1, rev := 1 },
                             { «to» := 0, flow := 0, upper := 1, rev := 0 }],
        distances := [3, 3, 3], que := [] } ∧
    MaxFlow.CSR.update_distances 5
      { num_nodes := 3, num_edges := 2, edge_index_to_inside_edge_index := [3, 1],
        start := [0, 2, 3, 4],
        inside_edge_list := [{ «to» := 2, flow := 1, upper := 1, rev := 3 },
                             { «to» := 1, flow := 0, upper := 1, rev := 2 },
                             { «to» := 0, flow := 1, upper := 1, rev := 1 },
                             { «to» := 0, flow := 0, upper := 1, rev := 0 }],
        distances := [3, 3, 3], que := [] } 0 1 = some
      { num_nodes := 3, num_edges := 2, edge_index_to_inside_edge_index := [3, 1],
        start := [0, 2, 3, 4],
        inside_edge_list := [{ «to» := 2, flow := 1, upper := 1, rev := 3 },
                             { «to» := 1, flow := 0, upper := 1, rev := 2 },
                             { «to» := 0, flow := 1, upper := 1, rev := 1 },
                             { «to» := 0, flow := 0, upper := 1, rev := 0 }],
        distances := [1, 0, 3], que := [] } ∧
    MaxFlow.ResPathAny
      { num_nodes := 3, num_edges := 2, edge_index_to_inside_edge_index := [3, 1],
        start := [0, 2, 3, 4],
        inside_edge_list := [{ «to» := 2, flow := 1, upper := 1, rev := 3 },
                             { «to» := 1, flow := 0, upper := 1, rev := 2 },
                             { «to» := 0, flow := 1, upper := 1, rev := 1 },
                             { «to» := 0, flow := 0, upper := 1, rev := 0 }],
        distances := [1, 0, 3], que := [] } 1 2 2 ∧
    ([1, 0, 3] : List Nat).getD 2 0 = 3 ∧ (3 : Nat) ≠ 2 := by
  refine ⟨by decide, by decide, ?_, by decide, by decide⟩
  exact MaxFlow.ResPathAny.step (v := 0) ⟨3, by decide, by decide, by decide, by decide⟩
    (MaxFlow.ResPathAny.step (v := 1) ⟨1, by decide, by decide, by decide, by decide⟩
      MaxFlow.ResPathAny.refl)

/-- C2 (code bug): on the valid maximum-flow instance with two nodes, no
edges, `source = 0`, `sink = 1`, `CapacityScaling::solve` panics — it
unwraps `inside_edge_list.iter().map(|e| e.upper).max()`, which is `None`
for an empty arc list (modelled as `none`) — while Ford–Fulkerson returns
`Optimal` with `maximum_flow(source) = 0`, so the six algorithms do not
agree on every instance. -/
theorem claim_C2_cross_algorithm_divergence :
    MaxFlow.CapacityScaling.solve 5
      { csr := MaxFlow.CSR.init, current_edge := [] } 0 1
      { num_nodes := 2, num_edges := 0, edges := [], excesses := [0, 0] } = none ∧
    MaxFlow.FordFulkerson.solve 5 { csr := MaxFlow.CSR.init } 0 1
      { num_nodes := 2, num_edges := 0, edges := [], excesses := [0, 0] } = some
      (MaxFlow.Status.Optimal,
       { num_nodes := 2, num_edges := 0, edges := [], excesses := [0, 0] },
       { csr := { num_nodes := 2, num_edges := 0, edge_index_to_inside_edge_index := [],
                  start := [0, 0, 0], inside_edge_list := [], distances := [2, 2],
                  que := [] } }) ∧
    MaxFlow.Graph.maximum_flow
      { num_nodes := 2, num_edges := 0, edges := [], excesses := [0, 0] } 0 = some 0 :=
  ⟨by decide, by decide, by decide⟩

/-- C8 (code bug): a solver instance is not reusable.  `CSR::build` resizes
`start` without zeroing it, so a second `build` on the same solver
accumulates stale prefix sums and computes an arc position outside the arc
array: on the one-edge graph `0 → 1` (capacity 1) the first solve returns
`Optimal` with flow 1, and re-running the very same solver on the same graph
panics (modelled as `none`) instead of reproducing the fresh solver's
result. -/
theorem claim_C8_solver_reuse_corrupts_state :
    MaxFlow.FordFulkerson.solve 5 { csr := MaxFlow.CSR.init } 0 1
      { num_nodes := 2, num_edges := 1,
        edges := [{ «from» := 0, «to» := 1, flow := 0, upper := 1 }],
        excesses := [0, 0] } = some
      (MaxFlow.Status.Optimal,
       { num_nodes := 2, num_edges := 1,
         edges := [{ «from» := 0, «to» := 1, flow := 1, upper := 1 }],
         excesses := [0, 0] },
       { csr := { num_nodes := 2, num_edges := 1, edge_index_to_inside_edge_index := [0],
                  start := [0, 1, 2],
                  inside_edge_list := [{ «to» := 1, flow := 1, upper := 1, rev := 1 },
                                       { «to» := 0, flow := 0, upper := 1, rev := 0 }],
                  distances := [2, 2], que := [] } }) ∧
    MaxFlow.FordFulkerson.solve 5
      { csr := { num_nodes := 2, num_edges := 1, edge_index_to_inside_edge_index := [0],
                 start := [0, 1, 2],
                 inside_edge_list := [{ «to» := 1, flow := 1, upper := 1, rev := 1 },
                                      { «to» := 0, flow := 0, upper := 1, rev := 0 }],
                 distances := [2, 2], que := [] } } 0 1
      { num_nodes := 2, num_edges := 1,
        edges := [{ «from» := 0, «to» := 1, flow := 0, upper := 1 }],
        excesses := [0, 0] } = none :=
  ⟨by decide, by decide⟩

/-- C6 (amended): after `CSR::update_distances(source, sink)` on a
well-formed CSR, `distances[u]` equals the length of a shortest residual
path from `u` to the sink that does not pass through the source as an
intermediate node, and equals `N` (the number of nodes) exactly when no such
path exists.  (The unamended claim — shortest over all residual paths — is
refuted by `claim_C6_counterexample`.) -/
theorem claim_C6_update_distances_shortest_restricted
    (c : MaxFlow.CSR) (hwf : MaxFlow.CSRWF c) (fuel source sink : Nat)
    (hsink : sink < c.num_nodes) (c' : MaxFlow.CSR)
    (h : MaxFlow.CSR.update_distances fuel c source sink = some c') :
    ∀ u, u < c.num_nodes →
      ((∃ k, MaxFlow.ResPath c source sink u k) →
        (c'.distances.getD u 0 < c.num_nodes ∧
         MaxFlow.ResPath c source sink u (c'.distances.getD u 0) ∧
         ∀ k, MaxFlow.ResPath c source sink u k → c'.distances.getD u 0 ≤ k)) ∧
      ((¬ ∃ k, MaxFlow.ResPath c source sink u k) →
        c'.distances.getD u 0 = c.num_nodes) := by
  have hnpos : 0 < c.num_nodes := by omega
  rw [MaxFlow.CSR.update_distances] at h
  simp only [Option.bind_eq_bind] at h
  obtain ⟨dist', hbfs, hpure⟩ := Option.bind_eq_some.mp h
  injection hpure with hpure
  subst hpure
  have hdl : c.distances.length = c.num_nodes := hwf.1
  have hsget : ((List.replicate c.distances.length c.num_nodes).set sink 0).getD sink 0
      = 0 := by
    rw [getD_set_eq _ _ _ _ (by rw [List.length_replicate, hdl]; exact hsink)]
  have hoget : ∀ x, x ≠ sink →
      ((List.replicate c.distances.length c.num_nodes).set sink 0).getD x 0 =
        (List.replicate c.distances.length c.num_nodes).getD x 0 := by
    intro x hx
    exact getD_set_ne _ _ _ _ _ (fun hh => hx hh.symm)
  have hrep : ∀ x, x < c.num_nodes →
      (List.replicate c.distances.length c.num_nodes).getD x 0 = c.num_nodes := by
    intro x hx
    exact MaxFlow.getD_replicate_lt _ _ _ _ (by omega)
  have hcore0 : MaxFlow.BfsCore c source sink 0
      ((List.replicate c.distances.length c.num_nodes).set sink 0) [sink] := by
    constructor
    · rw [List.length_set, List.length_replicate]
      exact hdl
    · exact hsink
    · exact hsget
    · intro u hu hlab
      by_cases hus : u = sink
      · rw [hus, hsget]
        omega
      · rw [hoget u hus, hrep u hu] at hlab
        exact absurd rfl hlab
    · intro u hu hlab j hj
      by_cases hus : u = sink
      · rw [hus, hsget] at hj
        have hj0 : j = 0 := by omega
        exact ⟨sink, hsink, by rw [hj0]; exact hsget⟩
      · rw [hoget u hus, hrep u hu] at hlab
        exact absurd rfl hlab
    · intro u hu hlab
      by_cases hus : u = sink
      · subst hus
        rw [hsget]
        exact MaxFlow.ResPath.refl
      · rw [hoget u hus, hrep u hu] at hlab
        exact absurd rfl hlab
    · intro w hw
      have hws : w = sink := by simpa using hw
      subst hws
      exact ⟨hsink, by rw [hsget]; omega, Or.inl rfl⟩
    · intro w hw
      have hws : w = sink := by simpa using hw
      subst hws
      rw [hsget]
      omega
    · exact List.pairwise_singleton _ _
    · intro w hw hlab
      by_cases hws : w = sink
      · rw [hws, hsget]
        omega
      · rw [hoget w hws, hrep w hw] at hlab
        exact absurd rfl hlab
  have hclosed0 : ∀ x, x < c.num_nodes →
      ((List.replicate c.distances.length c.num_nodes).set sink 0).getD x 0 ≠
        c.num_nodes →
      x ∈ [sink] ∨ (x = source ∧ x ≠ sink) ∨
      MaxFlow.arcClosure c
        ((List.replicate c.distances.length c.num_nodes).set sink 0) x := by
    intro x hx hlab
    by_cases hxs : x = sink
    · left
      simp [hxs]
    · rw [hoget x hxs, hrep x hx] at hlab
      exact absurd rfl hlab
  obtain ⟨d', hcoreF, hclosedF⟩ := MaxFlow.bfsLoop_inv c hwf source sink fuel 0
    ((List.replicate c.distances.length c.num_nodes).set sink 0) [sink] dist'
    hcore0 hclosed0 hbfs
  intro u hu
  constructor
  · rintro ⟨k, hpath⟩
    have hmin := MaxFlow.bfs_minimal c hwf source sink d' dist' hcoreF hclosedF
      k u hu hpath
    exact ⟨hcoreF.lt u hu hmin.1, hcoreF.sound u hu hmin.1,
      fun k' hp' => (MaxFlow.bfs_minimal c hwf source sink d' dist' hcoreF hclosedF
        k' u hu hp').2⟩
  · intro hno
    by_contra hne
    exact hno ⟨dist'.getD u 0, hcoreF.sound u hu hne⟩

/-- Closed instance of the amended C6 theorem on the three-node CSR of the
counterexample (`source = 0`, `sink = 1`): all hypotheses — well-formedness,
`sink < N`, and the successful `update_distances` run — hold by evaluation. -/
theorem claim_C6_update_distances_shortest_restricted_witness :
    ((∃ k, MaxFlow.ResPath MaxFlow.bfsWitnessCSR 0 1 2 k) →
      (MaxFlow.bfsWitnessCSRAfter.distances.getD 2 0 <
         MaxFlow.bfsWitnessCSR.num_nodes ∧
       MaxFlow.ResPath MaxFlow.bfsWitnessCSR 0 1 2
         (MaxFlow.bfsWitnessCSRAfter.distances.getD 2 0) ∧
       ∀ k, MaxFlow.ResPath MaxFlow.bfsWitnessCSR 0 1 2 k →
         MaxFlow.bfsWitnessCSRAfter.distances.getD 2 0 ≤ k)) ∧
    ((¬ ∃ k, MaxFlow.ResPath MaxFlow.bfsWitnessCSR 0 1 2 k) →
      MaxFlow.bfsWitnessCSRAfter.distances.getD 2 0 =
        MaxFlow.bfsWitnessCSR.num_nodes) :=
  claim_C6_update_distances_shortest_restricted MaxFlow.bfsWitnessCSR (by decide)
    5 0 1 (by decide) MaxFlow.bfsWitnessCSRAfter (by decide) 2 (by decide)

/-- C5: the pivot-rule contract.  For every spanning-tree state (with the
bookkeeping every state built by `SpanningTreeStructure::build` enjoys:
edge-count consistency, a cyclic cursor in range, positive block and
candidate-list sizes, candidate count within capacity) and for each of the
five rules instantiated with the primal violation `calculate_violation`:
when `find_entering_edge` answers `Some(id)`, the arc `id` has strictly
positive violation at call time, and when it answers `None`, no arc in the
edge vector has positive violation. -/
theorem claim_C5_pivot_rules_contract
    (st : MinCostFlow.SpanningTreeStructure)
    (hlen : st.edges.length = st.num_edges) :
    ((∀ id, MinCostFlow.BestEligibleArcPivotRule.find_entering_edge st
          MinCostFlow.calculate_violation = some id →
        0 < MinCostFlow.calculate_violation (st.edges.getD id default) st) ∧
      (MinCostFlow.BestEligibleArcPivotRule.find_entering_edge st
          MinCostFlow.calculate_violation = none →
        ∀ id, id < st.num_edges →
          MinCostFlow.calculate_violation (st.edges.getD id default) st ≤ 0)) ∧
    (∀ (r : MinCostFlow.FirstEligibleArcPivotRule) (res : Option Nat)
        (r' : MinCostFlow.FirstEligibleArcPivotRule),
      r.current_edge_id < st.num_edges ∨ st.num_edges = 0 →
      r.find_entering_edge st MinCostFlow.calculate_violation = (res, r') →
      (∀ id, res = some id →
        0 < MinCostFlow.calculate_violation (st.edges.getD id default) st) ∧
      (res = none → ∀ id, id < st.num_edges →
        MinCostFlow.calculate_violation (st.edges.getD id default) st ≤ 0)) ∧
    (∀ (r : MinCostFlow.BlockSearchPivotRule) (res : Option Nat)
        (r' : MinCostFlow.BlockSearchPivotRule),
      r.current_edge_id < st.num_edges ∨ st.num_edges = 0 →
      r.find_entering_edge st MinCostFlow.calculate_violation = (res, r') →
      (∀ id, res = some id →
        0 < MinCostFlow.calculate_violation (st.edges.getD id default) st) ∧
      (res = none → ∀ id, id < st.num_edges →
        MinCostFlow.calculate_violation (st.edges.getD id default) st ≤ 0)) ∧
    (∀ (r : MinCostFlow.CandidateListPivotRule) (res : Option Nat)
        (r' : MinCostFlow.CandidateListPivotRule),
      r.current_edge_id < st.num_edges ∨ st.num_edges = 0 →
      0 < r.candidate_list_size →
      r.find_entering_edge st MinCostFlow.calculate_violation = some (res, r') →
      (∀ id, res = some id →
        0 < MinCostFlow.calculate_violation (st.edges.getD id default) st) ∧
      (res = none → ∀ id, id < st.num_edges →
        MinCostFlow.calculate_violation (st.edges.getD id default) st ≤ 0)) ∧
    (∀ (r : MinCostFlow.AlteringCandidateListPivotRule) (res : Option Nat)
        (r' : MinCostFlow.AlteringCandidateListPivotRule),
      r.current_edge_id < st.num_edges ∨ st.num_edges = 0 →
      r.current_size ≤ r.candidates.length →
      r.find_entering_edge st MinCostFlow.calculate_violation = some (res, r') →
      (∀ id, res = some id →
        0 < MinCostFlow.calculate_violation (st.edges.getD id default) st) ∧
      (res = none → ∀ id, id < st.num_edges →
        MinCostFlow.calculate_violation (st.edges.getD id default) st ≤ 0)) := by
  refine ⟨?_, ?_, ?_, ?_, ?_⟩
  -- Best eligible
  · have hl : ∀ p ∈ st.edges.enum, st.edges.getD p.1 default = p.2 := by
      intro p hp
      have := MinCostFlow.enumFrom_getD st.edges 0 p (by simpa [List.enum] using hp)
      simpa using this.2.2
    have hBE := MinCostFlow.beFold_spec st MinCostFlow.calculate_violation
      st.edges.enum (0, none) (le_refl 0) (by intro id hid; simp at hid)
      (fun _ => rfl) hl
    constructor
    · intro id h
      exact hBE.1 id h
    · intro h id hid
      have hall := (hBE.2 h).2
      have hmem := MinCostFlow.enumFrom_mem st.edges 0 id (by omega)
      have := hall (0 + id, st.edges.getD id default) (by simpa [List.enum] using hmem)
      simpa using this
  -- First eligible
  · intro r res r' hval h
    cases hfe : MinCostFlow.feLoop st MinCostFlow.calculate_violation
        st.num_edges r.current_edge_id with
    | mk a b =>
      rw [MinCostFlow.FirstEligibleArcPivotRule.find_entering_edge, hfe] at h
      injection h with h1 h2
      subst h1
      constructor
      · intro id hid
        rw [hid] at hfe
        exact MinCostFlow.feLoop_some st MinCostFlow.calculate_violation
          st.num_edges r.current_edge_id id b hfe
      · intro hnone id hid
        rw [hnone] at hfe
        rcases hval with hce | hM0
        · obtain ⟨t, ht, hteq⟩ := MinCostFlow.cycHit st.num_edges r.current_edge_id id hce hid
          have := MinCostFlow.feLoop_none st MinCostFlow.calculate_violation
            st.num_edges r.current_edge_id hce (by rw [hfe]) t ht
          rw [hteq] at this
          exact this
        · omega
  -- Block search
  · intro r res r' hval h
    cases hbs : MinCostFlow.bsLoop st MinCostFlow.calculate_violation r.block_size
        st.num_edges r.current_edge_id r.block_size 0 none with
    | mk a b =>
      rw [MinCostFlow.BlockSearchPivotRule.find_entering_edge, hbs] at h
      injection h with h1 h2
      subst h1
      constructor
      · intro id hid
        rw [hid] at hbs
        exact MinCostFlow.bsLoop_some st MinCostFlow.calculate_violation r.block_size
          st.num_edges r.current_edge_id r.block_size 0 none id b (le_refl 0)
          (by intro j hj; simp at hj) hbs
      · intro hnone id hid
        rw [hnone] at hbs
        rcases hval with hce | hM0
        · obtain ⟨t, ht, hteq⟩ := MinCostFlow.cycHit st.num_edges r.current_edge_id id hce hid
          have := MinCostFlow.bsLoop_none st MinCostFlow.calculate_violation r.block_size
            st.num_edges r.current_edge_id r.block_size hce (by rw [hbs]) t ht
          rw [hteq] at this
          exact this
        · omega
  -- Candidate list
  · intro r res r' hval hlsz h
    rw [MinCostFlow.CandidateListPivotRule.find_entering_edge] at h
    by_cases hminor : 0 < r.current_size ∧ r.minor_count < r.minor_count_limit
    · rw [if_pos hminor] at h
      simp only [Option.bind_eq_bind] at h
      obtain ⟨q, hq, hrest⟩ := Option.bind_eq_some.mp h
      obtain ⟨cands1, cs1, maxi1, ent1⟩ := q
      have hmin := MinCostFlow.clMinor_inv st MinCostFlow.calculate_violation
        r.current_size 0 r.candidates r.current_size 0 none cands1 cs1 maxi1 ent1
        (le_refl 0) (by intro j hj; simp at hj) (fun _ => rfl) hq
      cases ent1 with
      | some id0 =>
          injection hrest with hrest
          injection hrest with hres hr'
          constructor
          · intro id hid
            rw [← hres] at hid
            injection hid with hid
            subst hid
            exact hmin.1 id0 rfl
          · intro hnone
            rw [← hres] at hnone
            simp at hnone
      | none =>
          simp only [Option.bind_eq_bind] at hrest
          obtain ⟨w, hw, hpure⟩ := Option.bind_eq_some.mp hrest
          obtain ⟨ce2, cands2, cs2, maxi2, ent2⟩ := w
          injection hpure with hpure
          injection hpure with hres hr'
          have hm0 : maxi1 = 0 := hmin.2 rfl
          constructor
          · intro id hid
            rw [← hres] at hid
            have := MinCostFlow.clMajor_some st r.candidate_list_size st.num_edges
              r.current_edge_id cands1 0 maxi1 none ce2 cands2 cs2 maxi2 ent2
              (by omega) (by intro j hj; simp at hj) hw id hid
            simpa [MinCostFlow.violationAt] using this
          · intro hnone id hid
            rw [← hres] at hnone
            subst hnone
            rcases hval with hce | hM0
            · rw [hm0] at hw
              obtain ⟨t, ht, hteq⟩ := MinCostFlow.cycHit st.num_edges r.current_edge_id
                id hce hid
              have := MinCostFlow.clMajor_none st r.candidate_list_size hlsz
                st.num_edges r.current_edge_id cands1 ce2 cands2 cs2 maxi2 hce hw t ht
              rw [hteq] at this
              simpa [MinCostFlow.violationAt] using this
            · omega
    · rw [if_neg hminor] at h
      simp only [Option.bind_eq_bind] at h
      obtain ⟨w, hw, hpure⟩ := Option.bind_eq_some.mp h
      obtain ⟨ce2, cands2, cs2, maxi2, ent2⟩ := w
      injection hpure with hpure
      injection hpure with hres hr'
      constructor
      · intro id hid
        rw [← hres] at hid
        have := MinCostFlow.clMajor_some st r.candidate_list_size st.num_edges
          r.current_edge_id r.candidates 0 0 none ce2 cands2 cs2 maxi2 ent2
          (le_refl 0) (by intro j hj; simp at hj) hw id hid
        simpa [MinCostFlow.violationAt] using this
      · intro hnone id hid
        rw [← hres] at hnone
        subst hnone
        rcases hval with hce | hM0
        · obtain ⟨t, ht, hteq⟩ := MinCostFlow.cycHit st.num_edges r.current_edge_id
            id hce hid
          have := MinCostFlow.clMajor_none st r.candidate_list_size hlsz
            st.num_edges r.current_edge_id r.candidates ce2 cands2 cs2 maxi2 hce hw t ht
          rw [hteq] at this
          simpa [MinCostFlow.violationAt] using this
        · omega
  -- Altering candidate list
  · intro r res r' hval hcslen h
    rw [MinCostFlow.AlteringCandidateListPivotRule.find_entering_edge] at h
    simp only [Option.bind_eq_bind] at h
    obtain ⟨p1, hupd, h1⟩ := Option.bind_eq_some.mp h
    obtain ⟨cands1, cs1⟩ := p1
    have hupd_inv := MinCostFlow.aclUpdate_inv st MinCostFlow.calculate_violation
      r.current_size 0 r.candidates r.current_size cands1 cs1
      (by intro j hj; omega) hupd
    simp only [Option.bind_eq_bind] at h1
    obtain ⟨p2, hext, h2⟩ := Option.bind_eq_some.mp h1
    obtain ⟨ce2, cands2, cs2⟩ := p2
    have hext_inv := MinCostFlow.aclExtend_inv st r.block_size st.num_edges
      r.current_edge_id cands1 cs1 r.block_size r.head_length ce2 cands2 cs2
      (by
        intro j hj
        simpa [MinCostFlow.violationAt] using hupd_inv.1 j hj)
      (by rw [hupd_inv.2.1]; omega) hext
    by_cases hcs2 : cs2 = 0
    · rw [if_pos hcs2] at h2
      injection h2 with h2
      injection h2 with hres hr'
      constructor
      · intro id hid
        rw [← hres] at hid
        simp at hid
      · intro _ id hid
        rcases hval with hce | hM0
        · rw [hcs2] at hext
          have := MinCostFlow.aclExtend_none st r.block_size st.num_edges
            r.current_edge_id cands1 cs1 r.block_size r.head_length ce2 cands2 hce hext
          obtain ⟨t, ht, hteq⟩ := MinCostFlow.cycHit st.num_edges r.current_edge_id
            id hce hid
          have h5 := this.2 t ht
          rw [hteq] at h5
          simpa [MinCostFlow.violationAt] using h5
        · omega
    · rw [if_neg hcs2] at h2
      simp only [Option.bind_eq_bind] at h2
      obtain ⟨cands3, hset3, hpure⟩ := Option.bind_eq_some.mp h2
      injection hpure with hpure
      injection hpure with hres hr'
      constructor
      · intro id hid
        rw [← hres] at hid
        injection hid with hid
        subst hid
        have hplen : ((cands2.take cs2).mergeSort (fun a b => decide (b.2 ≤ a.2))).length
            = cs2 := by
          rw [List.length_mergeSort, List.length_take]
          have := hext_inv.2.2
          omega
        have h0lt : 0 < ((cands2.take cs2).mergeSort (fun a b => decide (b.2 ≤ a.2))).length := by
          rw [hplen]
          omega
        rw [getD_append_lt _ _ _ _ h0lt]
        have hmem := MaxFlow.getD_mem
          ((cands2.take cs2).mergeSort (fun a b => decide (b.2 ≤ a.2))) 0 default h0lt
        have hmem2 := (List.mergeSort_perm (cands2.take cs2)
          (fun a b => decide (b.2 ≤ a.2))).mem_iff.mp hmem
        obtain ⟨j, hj1, hj2, hj3⟩ := MinCostFlow.mem_take_getD cands2 cs2 _ hmem2
        have hq := hext_inv.1 j hj1
        rw [hj3] at hq
        simpa [MinCostFlow.violationAt] using hq
      · intro hnone
        rw [← hres] at hnone
        simp at hnone

/-- Closed instance of the C5 theorem, at a two-node state whose single
non-tree arc `0 → 1` has cost `−1` and zero potentials, hence violation
`1 > 0`. -/
theorem claim_C5_pivot_rules_contract_witness :
    ((∀ id, MinCostFlow.BestEligibleArcPivotRule.find_entering_edge MinCostFlow.pivotWitnessState
          MinCostFlow.calculate_violation = some id →
        0 < MinCostFlow.calculate_violation
          (MinCostFlow.pivotWitnessState.edges.getD id default) MinCostFlow.pivotWitnessState) ∧
      (MinCostFlow.BestEligibleArcPivotRule.find_entering_edge MinCostFlow.pivotWitnessState
          MinCostFlow.calculate_violation = none →
        ∀ id, id < MinCostFlow.pivotWitnessState.num_edges →
          MinCostFlow.calculate_violation
            (MinCostFlow.pivotWitnessState.edges.getD id default) MinCostFlow.pivotWitnessState ≤ 0)) ∧
    (∀ (r : MinCostFlow.FirstEligibleArcPivotRule) (res : Option Nat)
        (r' : MinCostFlow.FirstEligibleArcPivotRule),
      r.current_edge_id < MinCostFlow.pivotWitnessState.num_edges ∨ MinCostFlow.pivotWitnessState.num_edges = 0 →
      r.find_entering_edge MinCostFlow.pivotWitnessState MinCostFlow.calculate_violation = (res, r') →
      (∀ id, res = some id →
        0 < MinCostFlow.calculate_violation
          (MinCostFlow.pivotWitnessState.edges.getD id default) MinCostFlow.pivotWitnessState) ∧
      (res = none → ∀ id, id < MinCostFlow.pivotWitnessState.num_edges →
        MinCostFlow.calculate_violation
          (MinCostFlow.pivotWitnessState.edges.getD id default) MinCostFlow.pivotWitnessState ≤ 0)) ∧
    (∀ (r : MinCostFlow.BlockSearchPivotRule) (res : Option Nat)
        (r' : MinCostFlow.BlockSearchPivotRule),
      r.current_edge_id < MinCostFlow.pivotWitnessState.num_edges ∨ MinCostFlow.pivotWitnessState.num_edges = 0 →
      r.find_entering_edge MinCostFlow.pivotWitnessState MinCostFlow.calculate_violation = (res, r') →
      (∀ id, res = some id →
        0 < MinCostFlow.calculate_violation
          (MinCostFlow.pivotWitnessState.edges.getD id default) MinCostFlow.pivotWitnessState) ∧
      (res = none → ∀ id, id < MinCostFlow.pivotWitnessState.num_edges →
        MinCostFlow.calculate_violation
          (MinCostFlow.pivotWitnessState.edges.getD id default) MinCostFlow.pivotWitnessState ≤ 0)) ∧
    (∀ (r : MinCostFlow.CandidateListPivotRule) (res : Option Nat)
        (r' : MinCostFlow.CandidateListPivotRule),
      r.current_edge_id < MinCostFlow.pivotWitnessState.num_edges ∨ MinCostFlow.pivotWitnessState.num_edges = 0 →
      0 < r.candidate_list_size →
      r.find_entering_edge MinCostFlow.pivotWitnessState MinCostFlow.calculate_violation
        = some (res, r') →
      (∀ id, res = some id →
        0 < MinCostFlow.calculate_violation
          (MinCostFlow.pivotWitnessState.edges.getD id default) MinCostFlow.pivotWitnessState) ∧
      (res = none → ∀ id, id < MinCostFlow.pivotWitnessState.num_edges →
        MinCostFlow.calculate_violation
          (MinCostFlow.pivotWitnessState.edges.getD id default) MinCostFlow.pivotWitnessState ≤ 0)) ∧
    (∀ (r : MinCostFlow.AlteringCandidateListPivotRule) (res : Option Nat)
        (r' : MinCostFlow.AlteringCandidateListPivotRule),
      r.current_edge_id < MinCostFlow.pivotWitnessState.num_edges ∨ MinCostFlow.pivotWitnessState.num_edges = 0 →
      r.current_size ≤ r.candidates.length →
      r.find_entering_edge MinCostFlow.pivotWitnessState MinCostFlow.calculate_violation
        = some (res, r') →
      (∀ id, res = some id →
        0 < MinCostFlow.calculate_violation
          (MinCostFlow.pivotWitnessState.edges.getD id default) MinCostFlow.pivotWitnessState) ∧
      (res = none → ∀ id, id < MinCostFlow.pivotWitnessState.num_edges →
        MinCostFlow.calculate_violation (MinCostFlow.pivotWitnessState.edges.getD id default)
          MinCostFlow.pivotWitnessState ≤ 0)) :=
  claim_C5_pivot_rules_contract MinCostFlow.pivotWitnessState (by decide)

/-- C1 (code bug): `CycleCanceling::solve` never calls `is_unbalance`.  On
the one-node graph with supply `b = [1]` (so `sum(b) = 1 ≠ 0`,
`is_unbalance = true`) it does not return `Unbalanced` before any work:
it builds and solves the extended network, returns `Infeasible`, and
overwrites the node's excess (`[1]` becomes `[0]`), while every other
minimum-cost-flow solver guards with `is_unbalance` first and leaves the
graph untouched. -/
theorem claim_C1_cycle_canceling_missing_unbalance_check :
    MinCostFlow.Graph.is_unbalance
      { num_nodes := 1, num_edges := 0, edges := [], b := [1], lowers := [],
        excesses := [1], is_reversed := [] } = true ∧
    MinCostFlow.CycleCanceling.solve 5 { csr := MinCostFlow.CSR.init }
      { num_nodes := 1, num_edges := 0, edges := [], b := [1], lowers := [],
        excesses := [1], is_reversed := [] } = some
      (MinCostFlow.Status.Infeasible,
       { num_nodes := 1, num_edges := 0, edges := [], b := [1], lowers := [],
         excesses := [0], is_reversed := [] },
       { csr := { num_nodes := 2, num_edges := 1,
                  edge_index_to_inside_edge_index := [0], excesses := [0, 0],
                  potentials := [0, 0], start := [0, 1, 2],
                  inside_edge_list :=
                    [{ «to» := 1, flow := 1, upper := 1, cost := 1, rev := 1 },
                     { «to» := 0, flow := 0, upper := 1, cost := -1, rev := 0 }] } }) ∧
    MinCostFlow.Status.Infeasible ≠ MinCostFlow.Status.Unbalanced ∧
    ([0] : List Int) ≠ [1] :=
  ⟨by decide, by decide, by decide, by decide⟩

/-- C9: `PushRelabelFIFO::solve` returns `BadInput` exactly when
`source ≥ num_nodes`, `sink ≥ num_nodes` or `source = sink`; in that case it
returns before touching anything, leaving the graph (and the solver state)
unchanged; and whenever it returns at all on a valid input, the status is
`Optimal`. -/
theorem claim_C9_push_relabel_badinput (fuel : Nat) (s : MaxFlow.PushRelabelFIFO)
    (source sink : Nat) (g : MaxFlow.Graph) (st : MaxFlow.Status)
    (g' : MaxFlow.Graph) (s' : MaxFlow.PushRelabelFIFO)
    (h : MaxFlow.PushRelabelFIFO.solve fuel s source sink g = some (st, g', s')) :
    (st = MaxFlow.Status.BadInput ↔
      (source ≥ g.num_nodes ∨ sink ≥ g.num_nodes ∨ source = sink)) ∧
    ((source ≥ g.num_nodes ∨ sink ≥ g.num_nodes ∨ source = sink) →
      g' = g ∧ s' = s) ∧
    (¬(source ≥ g.num_nodes ∨ sink ≥ g.num_nodes ∨ source = sink) →
      st = MaxFlow.Status.Optimal) := by
  rw [MaxFlow.PushRelabelFIFO.solve] at h
  by_cases hbad : source ≥ g.num_nodes ∨ sink ≥ g.num_nodes ∨ source = sink
  · rw [if_pos hbad] at h
    injection h with h
    injection h with h1 h2
    injection h2 with h2 h3
    subst h1; subst h2; subst h3
    exact ⟨⟨fun _ => hbad, fun _ => rfl⟩, fun _ => ⟨rfl, rfl⟩, fun hc => absurd hbad hc⟩
  · rw [if_neg hbad] at h
    simp only [Option.bind_eq_bind, bind, Option.bind_eq_some] at h
    obtain ⟨c1, _, h⟩ := h
    obtain ⟨s1, _, h⟩ := h
    obtain ⟨s2, _, h⟩ := h
    obtain ⟨s3, _, h⟩ := h
    injection h with h
    injection h with h1 h2
    injection h2 with h2 h3
    refine ⟨⟨fun hopt => ?_, fun hb => absurd hb hbad⟩,
      fun hb => absurd hb hbad, fun _ => h1.symm⟩
    rw [← h1] at hopt
    exact absurd hopt (by decide)

/-- Closed instance of the C9 theorem: on the one-edge graph `0 → 1`
(capacity 1) with `source = 0`, `sink = 1`, a fresh solver terminates with
status `Optimal`, and the input-validity equivalence holds with the invalid
side false. -/
theorem claim_C9_push_relabel_badinput_witness :
    (MaxFlow.Status.Optimal = MaxFlow.Status.BadInput ↔
      ((0 : Nat) ≥ 2 ∨ (1 : Nat) ≥ 2 ∨ (0 : Nat) = 1)) ∧
    (((0 : Nat) ≥ 2 ∨ (1 : Nat) ≥ 2 ∨ (0 : Nat) = 1) →
      ({ num_nodes := 2, num_edges := 1,
         edges := [{ «from» := 0, «to» := 1, flow := 1, upper := 1 }],
         excesses := [0, 0] } : MaxFlow.Graph) =
        { num_nodes := 2, num_edges := 1,
          edges := [{ «from» := 0, «to» := 1, flow := 0, upper := 1 }],
          excesses := [0, 0] } ∧
      ({ csr := { num_nodes := 2, num_edges := 1,
                  edge_index_to_inside_edge_index := [0], start := [0, 1, 2],
                  inside_edge_list := [{ «to» := 1, flow := 1, upper := 1, rev := 1 },
                                       { «to» := 0, flow := 0, upper := 1, rev := 0 }],
                  distances := [2, 0], que := [] },
         excesses := [0, 1], alpha := 0, relabel_count := 0, active_nodes := [],
         current_edge := [0, 1],
         distance_count := [1, 0, 1] } : MaxFlow.PushRelabelFIFO) =
        { csr := MaxFlow.CSR.init, excesses := [], alpha := 0, relabel_count := 0,
          active_nodes := [], current_edge := [], distance_count := [] }) ∧
    (¬((0 : Nat) ≥ 2 ∨ (1 : Nat) ≥ 2 ∨ (0 : Nat) = 1) →
      MaxFlow.Status.Optimal = MaxFlow.Status.Optimal) := by
  have hg : MaxFlow.Graph.num_nodes
      { num_nodes := 2, num_edges := 1,
        edges := [{ «from» := 0, «to» := 1, flow := 0, upper := 1 }],
        excesses := [0, 0] } = 2 := rfl
  have := claim_C9_push_relabel_badinput 20
    { csr := MaxFlow.CSR.init, excesses := [], alpha := 0, relabel_count := 0,
      active_nodes := [], current_edge := [], distance_count := [] } 0 1
    { num_nodes := 2, num_edges := 1,
      edges := [{ «from» := 0, «to» := 1, flow := 0, upper := 1 }],
      excesses := [0, 0] }
    MaxFlow.Status.Optimal
    { num_nodes := 2, num_edges := 1,
      edges := [{ «from» := 0, «to» := 1, flow := 1, upper := 1 }],
      excesses := [0, 0] }
    { csr := { num_nodes := 2, num_edges := 1,
               edge_index_to_inside_edge_index := [0], start := [0, 1, 2],
               inside_edge_list := [{ «to» := 1, flow := 1, upper := 1, rev := 1 },
                                    { «to» := 0, flow := 0, upper := 1, rev := 0 }],
               distances := [2, 0], que := [] },
      excesses := [0, 1], alpha := 0, relabel_count := 0, active_nodes := [],
      current_edge := [0, 1], distance_count := [1, 0, 1] }
    (by decide)
  rw [hg] at this
  exact this

end NetworkAlgorithms
